import Mathlib

/-!
# DS18B20 1-Wire driver: a shallow embedding

The two source files `multiple_sensors.c` and `single_sensor.c` are embedded as
state-passing functions over an abstract bus.  The bus is observed at the level
of protocol slots: one reset pulse, one sample of the line in the presence poll
loop, one read slot, one write-one slot, one write-zero slot.  Microsecond
delays are not modelled; their only role in the source is to shape these slots.

Machine integers are natural numbers; every store into an `unsigned char` or
`u8` is followed by an explicit `% 256`.  Loops whose bound is not syntactic
take fuel and return `none` when it runs out.  A read of memory through a
number used as an address gives `none` when the access faults, and so does
every function that performs it.
-/

namespace OneWire

/-! ## The bus -/

/-- The machine as the driver sees it: the bus and the memory behind small
addresses.  `reset_pulse` stands for
`onewire_low(); usleep_range(480, 500); onewire_high(); usleep_range(15, 20);`,
`poll_sample` for `udelay(5); val = gpio_get_value(bus_pin);` in the presence
poll, `read_slot` for the body of `onewire_read`, `write_one_slot` for the body
of `onewire_write_one` and `write_zero_slot` for the body of
`onewire_write_zero`.  A sampled level is `true` when the line is high.
`load a` is the byte a read of the address `a` returns, and `none` when the
access faults; the driver reads an address that is not the address of one of
its objects in one place only, the call on line 249 of `multiple_sensors.c`. -/
structure Bus (σ : Type) where
  reset_pulse : σ → σ
  poll_sample : σ → Bool × σ
  read_slot : σ → Bool × σ
  write_one_slot : σ → σ
  write_zero_slot : σ → σ
  load : Nat → Option Nat

/-- The value of `gpio_get_value` as a C `int`: 1 for a high line, 0 for low. -/
def level (v : Bool) : Nat := if v then 1 else 0

/-- Macro `#define NUM_RETRIES 50`. -/
def NUM_RETRIES : Nat := 50

/-- Macro `#define FALSE 0`. -/
def FALSE : Nat := 0

/-- Macro `#define TRUE 1`. -/
def TRUE : Nat := 1

/-- The errno constant `ECANCELED` of Linux. -/
def ECANCELED : Int := 125

variable {σ : Type}

/-- The `do ... while` loop of `onewire_reset` (lines 56-64 of
`multiple_sensors.c`, 46-54 of `single_sensor.c`).  Returns the final
`val`, `was_pulled_down`, `retries` and bus state. -/
def reset_poll (B : Bus σ) : Nat → Nat → Nat → σ → Option (Nat × Nat × Nat × σ)
  | 0, _, _, _ => none
  | fuel + 1, was_pulled_down, retries, s =>
    let (v, s1) := B.poll_sample s
    let val := level v
    let was_pulled_down1 := if was_pulled_down == 0 && val == 0 then 1 else was_pulled_down
    let retries1 := retries + 1
    if (was_pulled_down1 == 0 || (was_pulled_down1 != 0 && val == 0)) && retries1 < NUM_RETRIES then
      reset_poll B fuel was_pulled_down1 retries1 s1
    else
      some (val, was_pulled_down1, retries1, s1)

/-- Function `int onewire_reset(void)`; identical in both source files.  The result is
0 on success and `-ECANCELED` on failure. -/
def onewire_reset (B : Bus σ) (s : σ) : Option (Int × σ) :=
  match reset_poll B NUM_RETRIES 0 0 (B.reset_pulse s) with
  | none => none
  | some (_, _, retries, s1) =>
    if retries == NUM_RETRIES then some (-ECANCELED, s1) else some (0, s1)

/-- Function `inline int onewire_read(void)`. -/
def onewire_read (B : Bus σ) (s : σ) : Nat × σ :=
  let (v, s1) := B.read_slot s
  (level v, s1)

/-- The `for (i = 0; i < 8; ++i)` loop of `onewire_read_byte`; the first
argument is the number `8 - i` of iterations left. -/
def read_byte_loop (B : Bus σ) : Nat → Nat → Nat → σ → Nat × σ
  | 0, _, val, s => (val, s)
  | left + 1, i, val, s =>
    let (r, s1) := onewire_read B s
    read_byte_loop B left (i + 1) ((val ||| (r <<< i)) % 256) s1

/-- Function `u8 onewire_read_byte(void)`. -/
def onewire_read_byte (B : Bus σ) (s : σ) : Nat × σ :=
  read_byte_loop B 8 0 0 s

/-- Function `inline void onewire_write_zero(void)`. -/
def onewire_write_zero (B : Bus σ) (s : σ) : σ := B.write_zero_slot s

/-- Function `inline void onewire_write_one(void)`. -/
def onewire_write_one (B : Bus σ) (s : σ) : σ := B.write_one_slot s

/-- Function `void write_bit(char bitval)`. -/
def write_bit (B : Bus σ) (bitval : Nat) (s : σ) : σ :=
  if bitval == 1 then onewire_write_one B s else onewire_write_zero B s

/-- The `for (mask = 1; mask; mask <<= 1)` loop of `onewire_write_byte`, with
`mask` a `u8`.  The fuel is one more than the eight iterations, so that the
loop is left through its own test. -/
def write_byte_loop (B : Bus σ) (b : Nat) : Nat → Nat → σ → σ
  | 0, _, s => s
  | fuel + 1, mask, s =>
    if mask == 0 then s
    else
      let s1 := if b &&& mask != 0 then onewire_write_one B s else onewire_write_zero B s
      write_byte_loop B b fuel ((mask <<< 1) % 256) s1

/-- Function `void onewire_write_byte(u8 b)`. -/
def onewire_write_byte (B : Bus σ) (b : Nat) (s : σ) : σ :=
  write_byte_loop B b 9 1 s

/-- Function `void send_command(u8 command)`. -/
def send_command (B : Bus σ) (command : Nat) (s : σ) : σ :=
  onewire_write_byte B command s

/-! ## CRC-8 -/

/-- One pass of the inner loop body of `onewire_crc8` (lines 167-181): the
shift register after the data bit `data[i] & mask` has been clocked in. -/
def crc8_step (byte mask shift_register : Nat) : Nat :=
  let input := (if byte &&& mask != 0 then 1 else 0) ^^^ (shift_register &&& 0x01)
  let shifted_register := ((shift_register >>> 1) &&& (255 ^^^ 0x0C)) % 256
  let shifted_register :=
    (shifted_register ||| (((if shift_register &&& 0x08 != 0 then 1 else 0) ^^^ input) <<< 2)) % 256
  let shifted_register :=
    (shifted_register ||| (((if shift_register &&& 0x10 != 0 then 1 else 0) ^^^ input) <<< 3)) % 256
  let shifted_register := (shifted_register ||| (input <<< 7)) % 256
  shifted_register

/-- The inner `for (mask = 1; mask; mask <<= 1)` loop of `onewire_crc8`. -/
def crc8_byte (byte : Nat) : Nat → Nat → Nat → Nat
  | 0, _, shift_register => shift_register
  | fuel + 1, mask, shift_register =>
    if mask == 0 then shift_register
    else crc8_byte byte fuel ((mask <<< 1) % 256) (crc8_step byte mask shift_register)

/-- Function `u8 onewire_crc8(const u8 *data, size_t len)` of `multiple_sensors.c`; the
byte sequence is `data[0 .. len-1]`. -/
def onewire_crc8 (data : List Nat) : Nat :=
  data.foldl (fun shift_register byte => crc8_byte byte 9 1 shift_register) 0

/-! ## ROM search (`multiple_sensors.c`) -/

/-- The globals used by the ROM search: `ROM[8]`, `lastDiscrep`, `doneFlag`
and `dowcrc`, all `unsigned char`. -/
structure SearchState where
  ROM : List Nat
  lastDiscrep : Nat
  doneFlag : Nat
  dowcrc : Nat
deriving DecidableEq

/-- The call `onewire_crc8(ROM[n], sizeof(ROM[n]))` of line 249 of
`multiple_sensors.c`.  The first argument is the byte `ROM[n]` where
`const u8 *data` is expected and the length is 1, so `onewire_crc8` reads its
one byte `data[0]` at the address `ROM[n]`, a number in 0..255.  The result is
`none` when that read faults, and otherwise the value the call returns. -/
def crc8_at_address (B : Bus σ) (address : Nat) : Option Nat :=
  match B.load address with
  | none => none
  | some byte => some (onewire_crc8 [byte])

/-- One iteration of the `do ... while (n < 8)` loop of `next` from its first
line up to and including `write_bit(g)` (lines 216-244): the two reads, the
choice of the bit `g`, the update of `discrepMarker` and the store into
`ROM[n]`.  The arguments are the global `lastDiscrep`, the locals `m`, `n`,
`k`, `discrepMarker` and the global `ROM`.  The first component is `none` when
the reads are 1 and 1 and the loop is left through `break`, and otherwise
`g`, `discrepMarker` and `ROM`; the second is the bus state. -/
def search_bit (B : Bus σ) (lastDiscrep m n k discrepMarker : Nat) (ROM : List Nat) (s : σ) :
    Option (Nat × Nat × List Nat) × σ :=
  let (r1, s1) := onewire_read B s
  let x := if r1 == 1 then 2 else 0
  let (r2, s2) := onewire_read B s1
  let x := if r2 == 1 then x ||| 1 else x
  if x == 3 then (none, s2)
  else
    let g :=
      if x > 0 then x >>> 1
      else if m < lastDiscrep then (if (ROM.getD n 0 &&& k) > 0 then 1 else 0)
      else (if m == lastDiscrep then 1 else 0)
    let discrepMarker := if x > 0 then discrepMarker else if g == 0 then m else discrepMarker
    let ROM :=
      if g == 1 then ROM.set n ((ROM.getD n 0 ||| k) % 256)
      else ROM.set n ((ROM.getD n 0 &&& (255 ^^^ k)) % 256)
    (some (g, discrepMarker, ROM), write_bit B g s2)

/-- The `do ... while (n < 8)` loop of `next` (lines 214-254).  The arguments
after the fuel are the locals `m`, `n`, `k`, `discrepMarker` and the global
`ROM`; the global `lastDiscrep` is only read inside the loop.  Each iteration
is `search_bit` followed by lines 245-251: after the last bit of each byte
(`k == 0`) the loop makes the call of line 249 with the byte `ROM[n]` as the
address; the value of the call is dropped, and the loop has no result when
the call faults.  Returns `m`, `discrepMarker`, `ROM` and the bus state. -/
def search_loop (B : Bus σ) (lastDiscrep : Nat) :
    Nat → Nat → Nat → Nat → Nat → List Nat → σ → Option (Nat × Nat × List Nat × σ)
  | 0, _, _, _, _, _, _ => none
  | fuel + 1, m, n, k, discrepMarker, ROM, s =>
    match search_bit B lastDiscrep m n k discrepMarker ROM s with
    | (none, s2) => some (m, discrepMarker, ROM, s2)
    | (some (_, discrepMarker, ROM), s3) =>
      let m := (m + 1) % 256
      let k := (k <<< 1) % 256
      if k == 0 then
        match crc8_at_address B (ROM.getD n 0) with
        | none => none
        | some _ =>
          let n := (n + 1) % 256
          let k := (k + 1) % 256
          if n < 8 then search_loop B lastDiscrep fuel m n k discrepMarker ROM s3
          else some (m, discrepMarker, ROM, s3)
      else
        if n < 8 then search_loop B lastDiscrep fuel m n k discrepMarker ROM s3
        else some (m, discrepMarker, ROM, s3)

/-- Function `unsigned char next(void)`.  Returns the result `nxt`, the globals and the
bus state. -/
def next (B : Bus σ) (g : SearchState) (s : σ) : Option (Nat × SearchState × σ) :=
  let g := { g with dowcrc := 0 }
  match onewire_reset B s with
  | none => none
  | some (flag, s1) =>
    if flag != 0 || g.doneFlag != 0 then
      some (FALSE, { g with lastDiscrep := 0 }, s1)
    else
      let s2 := send_command B 0xF0 s1
      match search_loop B g.lastDiscrep 64 1 0 1 0 g.ROM s2 with
      | none => none
      | some (m, discrepMarker, ROM, s3) =>
        if m < 65 || g.dowcrc != 0 then
          some (FALSE, { g with ROM := ROM, lastDiscrep := 0 }, s3)
        else
          some (TRUE, { g with ROM := ROM, lastDiscrep := discrepMarker,
                               doneFlag := if discrepMarker == 0 then 1 else 0 }, s3)

/-- Function `unsigned char first(void)`. -/
def first (B : Bus σ) (g : SearchState) (s : σ) : Option (Nat × SearchState × σ) :=
  next B { g with lastDiscrep := 0, doneFlag := FALSE } s

/-! ## Measurement (`read_temp`) -/

/-- The `for (i = 0; i < 8; i++)` loop of `match_rom`, as `rom[i]` runs over
the eight bytes of the code. -/
def match_rom_loop (B : Bus σ) : List Nat → σ → σ
  | [], s => s
  | b :: rest, s => match_rom_loop B rest (onewire_write_byte B b s)

/-- Function `void match_rom(unsigned char *rom)`; `rom` is the list of the eight bytes
`rom[0..7]`. -/
def match_rom (B : Bus σ) (rom : List Nat) (s : σ) : σ :=
  match_rom_loop B (rom.take 8) (send_command B 0x55 s)

/-- The completion poll `while (onewire_read_byte() == 0);`. -/
def poll_conversion (B : Bus σ) : Nat → σ → Option σ
  | 0, _ => none
  | fuel + 1, s =>
    let (b, s1) := onewire_read_byte B s
    if b == 0 then poll_conversion B fuel s1 else some s1

/-- Lines 340-350 of `read_temp` in `multiple_sensors.c` (205-215 in
`single_sensor.c`): the pair `(temp, temp_d)` computed from the two scratchpad
bytes. -/
def decode_temp (temp_lsb temp_msb : Nat) : Int × Int :=
  let temp : Nat := (temp_msb &&& 0x07) <<< 4
  let temp : Nat := temp ||| (temp_lsb >>> 4)
  let temp_d : Nat := temp_lsb &&& 0x0F
  let temp_d : Int := (temp_d : Int) * 625
  let sign := (temp_msb &&& 0x80) % 256
  let temp : Int := if sign != 0 then (127 - (temp : Int)) * (-1) else (temp : Int)
  (temp, temp_d)

/-- The conversion `%d` of `sprintf` for an `int`. -/
def printf_d (i : Int) : String :=
  if i < 0 then "-" ++ Nat.repr i.natAbs else Nat.repr i.toNat

/-- Lines 352-359 of `read_temp` in `multiple_sensors.c` (217-224 in
`single_sensor.c`): the string left in `buf`. -/
def format_temp (temp temp_d : Int) : String :=
  if temp_d < 1000 then printf_d temp ++ ",0" ++ printf_d temp_d ++ "°C"
  else printf_d temp ++ "," ++ printf_d temp_d ++ "°C"

/-- Function `void read_temp(char *buf, unsigned char *rom)` of `multiple_sensors.c`.
`buf` is the string held by the caller's buffer; the result is the string it
holds afterwards and the bus state. -/
def read_temp (B : Bus σ) (fuel : Nat) (buf : String) (rom : List Nat) (s : σ) :
    Option (String × σ) :=
  match onewire_reset B s with
  | none => none
  | some (reset_response, s1) =>
    if reset_response != 0 then some (buf, s1)
    else
      let s2 := match_rom B rom s1
      let s3 := send_command B 0x44 s2
      match poll_conversion B fuel s3 with
      | none => none
      | some s4 =>
        match onewire_reset B s4 with
        | none => none
        | some (_, s5) =>
          let s6 := match_rom B rom s5
          let s7 := send_command B 0xBE s6
          let (temp_lsb, s8) := onewire_read_byte B s7
          let (temp_msb, s9) := onewire_read_byte B s8
          let (temp, temp_d) := decode_temp temp_lsb temp_msb
          some (format_temp temp temp_d, s9)

end OneWire

/-! ## `single_sensor.c` -/

namespace single_sensor

open OneWire

variable {σ : Type}

/-- The inner loop body of `onewire_crc8` in `single_sensor.c` (lines 145-159). -/
def crc8_step (byte mask shift_register : Nat) : Nat :=
  let input := (if byte &&& mask != 0 then 1 else 0) ^^^ (shift_register &&& 0x01)
  let shifted_register := ((shift_register >>> 1) &&& (255 ^^^ 0x0C)) % 256
  let shifted_register :=
    (shifted_register ||| (((if shift_register &&& 0x08 != 0 then 1 else 0) ^^^ input) <<< 2)) % 256
  let shifted_register :=
    (shifted_register ||| (((if shift_register &&& 0x10 != 0 then 1 else 0) ^^^ input) <<< 3)) % 256
  let shifted_register := (shifted_register ||| (input <<< 7)) % 256
  shifted_register

/-- The inner `for (mask = 1; mask; mask <<= 1)` loop of `onewire_crc8` in
`single_sensor.c`. -/
def crc8_byte (byte : Nat) : Nat → Nat → Nat → Nat
  | 0, _, shift_register => shift_register
  | fuel + 1, mask, shift_register =>
    if mask == 0 then shift_register
    else crc8_byte byte fuel ((mask <<< 1) % 256) (crc8_step byte mask shift_register)

/-- Function `u8 onewire_crc8(const u8 *data, size_t len)` of `single_sensor.c`. -/
def onewire_crc8 (data : List Nat) : Nat :=
  data.foldl (fun shift_register byte => crc8_byte byte 9 1 shift_register) 0

/-- Function `void read_temp(char *buf)` of `single_sensor.c`. -/
def read_temp (B : Bus σ) (fuel : Nat) (buf : String) (s : σ) : Option (String × σ) :=
  match onewire_reset B s with
  | none => none
  | some (reset_response, s1) =>
    if reset_response != 0 then some (buf, s1)
    else
      let s2 := send_command B 0xCC s1
      let s3 := send_command B 0x44 s2
      match poll_conversion B fuel s3 with
      | none => none
      | some s4 =>
        match onewire_reset B s4 with
        | none => none
        | some (_, s5) =>
          let s6 := send_command B 0xCC s5
          let s7 := send_command B 0xBE s6
          let (temp_lsb, s8) := onewire_read_byte B s7
          let (temp_msb, s9) := onewire_read_byte B s8
          let (temp, temp_d) := decode_temp temp_lsb temp_msb
          some (format_temp temp temp_d, s9)

end single_sensor

namespace OneWire

/-! ## A recording line: the bus as a script of sampled levels -/

/-- What the driver did on the line, one entry per slot. -/
inductive Event where
  | reset_pulse
  | sample (v : Bool)
  | read (v : Bool)
  | write_one
  | write_zero
deriving DecidableEq

/-- A scripted line.  `line` holds the levels the next samples will see, in
order (a sample in the presence poll and a read slot each take one); when it
is used up the line idles high.  `log` records every slot issued so far. -/
structure Wire where
  line : List Bool
  log : List Event
deriving DecidableEq

/-- The scripted, recording bus.  The driver is kernel code and no page is
mapped at the addresses 0..255: every read there faults. -/
def wire : Bus Wire where
  reset_pulse w := { w with log := w.log ++ [Event.reset_pulse] }
  poll_sample w :=
    (w.line.headD true, { line := w.line.tail, log := w.log ++ [Event.sample (w.line.headD true)] })
  read_slot w :=
    (w.line.headD true, { line := w.line.tail, log := w.log ++ [Event.read (w.line.headD true)] })
  write_one_slot w := { w with log := w.log ++ [Event.write_one] }
  write_zero_slot w := { w with log := w.log ++ [Event.write_zero] }
  load _ := none

/-- The machine `B` with `mem` as the memory behind small addresses. -/
def withLoad {σ : Type} (B : Bus σ) (mem : Nat → Option Nat) : Bus σ := { B with load := mem }

/-- The machine `B` with every small address readable, holding 0.  On it the
call of line 249 returns, and since its value is dropped the search runs as it
does in a build in which the compiler has removed the call. -/
def readable {σ : Type} (B : Bus σ) : Bus σ := withLoad B (fun _ => some 0)

/-- The `i`-th level of a script, counted from 1; high once the script is used
up. -/
def sampleAt (line : List Bool) (i : Nat) : Bool := line.getD (i - 1) true

/-- The eight write slots of a byte, least significant bit first. -/
def writeSlots (b : Nat) : List Event :=
  (List.range 8).map (fun i => if b.testBit i then Event.write_one else Event.write_zero)

/-- The write slots of a sequence of bytes. -/
def writeBytes (bs : List Nat) : List Event := bs.flatMap writeSlots

/-- The read slots that sampled the given levels. -/
def readSlots (vs : List Bool) : List Event := vs.map Event.read

/-- The value of eight sampled bits `s0 .. s7`: the sum of `si * 2^i`. -/
def bitsValue : List Bool → Nat
  | [] => 0
  | v :: vs => level v + 2 * bitsValue vs

/-- The bit written by a write slot (other events carry none). -/
def slotBit : Event → Option Bool
  | Event.write_one => some true
  | Event.write_zero => some false
  | _ => none

/-! ## A simulated bus with several devices -/

/-- Where the devices of the simulated bus are in the protocol. -/
inductive Stage where
  | idle
  | command (bits : List Bool)
  | search (pos : Nat) (complement : Bool)
deriving DecidableEq

/-- The simulated bus.  `devices` are the 64-bit ROM codes of the attached
devices (bit `p` of a code is `Nat.testBit code p`, so position 1 of the
search is bit 0 of byte 0), `selected` the devices still taking part in the
running search, `polls` the number of presence samples since the last reset
pulse. -/
structure Sim where
  devices : List Nat
  selected : List Nat
  stage : Stage
  polls : Nat
deriving DecidableEq

/-- The command byte Search-ROM as its write slots see it, least significant
bit first. -/
def searchRomBits : List Bool := [false, false, false, false, true, true, true, true]

/-- A write slot carrying bit `b` on the simulated bus.  In the command stage
the bit is collected; the eighth bit completes the command, and Search-ROM
starts a search at position 0 with every device selected.  In a search the bit
deselects the devices whose bit at the current position differs. -/
def Sim.write (b : Bool) (s : Sim) : Sim :=
  match s.stage with
  | Stage.idle => s
  | Stage.command bits =>
    if bits.length + 1 < 8 then { s with stage := Stage.command (bits ++ [b]) }
    else if bits ++ [b] = searchRomBits then
      { s with stage := Stage.search 0 false, selected := s.devices }
    else { s with stage := Stage.idle }
  | Stage.search pos _ =>
    { s with selected := s.selected.filter (fun d => d.testBit pos == b),
             stage := if pos + 1 < 64 then Stage.search (pos + 1) false else Stage.idle }

/-- A read slot on the simulated bus: in a search, the wired-AND of the
selected devices' bit at the current position, then of its complement; the
line idles high otherwise. -/
def Sim.read (s : Sim) : Bool × Sim :=
  match s.stage with
  | Stage.search pos false =>
    (s.selected.all (fun d => d.testBit pos), { s with stage := Stage.search pos true })
  | Stage.search pos true =>
    (s.selected.all (fun d => !d.testBit pos), { s with stage := Stage.search pos false })
  | _ => (true, s)

/-- The simulated bus.  After a reset pulse the attached devices, if any, hold
the line low for the first presence sample and release it afterwards.  As on
`wire`, every read of an address 0..255 faults. -/
def simBus : Bus Sim where
  reset_pulse s := { s with selected := s.devices, stage := Stage.command [], polls := 0 }
  poll_sample s := (s.devices.isEmpty || s.polls != 0, { s with polls := s.polls + 1 })
  read_slot s := s.read
  write_one_slot s := s.write true
  write_zero_slot s := s.write false
  load _ := none

/-- The 64-bit value of a ROM buffer, byte 0 least significant. -/
def romValue (ROM : List Nat) : Nat :=
  ROM.foldr (fun b acc => b + 256 * acc) 0

/-- The state after the `i`-th call of the enumeration: call 0 is `first()`,
every later call is `next()`. -/
def enumCall (B : Bus σ) (g : SearchState) (s : σ) : Nat → Option (Nat × SearchState × σ)
  | 0 => first B g s
  | i + 1 =>
    match enumCall B g s i with
    | none => none
    | some (_, g1, s1) => next B g1 s1

/-- The order that compares two codes at the lowest bit position where they
differ and puts the code with 0 there first. -/
def treeLt (c d : Nat) : Prop :=
  ∃ p, p < 64 ∧ (∀ q, q < p → c.testBit q = d.testBit q) ∧ c.testBit p = false ∧ d.testBit p = true

/-! ## The CRC-8 of the specification -/

/-- The Dallas/Maxim CRC-8 register update for one data bit, as the
specification words it: shift right, and XOR with the reflected constant 0x8C
when bit 0 of the register XOR the data bit is 1. -/
def dallas_bit (register : Nat) (bit : Bool) : Nat :=
  if (register.testBit 0 != bit) then (register >>> 1) ^^^ 0x8C else register >>> 1

/-- The specification's update for one byte: its bits from least to most
significant. -/
def dallas_byte (register byte : Nat) : Nat :=
  (List.range 8).foldl (fun r i => dallas_bit r (byte.testBit i)) register

/-- The specification's CRC-8 of a byte sequence: initial value 0, bytes in
input order. -/
def dallas_crc8 (data : List Nat) : Nat := data.foldl dallas_byte 0

/-- The number read back from a string of decimal digits. -/
def decimalValue (cs : List Char) : Nat :=
  cs.foldl (fun acc c => 10 * acc + (c.toNat - 48)) 0

/-- The presence samples a reset records when it takes `n` of them from the
script `line`. -/
def sampleEvents (line : List Bool) (n : Nat) : List Event :=
  (List.range n).map (fun i => Event.sample (sampleAt line (i + 1)))

/-- The number of presence samples `onewire_reset` takes on the script `line`:
the final value of its local `retries`. -/
def resetSamples (line : List Bool) : Nat :=
  match reset_poll wire NUM_RETRIES 0 0 ⟨line, []⟩ with
  | some (_, _, retries, _) => retries
  | none => 0

/-- What `onewire_reset` records on the script `line`: the reset pulse and its
presence samples. -/
def resetEvents (line : List Bool) : List Event :=
  Event.reset_pulse :: sampleEvents line (resetSamples line)

/-- A script for one measurement: the presence pulse, one zero poll byte and
the poll byte 0x01, a second presence pulse, then the scratchpad bytes 0x91
and 0x01. -/
def demoLine : List Bool :=
  [false, true] ++ List.replicate 8 false ++ [true, false, false, false, false, false, false, false]
    ++ ([false, true] ++ ([true, false, false, false, true, false, false, true]
    ++ [true, false, false, false, false, false, false, false] ++ []))

/-- Bit `q` of a ROM buffer: bit `q % 8` of byte `q / 8`. -/
def romBit (ROM : List Nat) (q : Nat) : Bool := (ROM.getD (q / 8) 0).testBit (q % 8)

/-- The ROM buffer after lines 240-243 of `next` stored the bit `g` at
position `p` (byte `p / 8`, mask `2 ^ (p % 8)`). -/
def storeBit (ROM : List Nat) (p : Nat) (g : Bool) : List Nat :=
  if g then ROM.set (p / 8) ((ROM.getD (p / 8) 0 ||| 2 ^ (p % 8)) % 256)
  else ROM.set (p / 8) ((ROM.getD (p / 8) 0 &&& (255 ^^^ 2 ^ (p % 8))) % 256)

/-- The bit `next` records and writes at 0-based position `p` (its `g`), given
the stored `lastDiscrep`, the ROM buffer and the devices still selected. -/
def pickBit (L : Nat) (ROM : List Nat) (sel : List Nat) (p : Nat) : Bool :=
  if sel.all (fun d => d.testBit p) then true
  else if sel.all (fun d => !d.testBit p) then false
  else if p + 1 < L then romBit ROM p else decide (p + 1 = L)

/-- The local `discrepMarker` of `next` after position `p`. -/
def nextMarker (L : Nat) (ROM : List Nat) (sel : List Nat) (p marker : Nat) : Nat :=
  if !sel.all (fun d => d.testBit p) && !sel.all (fun d => !d.testBit p)
      && !pickBit L ROM sel p then p + 1 else marker

/-- The simulated bus after the write slot of position `p` carried `g`. -/
def afterWrite (s : Sim) (p : Nat) (g : Bool) : Sim :=
  { s with selected := s.selected.filter (fun d => d.testBit p == g),
           stage := if p + 1 < 64 then Stage.search (p + 1) false else Stage.idle }

/-- The code `d` has the bits `β` at every position below `p`. -/
def Agree (d : Nat) (β : Nat → Bool) (p : Nat) : Prop := ∀ q, q < p → d.testBit q = β q

/-- At position `q` the path `β` took 0 while a device on the same path has 1
there: an unexplored branch. -/
def Branch (D : List Nat) (β : Nat → Bool) (q : Nat) : Prop :=
  β q = false ∧ ∃ d, d ∈ D ∧ Agree d β q ∧ d.testBit q = true

/-- The value `marker` is 0 when the path `β` has no unexplored branch below position
`p`, and otherwise the 1-based position of the highest one. -/
def Marker (D : List Nat) (β : Nat → Bool) (p marker : Nat) : Prop :=
  (marker = 0 ∨ (marker ≤ p ∧ Branch D β (marker - 1))) ∧
    ∀ q, q < p → Branch D β q → q < marker

/-- Below position `p`, wherever the devices on the path `β` disagree, `β`
follows the previous path `β0` below `L`, takes 1 at `L` and 0 above. -/
def Choice (D : List Nat) (L : Nat) (β0 β : Nat → Bool) (p : Nat) : Prop :=
  ∀ q, q < p → (∃ d, d ∈ D ∧ Agree d β q ∧ d.testBit q = true) →
    (∃ d, d ∈ D ∧ Agree d β q ∧ d.testBit q = false) →
    β q = if q + 1 < L then β0 q else decide (q + 1 = L)

/-- The state of a search pass before position `p` (0-based): the simulated
bus is at `p` with exactly the devices on the path selected, the buffer holds
the path below `p` and the previous code from `p` on. -/
structure PassInv (D : List Nat) (L : Nat) (β0 : Nat → Bool) (p marker : Nat) (ROM : List Nat)
    (s : Sim) : Prop where
  stage : s.stage = if p < 64 then Stage.search p false else Stage.idle
  devices : s.devices = D
  selected : ∀ d, d ∈ s.selected ↔ d ∈ D ∧ Agree d (romBit ROM) p
  nonempty : ∃ d, d ∈ s.selected
  length : ROM.length = 8
  rest : ∀ q, p ≤ q → romBit ROM q = β0 q
  choice : Choice D L β0 (romBit ROM) p
  marker : Marker D (romBit ROM) p marker
  bytes : ∀ idx, 8 * idx < p → ROM.getD idx 0 < 256

/-- Between two calls of the search: `c` is the code of an attached device and
`L` is 0 when no device branches off the path of `c` at a position where `c`
has 0, and otherwise the highest such position (1-based). -/
def Good (D : List Nat) (c L : Nat) : Prop := c ∈ D ∧ Marker D c.testBit 64 L

/-- The search globals and the simulated bus after a successful call that
returned the code `c` and left `lastDiscrep = L`. -/
structure After (D : List Nat) (c L : Nat) (g : SearchState) (s : Sim) : Prop where
  devices : s.devices = D
  length : g.ROM.length = 8
  value : romValue g.ROM = c
  bits : ∀ q, romBit g.ROM q = c.testBit q
  last : g.lastDiscrep = L
  done : g.doneFlag = if L == 0 then 1 else 0
  good : Good D c L

/-- The code in the ROM buffer after the `i`-th call of the enumeration on the
simulated bus of a machine whose small addresses are readable. -/
def enumCode (g : SearchState) (s : Sim) (i : Nat) : Nat :=
  match enumCall (readable simBus) g s i with
  | some (_, gi, _) => romValue gi.ROM
  | none => 0

/-- The codes in the ROM buffer after the calls 0, ..., `n - 1`. -/
def enumCodes (g : SearchState) (s : Sim) (n : Nat) : List Nat :=
  (List.range n).map (enumCode g s)

/-- After call `i` of the enumeration: the call succeeded with a code `c`, and
the codes returned by the earlier calls are exactly the attached devices that
come before `c` in the tree order, each once. -/
def EnumInv (D : List Nat) (g : SearchState) (s : Sim) (i : Nat) (c L : Nat)
    (gi : SearchState) (si : Sim) : Prop :=
  enumCall (readable simBus) g s i = some (TRUE, gi, si) ∧ After D c L gi si ∧
    (∀ d, d ∈ D → (treeLt d c ↔ d ∈ enumCodes g s i)) ∧
    (enumCodes g s i).Nodup ∧ (∀ d, d ∈ enumCodes g s i → d ∈ D)

/-- The first `n` bits of a code read with bit 0 as the most significant one. -/
def revBits (c : Nat) (n : Nat) : Nat :=
  (List.range n).foldl (fun acc p => 2 * acc + (if c.testBit p then 1 else 0)) 0

/-- A code read as a 64-bit integer whose high-order bit is bit 0 of byte 0
and whose low-order bit is bit 7 of byte 7. -/
def rev64 (c : Nat) : Nat := revBits c 64

/-- Search globals for the examples: a used buffer, a stale marker and the
done flag still set from an earlier enumeration. -/
def demoState : SearchState := ⟨[9, 9, 9, 9, 9, 9, 9, 9], 7, 1, 3⟩

/-- The simulated bus with the given devices attached, idle. -/
def demoSim (D : List Nat) : Sim := ⟨D, [], Stage.idle, 0⟩

/-! ## Enumeration into the found-ROM table and the host read (`multiple_sensors.c`) -/

/-- The errno constant `EFAULT` of Linux. -/
def EFAULT : Int := 14

/-- The C function `strlen` on the string a buffer holds: its length in bytes.
The source files are UTF-8, so the degree sign of the unit takes two bytes. -/
def strlen (s : String) : Nat := s.utf8ByteSize

/-- The globals of `multiple_sensors.c`: the search globals, the table
`unsigned char foundROMs[5][8]` as its five rows, and `numROMs`. -/
structure Driver where
  search : SearchState
  foundROMs : List (List Nat)
  numROMs : Nat
deriving DecidableEq

/-- The number of rows of `foundROMs` as declared on line 28. -/
def FOUND_ROWS : Nat := 5

/-- The inner loop `for (m = 0; m < 8; m++) foundROMs[numROMs][m] = ROM[m];` of
`find_sensors`: the row it stores. -/
def copy_row (ROM : List Nat) : List Nat :=
  (List.range 8).map (fun m => ROM.getD m 0)

/-- The `do ... while (next() && (numROMs < 10))` loop of `find_sensors`
(lines 281-288).  The arguments after the fuel are the search globals, the
table, `numROMs` and the list of the row indices stored at so far.  What a
store outside the declared table hits depends on where the compiler has put
the other objects, which the source does not say; the loop is therefore
followed up to the first such store and no further: it ends there with the
offending row index as the last entry of the list and with the globals and
the bus state as they are just before the store.  Returns the search globals,
the table, `numROMs`, the row indices and the bus state. -/
def find_loop (B : Bus σ) : Nat → SearchState → List (List Nat) → Nat → List Nat → σ →
    Option (SearchState × List (List Nat) × Nat × List Nat × σ)
  | 0, _, _, _, _, _ => none
  | fuel + 1, g, table, numROMs, rows, s =>
    let numROMs := (numROMs + 1) % 256
    let rows := rows ++ [numROMs]
    if numROMs < FOUND_ROWS then
      let table := table.set numROMs (copy_row g.ROM)
      match next B g s with
      | none => none
      | some (nxt, g1, s1) =>
        if nxt != 0 && numROMs < 10 then find_loop B fuel g1 table numROMs rows s1
        else some (g1, table, numROMs, rows, s1)
    else some (g, table, numROMs, rows, s)

/-- Function `void find_sensors(void)`.  Returns the globals, the row indices
of `foundROMs` it stored at, in order, and the bus state.  When the last row
index is outside the table the run was followed only up to that store (see
`find_loop`). -/
def find_sensors (B : Bus σ) (G : Driver) (s : σ) : Option (Driver × List Nat × σ) :=
  match onewire_reset B s with
  | none => none
  | some (reset_response, s1) =>
    if reset_response == 0 then
      match first B G.search s1 with
      | none => none
      | some (found, g1, s2) =>
        if found != 0 then
          match find_loop B 10 g1 G.foundROMs 0 [] s2 with
          | none => none
          | some (g2, table, numROMs, rows, s3) =>
            some ({ search := g2, foundROMs := table, numROMs := numROMs }, rows, s3)
        else some ({ G with search := g1 }, [], s2)
    else some (G, [], s1)

/-- Lines 379-404 of `my_read` in `multiple_sensors.c`: the enumeration, the
measurements and the string assembled in `buffer_out`; the string is `none`
when the function returns early through `numROMs == 0`.  `temp0` and `temp1`
are the strings the uninitialised stack buffers `temp[0]` and `temp[1]` happen
to hold.  The loop over `i` runs for `i = 1` and, when `2 <= numROMs`, for
`i = 2`, where it leaves through `break`.  Returns the string, the row
indices of `foundROMs` read, the globals and the bus state.  The allocation
with `kmalloc` is not modelled.  There is no result when `find_sensors` has
stored outside the table. -/
def read_cycle (B : Bus σ) (fuel : Nat) (G : Driver) (temp0 temp1 : String) (s : σ) :
    Option (Option String × List Nat × Driver × σ) :=
  match find_sensors B G s with
  | none => none
  | some (G1, stored, s1) =>
    if stored.any (fun row => FOUND_ROWS ≤ row) then none
    else if G1.numROMs == 0 then some (none, [], G1, s1)
    else
      match read_temp B fuel temp0 (G1.foundROMs.getD 1 []) s1 with
      | none => none
      | some (t0, s2) =>
        match (if 2 ≤ G1.numROMs then read_temp B fuel temp1 (G1.foundROMs.getD 2 []) s2
               else some (temp1, s2)) with
        | none => none
        | some (t1, s3) =>
          some (some (t0 ++ " | " ++ t1), if 2 ≤ G1.numROMs then [1, 2] else [1], G1, s3)

/-- Function `static int my_read(...)` of `multiple_sensors.c`.  `fault` tells
whether `copy_to_user` reports a fault, `size` is the requested byte count
and `offset` the value of `*offset`.  Returns the result, the new `*offset`,
the string copied to the user buffer (if any), the row indices of `foundROMs`
read, the globals and the bus state. -/
def my_read (B : Bus σ) (fuel : Nat) (G : Driver) (temp0 temp1 : String) (fault : Bool)
    (size : Nat) (offset : Int) (s : σ) :
    Option (Int × Int × Option String × List Nat × Driver × σ) :=
  if size == 0 then some (0, offset, none, [], G, s)
  else
    match read_cycle B fuel G temp0 temp1 s with
    | none => none
    | some (none, rows, G1, s1) => some (0, offset, none, rows, G1, s1)
    | some (some buffer_out, rows, G1, s1) =>
      let cnt : Int := strlen buffer_out
      if offset ≥ cnt then some (0, offset, none, rows, G1, s1)
      else if fault then some (-EFAULT, offset, none, rows, G1, s1)
      else some (cnt, offset + cnt, some buffer_out, rows, G1, s1)

end OneWire

namespace single_sensor

open OneWire

/-- Function `static int my_read(...)` of `single_sensor.c`.  `buf0` is the
string the uninitialised stack buffer `buf` happens to hold, `fault` tells
whether `copy_to_user` reports a fault, `size` is the requested byte count
and `offset` the value of `*offset`.  Returns the result, the new `*offset`,
the string copied to the user buffer (if any) and the bus state. -/
def my_read (B : Bus σ) (fuel : Nat) (buf0 : String) (fault : Bool) (size : Nat)
    (offset : Int) (s : σ) : Option (Int × Int × Option String × σ) :=
  if size == 0 then some (0, offset, none, s)
  else
    match read_temp B fuel buf0 s with
    | none => none
    | some (buf, s1) =>
      let cnt : Int := strlen buf
      if offset ≥ cnt then some (0, offset, none, s1)
      else if fault then some (-EFAULT, offset, none, s1)
      else some (cnt, offset + cnt, some buf, s1)

end single_sensor

namespace OneWire

/-- The globals for the examples: an earlier enumeration left two codes in the
table and `numROMs = 2`. -/
def demoDriver : Driver :=
  ⟨demoState, [[0, 0, 0, 0, 0, 0, 0, 0], [0x28, 1, 2, 3, 4, 5, 6, 0x77],
    [0x28, 9, 2, 3, 4, 5, 6, 0x78], [0, 0, 0, 0, 0, 0, 0, 0], [0, 0, 0, 0, 0, 0, 0, 0]], 2⟩

/-- A script on which the measurement gets its first presence pulse and the
poll byte 0x01, and then nothing answers any more: the line idles high. -/
def lostLine : List Bool := [false, true, true, false, false, false, false, false, false, false]

/-- The bit `next` records and writes at 0-based position `p` (its `g`), given
the bit read `b1` and the complement read `b2` of that position. -/
def pickRead (L : Nat) (ROM : List Nat) (p : Nat) (b1 b2 : Bool) : Bool :=
  if b1 then true
  else if b2 then false
  else if p + 1 < L then romBit ROM p else decide (p + 1 = L)

/-- The write slot that carries the bit `g`. -/
def writeEvent (g : Bool) : Event := if g then Event.write_one else Event.write_zero

/-- The bit read and the complement read that position `p` (0-based) of the
search finds on the script `line`: the reset takes its presence samples, the
command byte takes none, and every position takes two. -/
def searchReads (line : List Bool) (p : Nat) : Bool × Bool :=
  ((line.drop (resetSamples line)).getD (2 * p) true,
   (line.drop (resetSamples line)).getD (2 * p + 1) true)

/-- A ROM code whose byte 7 is not the CRC-8 of its bytes 0..6. -/
def badCrcRom : List Nat := [0x28, 1, 2, 3, 4, 5, 6, 0x77]

/-- The bit `next` chooses at 0-based position `p` when both reads return 0
(lines 232-235): below the stored `lastDiscrep` the bit the ROM buffer holds
there, at `lastDiscrep` 1, above it 0. -/
def disagreeBit (L : Nat) (ROM : List Nat) (p : Nat) : Bool :=
  if p + 1 < L then romBit ROM p else decide (p + 1 = L)

/-- A script for one search pass: the presence pulse, both reads 0 at position
1, and at every later position the bit read 0 and the complement read 1. -/
def discrepLine : List Bool :=
  [false, true, false, false] ++ (List.replicate 63 [false, true]).flatten

end OneWire

/-! # Theorems -/

namespace OneWire

variable {σ : Type}

/-! ## Bit masks -/

theorem and_two_pow_ne_zero (b i : Nat) : (b &&& 2 ^ i != 0) = b.testBit i := by
  cases h : b.testBit i
  · have : b &&& 2 ^ i = 0 := by
      apply Nat.eq_of_testBit_eq
      intro j
      simp only [Nat.testBit_and, Nat.testBit_two_pow, Nat.zero_testBit]
      by_cases hij : i = j
      · subst hij; simp [h]
      · simp [hij]
    simp [this]
  · have : (b &&& 2 ^ i).testBit i = true := by
      simp [Nat.testBit_and, Nat.testBit_two_pow, h]
    have hne : b &&& 2 ^ i ≠ 0 := by
      intro h0
      rw [h0] at this
      simp at this
    simpa using hne

theorem mask_lt (i : Nat) (h : i < 8) : 2 ^ i % 256 = 2 ^ i ∧ 2 ^ i ≠ 0 ∧
    ((2 ^ i % 256) <<< 1) % 256 = 2 ^ (i + 1) % 256 := by
  interval_cases i <;> decide

/-! ## CRC-8 -/

set_option maxRecDepth 1000000 in
theorem crc8_core (sr : Nat) (h : sr < 256) (b : Bool) :
    (let input := (if b then 1 else 0) ^^^ (sr &&& 0x01)
     (((((((sr >>> 1) &&& (255 ^^^ 0x0C)) % 256 |||
       (((if sr &&& 0x08 != 0 then 1 else 0) ^^^ input) <<< 2)) % 256) |||
       (((if sr &&& 0x10 != 0 then 1 else 0) ^^^ input) <<< 3)) % 256) |||
       (input <<< 7)) % 256) = dallas_bit sr b ∧ dallas_bit sr b < 256 := by
  revert b
  revert sr
  decide

theorem crc8_step_eq (byte i sr : Nat) (h : sr < 256) :
    crc8_step byte (2 ^ i) sr = dallas_bit sr (byte.testBit i) ∧
      dallas_bit sr (byte.testBit i) < 256 := by
  have hc := crc8_core sr h (byte.testBit i)
  unfold crc8_step
  rw [and_two_pow_ne_zero]
  exact hc

theorem crc8_byte_from (byte : Nat) : ∀ (left i sr : Nat), i + left = 8 → sr < 256 →
    crc8_byte byte (left + 1) (2 ^ i % 256) sr
        = (List.range' i left).foldl (fun r j => dallas_bit r (byte.testBit j)) sr ∧
      (List.range' i left).foldl (fun r j => dallas_bit r (byte.testBit j)) sr < 256 := by
  intro left
  induction left with
  | zero =>
    intro i sr hi hsr
    have : i = 8 := by omega
    subst this
    simp [crc8_byte, hsr]
  | succ left ih =>
    intro i sr hi hsr
    have hi8 : i < 8 := by omega
    obtain ⟨m1, m2, m3⟩ := mask_lt i hi8
    obtain ⟨s1, s2⟩ := crc8_step_eq byte i sr hsr
    have := ih (i + 1) (dallas_bit sr (byte.testBit i)) (by omega) s2
    rw [m1] at m3
    rw [crc8_byte]
    simp only [m3, m1, s1, List.range'_succ, List.foldl_cons]
    simpa [m2] using this

theorem crc8_byte_eq (byte sr : Nat) (h : sr < 256) :
    crc8_byte byte 9 1 sr = dallas_byte sr byte ∧ dallas_byte sr byte < 256 := by
  have := crc8_byte_from byte 8 0 sr (by omega) h
  simpa [dallas_byte, List.range_eq_range'] using this

theorem crc8_fold (data : List Nat) : ∀ sr, sr < 256 →
    data.foldl (fun shift_register byte => crc8_byte byte 9 1 shift_register) sr
      = data.foldl dallas_byte sr := by
  induction data with
  | nil => intro sr _; rfl
  | cons b rest ih =>
    intro sr h
    obtain ⟨e1, e2⟩ := crc8_byte_eq b sr h
    simp only [List.foldl_cons, e1]
    exact ih _ e2

theorem single_crc8_byte (byte : Nat) : ∀ fuel mask sr,
    single_sensor.crc8_byte byte fuel mask sr = crc8_byte byte fuel mask sr := by
  intro fuel
  induction fuel with
  | zero => intro mask sr; rfl
  | succ fuel ih =>
    intro mask sr
    have hs : single_sensor.crc8_step byte mask sr = crc8_step byte mask sr := rfl
    simp only [single_sensor.crc8_byte, crc8_byte, ih, hs]

/-- C2: `onewire_crc8` is the Dallas/Maxim CRC-8 of the specification
(register 0 at the start; per data bit, least significant first, shift right
and XOR 0x8C when bit 0 of the register XOR the data bit is 1); the copy in
`single_sensor.c` computes the same function; the application-note vector
02 1C B8 01 00 00 00 gives 0xA2. -/
theorem C2_crc8_is_dallas (data : List Nat) :
    onewire_crc8 data = dallas_crc8 data ∧
      single_sensor.onewire_crc8 data = dallas_crc8 data ∧
      onewire_crc8 [0x02, 0x1C, 0xB8, 0x01, 0x00, 0x00, 0x00] = 0xA2 ∧
      single_sensor.onewire_crc8 [0x02, 0x1C, 0xB8, 0x01, 0x00, 0x00, 0x00] = 0xA2 := by
  have h1 : onewire_crc8 data = dallas_crc8 data := crc8_fold data 0 (by decide)
  have h2 : single_sensor.onewire_crc8 data = onewire_crc8 data := by
    simp only [single_sensor.onewire_crc8, onewire_crc8, single_crc8_byte]
  refine ⟨h1, h2.trans h1, by decide!, by decide!⟩

/-! ## Temperature decoding -/

theorem temp_bits (lsb msb : Nat) (hl : lsb < 256) :
    ((msb &&& 0x07) <<< 4) ||| (lsb >>> 4) < 128 := by
  have h1 : (msb &&& 0x07) <<< 4 < 2 ^ 7 := by
    have : msb &&& 0x07 ≤ 7 := Nat.and_le_right
    rw [Nat.shiftLeft_eq]
    omega
  have h2 : lsb >>> 4 < 2 ^ 7 := by
    rw [Nat.shiftRight_eq_div_pow]
    omega
  exact Nat.or_lt_two_pow h1 h2

theorem frac_bits (lsb : Nat) : lsb &&& 0x0F < 16 := by
  have : lsb &&& 0x0F ≤ 0x0F := Nat.and_le_right
  omega

theorem sign_mod (msb : Nat) : (msb &&& 0x80) % 256 = msb &&& 0x80 := by
  have : msb &&& 0x80 ≤ 0x80 := Nat.and_le_right
  omega

theorem decode_temp_spec (lsb msb : Nat) (hl : lsb < 256) :
    (decode_temp lsb msb).2 = ((lsb &&& 0x0F : Nat) : Int) * 625 ∧
    (msb &&& 0x80 = 0 →
      (decode_temp lsb msb).1 = ((((msb &&& 0x07) <<< 4) ||| (lsb >>> 4) : Nat) : Int) ∧
      0 ≤ (decode_temp lsb msb).1 ∧ (decode_temp lsb msb).1 ≤ 127) ∧
    (msb &&& 0x80 ≠ 0 →
      (decode_temp lsb msb).1 = -(127 - ((((msb &&& 0x07) <<< 4) ||| (lsb >>> 4) : Nat) : Int)) ∧
      -127 ≤ (decode_temp lsb msb).1 ∧ (decode_temp lsb msb).1 ≤ 0) ∧
    (∃ j : Nat, j < 16 ∧ (decode_temp lsb msb).2 = 625 * (j : Int)) ∧
    decode_temp 0x91 0x01 = (25, 625) := by
  have ht := temp_bits lsb msb hl
  have hf := frac_bits lsb
  refine ⟨rfl, ?_, ?_, ⟨lsb &&& 0x0F, hf, ?_⟩, by decide⟩
  · intro hs
    simp only [decode_temp, sign_mod, hs]
    simp
    omega
  · intro hs
    simp only [decode_temp, sign_mod]
    simp [hs]
    omega
  · simp only [decode_temp]
    ring

/-- C3: the decode of `read_temp` on a raw pair: fractional part
`(lsb & 0x0F) * 625`, integer part `((msb & 0x07) << 4) | (lsb >> 4)` when
`msb & 0x80` is clear and `-(127 - that)` when it is set; so the integer part
is in 0..127 for sign-clear pairs, in -127..0 for sign-set pairs, the
fractional part is a multiple of 625 up to 9375, and (0x91, 0x01) gives
25 and 625. -/
theorem C3_decode_temp (lsb msb : Nat) (hl : lsb < 256) :
    (decode_temp lsb msb).2 = ((lsb &&& 0x0F : Nat) : Int) * 625 ∧
    (msb &&& 0x80 = 0 →
      (decode_temp lsb msb).1 = ((((msb &&& 0x07) <<< 4) ||| (lsb >>> 4) : Nat) : Int) ∧
      0 ≤ (decode_temp lsb msb).1 ∧ (decode_temp lsb msb).1 ≤ 127) ∧
    (msb &&& 0x80 ≠ 0 →
      (decode_temp lsb msb).1 = -(127 - ((((msb &&& 0x07) <<< 4) ||| (lsb >>> 4) : Nat) : Int)) ∧
      -127 ≤ (decode_temp lsb msb).1 ∧ (decode_temp lsb msb).1 ≤ 0) ∧
    (∃ j : Nat, j < 16 ∧ (decode_temp lsb msb).2 = 625 * (j : Int)) ∧
    decode_temp 0x91 0x01 = (25, 625) :=
  decode_temp_spec lsb msb hl

/-- C3 at the raw pair (0x91, 0x01). -/
theorem C3_decode_temp_witness :
    (decode_temp 0x91 0x01).2 = ((0x91 &&& 0x0F : Nat) : Int) * 625 ∧
    (0x01 &&& 0x80 = 0 →
      (decode_temp 0x91 0x01).1 = ((((0x01 &&& 0x07) <<< 4) ||| (0x91 >>> 4) : Nat) : Int) ∧
      0 ≤ (decode_temp 0x91 0x01).1 ∧ (decode_temp 0x91 0x01).1 ≤ 127) ∧
    (0x01 &&& 0x80 ≠ 0 →
      (decode_temp 0x91 0x01).1 = -(127 - ((((0x01 &&& 0x07) <<< 4) ||| (0x91 >>> 4) : Nat) : Int)) ∧
      -127 ≤ (decode_temp 0x91 0x01).1 ∧ (decode_temp 0x91 0x01).1 ≤ 0) ∧
    (∃ j : Nat, j < 16 ∧ (decode_temp 0x91 0x01).2 = 625 * (j : Int)) ∧
    decode_temp 0x91 0x01 = (25, 625) :=
  C3_decode_temp 0x91 0x01 (by decide)

/-! ## Rendering -/

theorem repr_small : ∀ n : Nat, n < 128 → decimalValue (Nat.repr n).data = n := by
  decide

theorem repr_frac : ∀ j : Nat, j < 16 → decimalValue (Nat.repr (625 * j)).data = 625 * j := by
  decide

/-- C4: the text `read_temp` writes for a raw pair: the decimal digits of the
integer part, preceded by '-' exactly when it is negative, then ',', then one
extra '0' exactly when the fractional part is below 1000, then the decimal
digits of the fractional part, then "°C"; (0x91, 0x01) renders as
"25,0625°C" and not as "25,625°C". -/
theorem C4_format_temp (lsb msb : Nat) (hl : lsb < 256) :
    format_temp (decode_temp lsb msb).1 (decode_temp lsb msb).2
      = (if (decode_temp lsb msb).1 < 0 then "-" else "")
          ++ Nat.repr (decode_temp lsb msb).1.natAbs ++ ","
          ++ (if (decode_temp lsb msb).2 < 1000 then "0" else "")
          ++ Nat.repr (decode_temp lsb msb).2.toNat ++ "°C" ∧
    decimalValue (Nat.repr (decode_temp lsb msb).1.natAbs).data = (decode_temp lsb msb).1.natAbs ∧
    decimalValue (Nat.repr (decode_temp lsb msb).2.toNat).data = (decode_temp lsb msb).2.toNat ∧
    0 ≤ (decode_temp lsb msb).2 ∧
    format_temp (decode_temp 0x91 0x01).1 (decode_temp 0x91 0x01).2 = "25,0625°C" ∧
    format_temp (decode_temp 0x91 0x01).1 (decode_temp 0x91 0x01).2 ≠ "25,625°C" := by
  obtain ⟨h2, hclear, hset, ⟨j, hj, hj2⟩, -⟩ := decode_temp_spec lsb msb hl
  have hf0 : 0 ≤ (decode_temp lsb msb).2 := by rw [hj2]; positivity
  have hfnat : (decode_temp lsb msb).2.toNat = 625 * j := by rw [hj2]; rfl
  have hrange : (decode_temp lsb msb).1.natAbs < 128 := by
    by_cases hs : msb &&& 0x80 = 0
    · have := hclear hs; omega
    · have := hset hs; omega
  refine ⟨?_, repr_small _ hrange, ?_, hf0, by decide, by decide⟩
  · have hnn : ¬ (decode_temp lsb msb).2 < 0 := by omega
    have e1 : ∀ a b c : String, a ++ b ++ "," ++ "0" ++ c ++ "°C" = a ++ b ++ ",0" ++ c ++ "°C" := by
      intro a b c
      simp only [String.append_assoc]
      rfl
    have e2 : ∀ a b c : String, a ++ b ++ "," ++ "" ++ c ++ "°C" = a ++ b ++ "," ++ c ++ "°C" := by
      intro a b c
      simp only [String.append_assoc, String.empty_append]
    have e3 : ∀ t : Int, printf_d t = (if t < 0 then "-" else "") ++ Nat.repr t.natAbs := by
      intro t
      unfold printf_d
      split
      · rfl
      · rename_i h
        have : t.toNat = t.natAbs := by omega
        rw [this, String.empty_append]
    have e4 : printf_d (decode_temp lsb msb).2 = Nat.repr (decode_temp lsb msb).2.toNat := by
      unfold printf_d
      rw [if_neg hnn]
    unfold format_temp
    split
    · rw [e1, e3, e4]
    · rw [e2, e3, e4]
  · rw [hfnat]
    exact repr_frac j hj


/-- C4 at the raw pair (0x91, 0x01). -/
theorem C4_format_temp_witness :
    0x91 < 256 ∧
    format_temp (decode_temp 0x91 0x01).1 (decode_temp 0x91 0x01).2
      = (if (decode_temp 0x91 0x01).1 < 0 then "-" else "")
          ++ Nat.repr (decode_temp 0x91 0x01).1.natAbs ++ ","
          ++ (if (decode_temp 0x91 0x01).2 < 1000 then "0" else "")
          ++ Nat.repr (decode_temp 0x91 0x01).2.toNat ++ "°C" ∧
    format_temp (decode_temp 0x91 0x01).1 (decode_temp 0x91 0x01).2 = "25,0625°C" :=
  ⟨by decide, (C4_format_temp 0x91 0x01 (by decide)).1,
    (C4_format_temp 0x91 0x01 (by decide)).2.2.2.2.1⟩

/-! ## Reset on the scripted line -/

theorem wire_reset_pulse (w : Wire) :
    wire.reset_pulse w = { w with log := w.log ++ [Event.reset_pulse] } := rfl

theorem wire_poll_sample (w : Wire) :
    wire.poll_sample w = (w.line.headD true,
      { line := w.line.tail, log := w.log ++ [Event.sample (w.line.headD true)] }) := rfl

theorem wire_read_slot (w : Wire) :
    wire.read_slot w = (w.line.headD true,
      { line := w.line.tail, log := w.log ++ [Event.read (w.line.headD true)] }) := rfl

theorem wire_write_one (w : Wire) :
    wire.write_one_slot w = { w with log := w.log ++ [Event.write_one] } := rfl

theorem wire_write_zero (w : Wire) :
    wire.write_zero_slot w = { w with log := w.log ++ [Event.write_zero] } := rfl

theorem getD_tail (line : List Bool) (i : Nat) : line.tail.getD i true = line.getD (i + 1) true := by
  cases line <;> simp

theorem headD_eq (line : List Bool) : line.headD true = line.getD 0 true := by
  cases line <;> simp

theorem sampleAt_succ (line : List Bool) (i : Nat) : sampleAt line (i + 1) = line.getD i true := by
  simp [sampleAt]

theorem sampleEvents_succ (line : List Bool) (n : Nat) :
    sampleEvents line (n + 1) = Event.sample (line.headD true) :: sampleEvents line.tail n := by
  simp only [sampleEvents, List.range_succ_eq_map, List.map_cons, List.map_map, sampleAt_succ,
    headD_eq]
  congr 1
  apply List.map_congr_left
  intro i _
  simp [sampleAt_succ, getD_tail]

theorem reset_poll_wire_step (fuel wpd retries : Nat) (line : List Bool) (log : List Event) :
    reset_poll wire (fuel + 1) wpd retries ⟨line, log⟩ =
      if ((if wpd == 0 && level (line.headD true) == 0 then 1 else wpd) == 0 ||
          ((if wpd == 0 && level (line.headD true) == 0 then 1 else wpd) != 0 &&
            level (line.headD true) == 0)) && retries + 1 < NUM_RETRIES then
        reset_poll wire fuel (if wpd == 0 && level (line.headD true) == 0 then 1 else wpd)
          (retries + 1) ⟨line.tail, log ++ [Event.sample (line.headD true)]⟩
      else
        some (level (line.headD true), (if wpd == 0 && level (line.headD true) == 0 then 1 else wpd),
          retries + 1, ⟨line.tail, log ++ [Event.sample (line.headD true)]⟩) := rfl

theorem drop_tail_eq (line : List Bool) (n : Nat) : line.tail.drop n = line.drop (n + 1) := by
  cases line <;> simp

theorem reset_poll_wire : ∀ (fuel wpd retries : Nat) (line : List Bool),
    fuel + retries = 50 → 1 ≤ fuel → (wpd = 0 ∨ wpd = 1) →
    ∃ val wpd1 n,
      (∀ log, reset_poll wire fuel wpd retries ⟨line, log⟩
        = some (val, wpd1, retries + n, ⟨line.drop n, log ++ sampleEvents line n⟩)) ∧
      1 ≤ n ∧ retries + n ≤ 50 ∧
      (retries + n < 50 ↔ ∃ i, retries + i + 1 ≤ 49 ∧ line.getD i true = true ∧
        (wpd = 1 ∨ ∃ j, j < i ∧ line.getD j true = false)) := by
  intro fuel
  induction fuel with
  | zero => intro _ _ _ _ h; omega
  | succ fuel ih =>
    intro wpd retries line hsum _ hw
    have hv0 : line.getD 0 true = line.headD true := (headD_eq line).symm
    have hone : sampleEvents line 1 = [Event.sample (line.headD true)] := by
      rw [sampleEvents_succ]; rfl
    have hd1 : line.drop 1 = line.tail := by cases line <;> simp
    by_cases hr : retries + 1 < 50
    · cases hv : line.headD true
      · -- a low sample: the pull-down is recorded and the loop goes on
        have hcond : (((if (wpd == 0 && level false == 0) then 1 else wpd) == 0 ||
            ((if (wpd == 0 && level false == 0) then 1 else wpd) != 0 && level false == 0))
            && decide (retries + 1 < NUM_RETRIES)) = true := by
          rcases hw with rfl | rfl <;> simp [level, NUM_RETRIES, hr]
        have hwpd : (if (wpd == 0 && level false == 0) then 1 else wpd) = 1 := by
          rcases hw with rfl | rfl <;> simp [level]
        obtain ⟨val, wpd1, n, he, hn1, hn2, hiff⟩ :=
          ih 1 (retries + 1) line.tail (by omega) (by omega)
            (Or.inr rfl)
        refine ⟨val, wpd1, n + 1, ?_, by omega, by omega, ?_⟩
        · intro log
          rw [reset_poll_wire_step, hv, if_pos hcond, hwpd, he, sampleEvents_succ, hv,
            drop_tail_eq]
          simp [Nat.add_assoc, Nat.add_comm 1 n]
        · rw [show retries + (n + 1) = retries + 1 + n by omega, hiff]
          constructor
          · rintro ⟨i, h1, h2, -⟩
            refine ⟨i + 1, by omega, ?_, Or.inr ⟨0, by omega, ?_⟩⟩
            · rw [← getD_tail]; exact h2
            · rw [hv0, hv]
          · rintro ⟨i, h1, h2, -⟩
            cases i with
            | zero => rw [hv0, hv] at h2; exact absurd h2 (by decide)
            | succ i =>
              refine ⟨i, by omega, ?_, Or.inl rfl⟩
              rw [getD_tail]; exact h2
      · rcases hw with rfl | rfl
        · -- a high sample before any pull-down: the loop goes on
          have hcond : (((if ((0 : Nat) == 0 && level true == 0) then 1 else 0) == 0 ||
              ((if ((0 : Nat) == 0 && level true == 0) then 1 else 0) != 0 && level true == 0))
              && decide (retries + 1 < NUM_RETRIES)) = true := by
            simp [level, NUM_RETRIES, hr]
          have hwpd : (if ((0 : Nat) == 0 && level true == 0) then 1 else 0) = 0 := by
            simp [level]
          obtain ⟨val, wpd1, n, he, hn1, hn2, hiff⟩ :=
            ih 0 (retries + 1) line.tail (by omega) (by omega)
              (Or.inl rfl)
          refine ⟨val, wpd1, n + 1, ?_, by omega, by omega, ?_⟩
          · intro log
            rw [reset_poll_wire_step, hv, if_pos hcond, hwpd, he, sampleEvents_succ, hv,
              drop_tail_eq]
            simp [Nat.add_assoc, Nat.add_comm 1 n]
          · rw [show retries + (n + 1) = retries + 1 + n by omega, hiff]
            constructor
            · rintro ⟨i, h1, h2, h3⟩
              rcases h3 with h3 | ⟨j, hj, hj2⟩
              · exact absurd h3 (by decide)
              · refine ⟨i + 1, by omega, ?_, Or.inr ⟨j + 1, by omega, ?_⟩⟩
                · rw [← getD_tail]; exact h2
                · rw [← getD_tail]; exact hj2
            · rintro ⟨i, h1, h2, h3⟩
              rcases h3 with h3 | ⟨j, hj, hj2⟩
              · exact absurd h3 (by decide)
              · cases j with
                | zero => rw [hv0, hv] at hj2; exact absurd hj2 (by decide)
                | succ j =>
                  cases i with
                  | zero => omega
                  | succ i =>
                    refine ⟨i, by omega, ?_, Or.inr ⟨j, by omega, ?_⟩⟩
                    · rw [getD_tail]; exact h2
                    · rw [getD_tail]; exact hj2
        · -- a high sample after a pull-down: the release, the loop is left
          have hcond : ¬ (((if ((1 : Nat) == 0 && level true == 0) then 1 else 1) == 0 ||
              ((if ((1 : Nat) == 0 && level true == 0) then 1 else 1) != 0 && level true == 0))
              && decide (retries + 1 < NUM_RETRIES)) = true := by
            simp [level]
          refine ⟨level true, 1, 1, ?_, by omega, by omega, ?_⟩
          · intro log
            rw [reset_poll_wire_step, hv, if_neg hcond, hone, hv, hd1]
            rfl
          · constructor
            · intro _
              exact ⟨0, by omega, by rw [hv0, hv], Or.inl rfl⟩
            · intro _; omega
    · -- the retry budget is used up
      have hcond : ∀ c : Bool, ¬ (c && decide (retries + 1 < NUM_RETRIES)) = true := by
        intro c; simp [NUM_RETRIES, hr]
      refine ⟨level (line.headD true),
        (if (wpd == 0 && level (line.headD true) == 0) then 1 else wpd), 1, ?_,
        by omega, by omega, ?_⟩
      · intro log
        rw [reset_poll_wire_step, if_neg (hcond _), hone, hd1]
      · constructor
        · intro h; omega
        · rintro ⟨i, h1, -⟩; omega


theorem onewire_reset_wire (line : List Bool) :
    1 ≤ resetSamples line ∧ resetSamples line ≤ 50 ∧
    (∀ log, onewire_reset wire ⟨line, log⟩
      = some (if resetSamples line = 50 then -ECANCELED else 0,
          ⟨line.drop (resetSamples line), log ++ resetEvents line⟩)) ∧
    (resetSamples line < 50 ↔
      ∃ j i, 1 ≤ j ∧ j < i ∧ i ≤ 49 ∧ sampleAt line j = false ∧ sampleAt line i = true) := by
  obtain ⟨val, wpd1, n, he, hn1, hn2, hiff⟩ :=
    reset_poll_wire 50 0 0 line (by omega) (by omega) (Or.inl rfl)
  have hn : resetSamples line = n := by
    unfold resetSamples
    rw [show NUM_RETRIES = 50 from rfl, he []]
    simp
  rw [hn]
  refine ⟨hn1, by omega, ?_, ?_⟩
  · intro log
    unfold onewire_reset
    rw [wire_reset_pulse, show NUM_RETRIES = 50 from rfl, he]
    simp only [resetEvents, hn, Nat.zero_add, beq_iff_eq]
    split <;> simp
  · rw [show n = 0 + n by omega, hiff]
    constructor
    · rintro ⟨i, h1, h2, h3⟩
      rcases h3 with h3 | ⟨j, hj, hj2⟩
      · exact absurd h3 (by decide)
      · exact ⟨j + 1, i + 1, by omega, by omega, by omega, by rw [sampleAt_succ]; exact hj2,
          by rw [sampleAt_succ]; exact h2⟩
    · rintro ⟨j, i, h1, h2, h3, h4, h5⟩
      obtain ⟨j, rfl⟩ : ∃ j0, j = j0 + 1 := ⟨j - 1, by omega⟩
      obtain ⟨i, rfl⟩ : ∃ i0, i = i0 + 1 := ⟨i - 1, by omega⟩
      rw [sampleAt_succ] at h4 h5
      exact ⟨i, by omega, h5, Or.inr ⟨j, by omega, h4⟩⟩

/-- C5: on a line whose presence-poll samples are `s1, s2, ...`, `onewire_reset`
returns, and it returns success exactly when some `sj` is low and some later
`si` with `i <= 49` is high; otherwise it returns `-ECANCELED`, in particular
when the release is first sampled at the 50th iteration; it takes between 1
and 50 samples. -/
theorem C5_onewire_reset (line : List Bool) (log : List Event) :
    ∃ r w n, onewire_reset wire ⟨line, log⟩ = some (r, w) ∧
      (r = 0 ↔
        ∃ j i, 1 ≤ j ∧ j < i ∧ i ≤ 49 ∧ sampleAt line j = false ∧ sampleAt line i = true) ∧
      (r ≠ 0 → r = -ECANCELED) ∧
      ((∀ i, 1 ≤ i → i ≤ 49 → (∃ j, 1 ≤ j ∧ j < i ∧ sampleAt line j = false) →
          sampleAt line i = false) → r = -ECANCELED) ∧
      1 ≤ n ∧ n ≤ 50 ∧ w.line = line.drop n ∧
      w.log = log ++ Event.reset_pulse :: sampleEvents line n ∧
      (onewire_reset wire ⟨List.replicate 49 false ++ [true], []⟩).map Prod.fst
        = some (-ECANCELED) ∧
      (onewire_reset wire ⟨List.replicate 47 true ++ [false, true], []⟩).map Prod.fst
        = some 0 := by
  obtain ⟨h1, h2, he, hiff⟩ := onewire_reset_wire line
  have hr : ((if resetSamples line = 50 then -ECANCELED else 0 : Int) = 0 ↔
      resetSamples line < 50) := by
    split
    · simp [ECANCELED]; omega
    · simp; omega
  refine ⟨_, _, resetSamples line, he log, hr.trans hiff, ?_, ?_, h1, h2, rfl, rfl,
    by decide!, by decide!⟩
  · intro hne
    split
    · rfl
    · rename_i h; rw [if_neg h] at hne; exact absurd rfl hne
  · intro hall
    have hno : ¬ resetSamples line < 50 := by
      rw [hiff]
      rintro ⟨j, i, a1, a2, a3, a4, a5⟩
      have := hall i (by omega) a3 ⟨j, a1, a2, a4⟩
      rw [this] at a5
      exact absurd a5 (by decide)
    have : resetSamples line = 50 := by omega
    rw [if_pos this]

/-! ## Byte transfer on the scripted line -/

theorem write_byte_loop_wire (b : Nat) : ∀ (left i : Nat) (line : List Bool) (log : List Event),
    i + left = 8 →
    write_byte_loop wire b (left + 1) (2 ^ i % 256) ⟨line, log⟩
      = ⟨line, log ++ (List.range' i left).map
          (fun j => if b.testBit j then Event.write_one else Event.write_zero)⟩ := by
  intro left
  induction left with
  | zero =>
    intro i line log hi
    have : i = 8 := by omega
    subst this
    simp [write_byte_loop]
  | succ left ih =>
    intro i line log hi
    have hi8 : i < 8 := by omega
    obtain ⟨m1, m2, m3⟩ := mask_lt i hi8
    rw [m1] at m3
    rw [write_byte_loop, m1]
    have hz : (2 ^ i == 0) = false := by simp
    rw [hz]
    simp only [Bool.false_eq_true, if_false, m3, and_two_pow_ne_zero, onewire_write_one,
      onewire_write_zero, wire_write_one, wire_write_zero]
    cases hb : b.testBit i
    · simp only [Bool.false_eq_true, if_false]
      rw [ih (i + 1) _ _ (by omega)]
      simp [List.range'_succ, hb]
    · simp only [if_true]
      rw [ih (i + 1) _ _ (by omega)]
      simp [List.range'_succ, hb]

theorem onewire_write_byte_wire (b : Nat) (line : List Bool) (log : List Event) :
    onewire_write_byte wire b ⟨line, log⟩ = ⟨line, log ++ writeSlots b⟩ := by
  have := write_byte_loop_wire b 8 0 line log (by omega)
  simpa [onewire_write_byte, writeSlots, List.range_eq_range'] using this

theorem send_command_wire (b : Nat) (line : List Bool) (log : List Event) :
    send_command wire b ⟨line, log⟩ = ⟨line, log ++ writeSlots b⟩ :=
  onewire_write_byte_wire b line log

theorem onewire_read_wire (line : List Bool) (log : List Event) :
    onewire_read wire ⟨line, log⟩
      = (level (line.headD true), ⟨line.tail, log ++ [Event.read (line.headD true)]⟩) := rfl

theorem read_byte_loop_wire : ∀ (vs : List Bool) (i val : Nat) (rest : List Bool)
    (log : List Event), i + vs.length = 8 → val < 2 ^ i →
    read_byte_loop wire vs.length i val ⟨vs ++ rest, log⟩
      = (val + 2 ^ i * bitsValue vs, ⟨rest, log ++ readSlots vs⟩) := by
  intro vs
  induction vs with
  | nil =>
    intro i val rest log _ _
    simp [read_byte_loop, bitsValue, readSlots]
  | cons v vs ih =>
    intro i val rest log hi hval
    have hi8 : i < 8 := by simp at hi; omega
    have hlt : val + 2 ^ i * level v < 2 ^ (i + 1) := by
      have : level v ≤ 1 := by unfold level; split <;> omega
      have h2 : 2 ^ i * level v ≤ 2 ^ i := by
        calc 2 ^ i * level v ≤ 2 ^ i * 1 := Nat.mul_le_mul_left _ this
          _ = 2 ^ i := by ring
      rw [pow_succ]; omega
    have hor : (val ||| (level v <<< i)) % 256 = val + 2 ^ i * level v := by
      have e1 : val ||| (level v <<< i) = 2 ^ i * level v + val := by
        rw [Nat.shiftLeft_eq, Nat.mul_comm, Nat.or_comm]
        exact (Nat.mul_add_lt_is_or hval (level v)).symm
      have hb : 2 ^ (i + 1) ≤ 256 := by
        calc 2 ^ (i + 1) ≤ 2 ^ 8 := Nat.pow_le_pow_right (by omega) (by omega)
          _ = 256 := by norm_num
      rw [e1, Nat.mod_eq_of_lt (by omega)]
      omega
    simp only [List.length_cons, read_byte_loop, List.cons_append, onewire_read_wire,
      List.headD_cons, List.tail_cons, hor]
    rw [ih (i + 1) _ rest _ (by simp at hi ⊢; omega) hlt]
    simp only [bitsValue, readSlots, List.map_cons, List.append_assoc, List.singleton_append,
      pow_succ]
    congr 1
    ring

theorem onewire_read_byte_wire (vs rest : List Bool) (log : List Event) (h : vs.length = 8) :
    onewire_read_byte wire ⟨vs ++ rest, log⟩ = (bitsValue vs, ⟨rest, log ++ readSlots vs⟩) := by
  have := read_byte_loop_wire vs 0 0 rest log (by omega) (by norm_num)
  rw [h] at this
  simpa [onewire_read_byte] using this


theorem bitsValue_eq_sum : ∀ vs : List Bool,
    bitsValue vs = ∑ i in Finset.range vs.length, level (vs.getD i false) * 2 ^ i := by
  intro vs
  induction vs with
  | nil => simp [bitsValue]
  | cons v vs ih =>
    rw [bitsValue, List.length_cons, Finset.sum_range_succ', ih, Finset.mul_sum]
    simp only [List.getD_cons_succ, List.getD_cons_zero, pow_zero, mul_one, pow_succ]
    rw [Nat.add_comm]
    congr 1
    apply Finset.sum_congr rfl
    intro i _
    ring

set_option maxRecDepth 1000000 in
theorem writeSlots_bits : ∀ b : Nat, b < 256 →
    bitsValue ((writeSlots b).filterMap slotBit) = b ∧
      ((writeSlots b).filterMap slotBit).length = 8 := by
  decide

/-- C9: `onewire_write_byte(b)` issues exactly eight write slots, the `i`-th a
write-one slot when bit `i` of `b` is set and a write-zero slot otherwise;
`onewire_read_byte` over eight sampled bits `s0 .. s7` returns the sum of
`si * 2^i`; reading back the eight bits written for `b` returns `b`. -/
theorem C9_byte_transfer (b : Nat) (hb : b < 256) (vs rest line : List Bool)
    (log : List Event) (hvs : vs.length = 8) :
    onewire_write_byte wire b ⟨line, log⟩ = ⟨line, log ++ writeSlots b⟩ ∧
    (writeSlots b).length = 8 ∧
    (∀ i, i < 8 → (writeSlots b).getD i Event.reset_pulse
        = if b.testBit i then Event.write_one else Event.write_zero) ∧
    onewire_read_byte wire ⟨vs ++ rest, log⟩
      = (∑ i in Finset.range 8, level (vs.getD i false) * 2 ^ i, ⟨rest, log ++ readSlots vs⟩) ∧
    (onewire_read_byte wire ⟨(writeSlots b).filterMap slotBit ++ rest, log⟩).1 = b := by
  refine ⟨onewire_write_byte_wire b line log, by simp [writeSlots], ?_, ?_, ?_⟩
  · intro i hi
    simp [writeSlots, List.getD_eq_getElem?_getD, hi]
  · rw [onewire_read_byte_wire vs rest log hvs, bitsValue_eq_sum, hvs]
  · rw [onewire_read_byte_wire _ rest log (writeSlots_bits b hb).2]
    exact (writeSlots_bits b hb).1

/-- C9 at the byte 0xA5 and the sampled bits 1,0,1,0,0,1,0,1. -/
theorem C9_byte_transfer_witness :
    onewire_write_byte wire 0xA5 ⟨[], []⟩ = ⟨[], [] ++ writeSlots 0xA5⟩ ∧
    (onewire_read_byte wire
      ⟨[true, false, true, false, false, true, false, true] ++ [], []⟩).1 = 0xA5 ∧
    (onewire_read_byte wire ⟨(writeSlots 0xA5).filterMap slotBit ++ [], []⟩).1 = 0xA5 :=
  ⟨(C9_byte_transfer 0xA5 (by decide) [true, false, true, false, false, true, false, true]
      [] [] [] (by decide)).1,
   by
    rw [(C9_byte_transfer 0xA5 (by decide) [true, false, true, false, false, true, false, true]
      [] [] [] (by decide)).2.2.2.1]
    decide,
   (C9_byte_transfer 0xA5 (by decide) [true, false, true, false, false, true, false, true]
      [] [] [] (by decide)).2.2.2.2⟩

/-! ## A bus without devices -/

theorem reset_poll_sim_empty : ∀ (fuel retries : Nat) (s : Sim), s.devices = [] →
    fuel + retries = 50 → 1 ≤ fuel →
    reset_poll simBus fuel 0 retries s = some (1, 0, 50, { s with polls := s.polls + fuel }) := by
  intro fuel
  induction fuel with
  | zero => intro _ _ _ _ h; omega
  | succ fuel ih =>
    intro retries s hs hsum _
    have hp : simBus.poll_sample s = (true, { s with polls := s.polls + 1 }) := by
      show (s.devices.isEmpty || s.polls != 0, _) = _
      rw [hs]; rfl
    rw [reset_poll, hp]
    by_cases hr : retries + 1 < 50
    · have := ih (retries + 1) { s with polls := s.polls + 1 } hs (by omega) (by omega)
      simp only [level, NUM_RETRIES, hr, if_true, decide_True, Bool.and_true]
      simp only [beq_self_eq_true, Nat.succ_ne_self, Bool.true_and, Bool.or_false,
        OfNat.one_ne_ofNat, Nat.reduceBEq, Bool.false_eq_true, if_false, if_true]
      rw [this]
      simp [Nat.add_assoc, Nat.add_comm 1 fuel]
    · have h49 : retries = 49 := by omega
      have hf : fuel = 0 := by omega
      subst h49 hf
      simp [level, NUM_RETRIES]

theorem sampleEvents_high (line : List Bool) (n : Nat)
    (h : ∀ i, 1 ≤ i → i ≤ n → sampleAt line i = true) :
    sampleEvents line n = List.replicate n (Event.sample true) := by
  rw [List.eq_replicate_iff]
  refine ⟨by simp [sampleEvents], ?_⟩
  intro e he
  simp only [sampleEvents, List.mem_map, List.mem_range] at he
  obtain ⟨i, hi, rfl⟩ := he
  rw [h (i + 1) (by omega) (by omega)]

/-- C6: on a bus without devices (every presence sample reads high), whatever
the search state was, `first()` returns FALSE after exactly 50 samples of the
line, issues no write slot (so no Search-ROM command), leaves the ROM buffer
as it was and leaves `lastDiscrep = 0`; the same on the simulated bus with an
empty device list. -/
theorem C6_first_no_device (g : SearchState) (line : List Bool) (log : List Event) (s : Sim)
    (hhigh : ∀ i, 1 ≤ i → i ≤ 50 → sampleAt line i = true) (hs : s.devices = []) :
    first wire g ⟨line, log⟩
      = some (FALSE, { ROM := g.ROM, lastDiscrep := 0, doneFlag := FALSE, dowcrc := 0 },
          ⟨line.drop 50, log ++ Event.reset_pulse :: List.replicate 50 (Event.sample true)⟩) ∧
    (∀ e, e ∈ Event.reset_pulse :: List.replicate 50 (Event.sample true) → slotBit e = none) ∧
    first simBus g s
      = some (FALSE, { ROM := g.ROM, lastDiscrep := 0, doneFlag := FALSE, dowcrc := 0 },
          { devices := [], selected := [], stage := Stage.command [], polls := 50 }) := by
  obtain ⟨h1, h2, he, hiff⟩ := onewire_reset_wire line
  have hn : resetSamples line = 50 := by
    have : ¬ resetSamples line < 50 := by
      rw [hiff]
      rintro ⟨j, i, a1, a2, a3, a4, a5⟩
      rw [hhigh j a1 (by omega)] at a4
      exact absurd a4 (by decide)
    omega
  refine ⟨?_, ?_, ?_⟩
  · unfold first next
    simp only [he, hn, resetEvents, sampleEvents_high line 50 hhigh]
    simp [ECANCELED, FALSE]
  · intro e he
    rcases List.mem_cons.1 he with rfl | h
    · rfl
    · rw [List.eq_of_mem_replicate h]; rfl
  · have hp := reset_poll_sim_empty 50 0 (simBus.reset_pulse s) hs (by omega) (by omega)
    unfold first next onewire_reset
    rw [show NUM_RETRIES = 50 from rfl, hp]
    simp [ECANCELED, FALSE, simBus, hs]

/-- C6 on the empty script and on the simulated bus without devices. -/
theorem C6_first_no_device_witness :
    first wire ⟨[1, 2, 3, 4, 5, 6, 7, 8], 9, 1, 1⟩ ⟨[], []⟩
      = some (FALSE, { ROM := [1, 2, 3, 4, 5, 6, 7, 8], lastDiscrep := 0, doneFlag := FALSE,
                       dowcrc := 0 },
          ⟨[], Event.reset_pulse :: List.replicate 50 (Event.sample true)⟩) :=
  (C6_first_no_device ⟨[1, 2, 3, 4, 5, 6, 7, 8], 9, 1, 1⟩ [] [] ⟨[], [], Stage.idle, 0⟩
    (by intro i _ _; cases i <;> rfl) rfl).1

/-! ## The wire sequence of a measurement -/

theorem match_rom_loop_wire : ∀ (bs : List Nat) (line : List Bool) (log : List Event),
    match_rom_loop wire bs ⟨line, log⟩ = ⟨line, log ++ writeBytes bs⟩ := by
  intro bs
  induction bs with
  | nil => intro line log; simp [match_rom_loop, writeBytes]
  | cons b bs ih =>
    intro line log
    rw [match_rom_loop, onewire_write_byte_wire, ih]
    simp [writeBytes, List.flatMap_cons]

theorem match_rom_wire (rom : List Nat) (line : List Bool) (log : List Event)
    (h : rom.length = 8) :
    match_rom wire rom ⟨line, log⟩ = ⟨line, log ++ writeBytes (0x55 :: rom)⟩ := by
  have ht : rom.take 8 = rom := by rw [← h]; exact List.take_length rom
  rw [match_rom, send_command_wire, match_rom_loop_wire, ht]
  simp [writeBytes, List.flatMap_cons]

theorem bitsValue_zeros : bitsValue (List.replicate 8 false) = 0 := by decide

theorem poll_conversion_wire : ∀ (k fuel : Nat) (nz rest : List Bool) (log : List Event),
    k < fuel → nz.length = 8 → bitsValue nz ≠ 0 →
    poll_conversion wire fuel ⟨List.replicate (8 * k) false ++ nz ++ rest, log⟩
      = some ⟨rest, log ++ readSlots (List.replicate (8 * k) false ++ nz)⟩ := by
  intro k
  induction k with
  | zero =>
    intro fuel nz rest log hf hnz hv
    obtain ⟨fuel, rfl⟩ : ∃ f, fuel = f + 1 := ⟨fuel - 1, by omega⟩
    simp only [Nat.mul_zero, List.replicate_zero, List.nil_append, poll_conversion,
      onewire_read_byte_wire nz rest log hnz]
    simp [hv]
  | succ k ih =>
    intro fuel nz rest log hf hnz hv
    obtain ⟨fuel, rfl⟩ : ∃ f, fuel = f + 1 := ⟨fuel - 1, by omega⟩
    have hrep : List.replicate (8 * (k + 1)) false
        = List.replicate 8 false ++ List.replicate (8 * k) false := by
      rw [← List.replicate_add]; congr 1; omega
    rw [hrep, List.append_assoc, List.append_assoc, poll_conversion,
      onewire_read_byte_wire (List.replicate 8 false) _ log (by simp), bitsValue_zeros]
    simp only [beq_self_eq_true, if_true]
    rw [← List.append_assoc, ih fuel nz rest _ (by omega) hnz hv]
    simp [readSlots]

/-- C10: on a line where both resets succeed and the completion poll reads
`k` zero bytes and then a nonzero byte, `read_temp` of `multiple_sensors.c`
writes 0x55, the eight ROM bytes and 0x44 after the first reset, reads
exactly `k + 1` poll bytes, writes 0x55, the eight ROM bytes and 0xBE after
the second reset and reads exactly two bytes, decoding the first as LSB and
the second as MSB; `read_temp` of `single_sensor.c` does the same with the
single byte 0xCC as addressing. -/
theorem C10_read_temp_wire (fuel k : Nat) (buf : String) (rom : List Nat)
    (line line2 nz lsb msb rest : List Bool) (log : List Event)
    (hrom : rom.length = 8)
    (hreset1 : resetSamples line < 50)
    (hline : line.drop (resetSamples line) = List.replicate (8 * k) false ++ nz ++ line2)
    (hnz : nz.length = 8) (hnonzero : bitsValue nz ≠ 0)
    (hreset2 : resetSamples line2 < 50)
    (hline2 : line2.drop (resetSamples line2) = lsb ++ msb ++ rest)
    (hlsb : lsb.length = 8) (hmsb : msb.length = 8) (hfuel : k < fuel) :
    read_temp wire fuel buf rom ⟨line, log⟩
      = some (format_temp (decode_temp (bitsValue lsb) (bitsValue msb)).1
                (decode_temp (bitsValue lsb) (bitsValue msb)).2,
          ⟨rest, log ++ resetEvents line ++ writeBytes (0x55 :: rom ++ [0x44])
            ++ readSlots (List.replicate (8 * k) false ++ nz)
            ++ resetEvents line2 ++ writeBytes (0x55 :: rom ++ [0xBE])
            ++ readSlots lsb ++ readSlots msb⟩) ∧
    single_sensor.read_temp wire fuel buf ⟨line, log⟩
      = some (format_temp (decode_temp (bitsValue lsb) (bitsValue msb)).1
                (decode_temp (bitsValue lsb) (bitsValue msb)).2,
          ⟨rest, log ++ resetEvents line ++ writeBytes [0xCC, 0x44]
            ++ readSlots (List.replicate (8 * k) false ++ nz)
            ++ resetEvents line2 ++ writeBytes [0xCC, 0xBE]
            ++ readSlots lsb ++ readSlots msb⟩) := by
  obtain ⟨-, -, he1, -⟩ := onewire_reset_wire line
  obtain ⟨-, -, he2, -⟩ := onewire_reset_wire line2
  have hn1 : resetSamples line ≠ 50 := by omega
  have hn2 : resetSamples line2 ≠ 50 := by omega
  constructor
  · unfold read_temp
    simp only [he1, if_neg hn1, hline, match_rom_wire _ _ _ hrom, send_command_wire,
      bne_self_eq_false, Bool.false_eq_true, if_false]
    rw [poll_conversion_wire k fuel nz line2 _ hfuel hnz hnonzero]
    simp only [he2, if_neg hn2, hline2, match_rom_wire _ _ _ hrom, send_command_wire]
    rw [List.append_assoc lsb msb rest, onewire_read_byte_wire lsb (msb ++ rest) _ hlsb,
      onewire_read_byte_wire msb rest _ hmsb]
    simp [writeBytes, List.flatMap_cons]
  · unfold single_sensor.read_temp
    simp only [he1, if_neg hn1, hline, send_command_wire,
      bne_self_eq_false, Bool.false_eq_true, if_false]
    rw [poll_conversion_wire k fuel nz line2 _ hfuel hnz hnonzero]
    simp only [he2, if_neg hn2, hline2, send_command_wire]
    rw [List.append_assoc lsb msb rest, onewire_read_byte_wire lsb (msb ++ rest) _ hlsb,
      onewire_read_byte_wire msb rest _ hmsb]
    simp [writeBytes, List.flatMap_cons]


/-- C10 on the script `demoLine` with one zero poll byte. -/
theorem C10_read_temp_wire_witness :
    (read_temp wire 2 "" [0x28, 1, 2, 3, 4, 5, 6, 0x77] ⟨demoLine, []⟩).map Prod.fst
      = some "25,0625°C" ∧
    (single_sensor.read_temp wire 2 "" ⟨demoLine, []⟩).map Prod.fst = some "25,0625°C" := by
  have h := C10_read_temp_wire 2 1 "" [0x28, 1, 2, 3, 4, 5, 6, 0x77] demoLine
    ([false, true] ++ ([true, false, false, false, true, false, false, true]
      ++ [true, false, false, false, false, false, false, false] ++ []))
    [true, false, false, false, false, false, false, false]
    [true, false, false, false, true, false, false, true]
    [true, false, false, false, false, false, false, false] [] []
    (by decide) (by decide) (by decide) (by decide) (by decide) (by decide) (by decide)
    (by decide) (by decide) (by decide)
  rw [h.1, h.2]
  decide

/-! ## The ROM buffer bit by bit -/

theorem getD_set_self (l : List Nat) (i v : Nat) (h : i < l.length) :
    (l.set i v).getD i 0 = v := by
  simp [List.getD_eq_getElem?_getD, List.getElem?_set_self h]

theorem getD_set_ne (l : List Nat) (i j v : Nat) (h : j ≠ i) :
    (l.set i v).getD j 0 = l.getD j 0 := by
  simp [List.getD_eq_getElem?_getD, List.getElem?_set_ne (fun e => h e.symm)]

theorem romBit_storeBit (ROM : List Nat) (p q : Nat) (g : Bool) (hlen : ROM.length = 8)
    (hp : p < 64) : romBit (storeBit ROM p g) q = if q = p then g else romBit ROM q := by
  have hidx : p / 8 < ROM.length := by omega
  have hq8 : q % 8 < 8 := Nat.mod_lt _ (by omega)
  by_cases hbyte : q / 8 = p / 8
  · have hget : ∀ v, (ROM.set (p / 8) v).getD (q / 8) 0 = v := by
      intro v
      rw [hbyte, getD_set_self _ _ _ hidx]
    have hqp : q = p ↔ q % 8 = p % 8 := by omega
    have hmod : ∀ x : Nat, (x % 256).testBit (q % 8) = x.testBit (q % 8) := by
      intro x
      rw [show 256 = 2 ^ 8 by norm_num, Nat.testBit_mod_two_pow]
      simp [hq8]
    have h255 : Nat.testBit 255 (q % 8) = true := by
      rw [show 255 = 2 ^ 8 - 1 by norm_num, Nat.testBit_two_pow_sub_one]
      simp [hq8]
    unfold romBit storeBit
    cases g
    · simp only [Bool.false_eq_true, if_false, hget, hmod, Nat.testBit_and, Nat.testBit_xor,
        Nat.testBit_two_pow, h255]
      by_cases h : q = p
      · have := hqp.1 h
        simp [h]
      · have : ¬ p % 8 = q % 8 := fun e => h (hqp.2 e.symm)
        simp [h, this, hbyte]
    · simp only [if_true, hget, hmod, Nat.testBit_or, Nat.testBit_two_pow]
      by_cases h : q = p
      · simp [h]
      · have : ¬ p % 8 = q % 8 := fun e => h (hqp.2 e.symm)
        simp [h, this, hbyte]
  · have hne : q ≠ p := fun e => hbyte (by rw [e])
    have hget : ∀ v, (ROM.set (p / 8) v).getD (q / 8) 0 = ROM.getD (q / 8) 0 := by
      intro v
      rw [getD_set_ne _ _ _ _ hbyte]
    unfold romBit storeBit
    cases g <;> simp only [hget, hne, if_false, if_true, Bool.false_eq_true]

theorem storeBit_length (ROM : List Nat) (p : Nat) (g : Bool) :
    (storeBit ROM p g).length = ROM.length := by
  unfold storeBit
  split <;> simp

theorem storeBit_byte (ROM : List Nat) (p idx : Nat) (g : Bool) (hlen : ROM.length = 8)
    (hp : p < 64) :
    (idx = p / 8 → (storeBit ROM p g).getD idx 0 < 256) ∧
    (idx ≠ p / 8 → (storeBit ROM p g).getD idx 0 = ROM.getD idx 0) := by
  have hidx : p / 8 < ROM.length := by omega
  constructor
  · intro h
    subst h
    unfold storeBit
    split <;>
      (rw [getD_set_self _ _ _ hidx]
       exact Nat.mod_lt _ (by norm_num))
  · intro h
    unfold storeBit
    split <;> rw [getD_set_ne _ _ _ _ h]

theorem testBit_romValue : ∀ (ROM : List Nat), (∀ idx, ROM.getD idx 0 < 256) → ∀ q,
    (romValue ROM).testBit q = romBit ROM q := by
  intro ROM
  induction ROM with
  | nil => intro _ q; simp [romValue, romBit]
  | cons b rest ih =>
    intro hb q
    have hb0 : b < 2 ^ 8 := by simpa using hb 0
    have hrest : ∀ idx, rest.getD idx 0 < 256 := by
      intro idx
      simpa using hb (idx + 1)
    have hv : romValue (b :: rest) = 2 ^ 8 * romValue rest + b := by
      simp [romValue]; ring
    rw [hv, Nat.testBit_mul_pow_two_add _ hb0]
    by_cases hq : q < 8
    · have h0 : q / 8 = 0 := by omega
      have h1 : q % 8 = q := by omega
      simp [hq, romBit, h0, h1]
    · obtain ⟨i, hi⟩ : ∃ i, q / 8 = i + 1 := ⟨q / 8 - 1, by omega⟩
      have h1 : (q - 8) / 8 = i := by omega
      have h2 : (q - 8) % 8 = q % 8 := by omega
      rw [if_neg hq, ih hrest]
      simp [romBit, hi, h1, h2]

variable {σ : Type}

/-! ## Functions that do not read memory -/

theorem reset_poll_withLoad (B : Bus σ) (mem : Nat → Option Nat) : ∀ (fuel wpd retries : Nat)
    (s : σ), reset_poll (withLoad B mem) fuel wpd retries s = reset_poll B fuel wpd retries s := by
  intro fuel
  induction fuel with
  | zero => intro _ _ _; rfl
  | succ fuel ih =>
    intro wpd retries s
    rw [reset_poll, reset_poll, show (withLoad B mem).poll_sample s = B.poll_sample s from rfl]
    simp only [ih]

theorem onewire_reset_withLoad (B : Bus σ) (mem : Nat → Option Nat) (s : σ) :
    onewire_reset (withLoad B mem) s = onewire_reset B s := by
  unfold onewire_reset
  rw [reset_poll_withLoad]
  rfl

theorem onewire_read_withLoad (B : Bus σ) (mem : Nat → Option Nat) (s : σ) :
    onewire_read (withLoad B mem) s = onewire_read B s := rfl

theorem write_bit_withLoad (B : Bus σ) (mem : Nat → Option Nat) (g : Nat) (s : σ) :
    write_bit (withLoad B mem) g s = write_bit B g s := rfl

theorem write_byte_loop_withLoad (B : Bus σ) (mem : Nat → Option Nat) (b : Nat) :
    ∀ (fuel mask : Nat) (s : σ),
      write_byte_loop (withLoad B mem) b fuel mask s = write_byte_loop B b fuel mask s := by
  intro fuel
  induction fuel with
  | zero => intro _ _; rfl
  | succ fuel ih =>
    intro mask s
    rw [write_byte_loop, write_byte_loop,
      show onewire_write_one (withLoad B mem) s = onewire_write_one B s from rfl,
      show onewire_write_zero (withLoad B mem) s = onewire_write_zero B s from rfl]
    simp only [ih]

theorem send_command_withLoad (B : Bus σ) (mem : Nat → Option Nat) (c : Nat) (s : σ) :
    send_command (withLoad B mem) c s = send_command B c s := by
  unfold send_command onewire_write_byte
  exact write_byte_loop_withLoad B mem c 9 1 s

theorem load_withLoad (B : Bus σ) (mem : Nat → Option Nat) (a : Nat) :
    (withLoad B mem).load a = mem a := rfl

theorem load_readable (B : Bus σ) (a : Nat) : (readable B).load a = some 0 := rfl

/-! ## One iteration of the search loop -/

theorem loop_vars (p : Nat) (hp : p < 64) :
    (p + 1 + 1) % 256 = p + 2 ∧
    ((((2 ^ (p % 8)) <<< 1) % 256 == 0) = decide (p % 8 = 7)) ∧
    (p % 8 = 7 → (p / 8 + 1) % 256 = (p + 1) / 8 ∧
      ((((2 ^ (p % 8)) <<< 1) % 256) + 1) % 256 = 2 ^ ((p + 1) % 8)) ∧
    (p % 8 ≠ 7 → p / 8 = (p + 1) / 8 ∧ ((2 ^ (p % 8)) <<< 1) % 256 = 2 ^ ((p + 1) % 8)) ∧
    ((p + 1) / 8 < 8 ↔ p + 1 < 64) := by
  have h8 : p % 8 < 8 := Nat.mod_lt _ (by omega)
  refine ⟨by omega, ?_, ?_, ?_, by omega⟩
  · by_cases h7 : p % 8 = 7
    · rw [h7]; simp
    · have hlt : 2 ^ (p % 8 + 1) < 256 := by
        have : p % 8 + 1 ≤ 7 := by omega
        calc 2 ^ (p % 8 + 1) ≤ 2 ^ 7 := Nat.pow_le_pow_right (by omega) this
          _ < 256 := by norm_num
      rw [Nat.shiftLeft_eq, ← pow_succ, Nat.mod_eq_of_lt hlt]
      simp [h7]
  · intro h7
    rw [h7]
    have : (p + 1) % 8 = 0 := by omega
    rw [this]
    refine ⟨by omega, by decide⟩
  · intro h7
    have hlt : 2 ^ (p % 8 + 1) < 256 := by
      have : p % 8 + 1 ≤ 7 := by omega
      calc 2 ^ (p % 8 + 1) ≤ 2 ^ 7 := Nat.pow_le_pow_right (by omega) this
        _ < 256 := by norm_num
    have e : (p + 1) % 8 = p % 8 + 1 := by omega
    rw [Nat.shiftLeft_eq, ← pow_succ, Nat.mod_eq_of_lt hlt, e]
    exact ⟨by omega, rfl⟩

theorem search_bit_raw (B : Bus σ) (L p marker : Nat) (ROM : List Nat) (s : σ)
    (b1 b2 : Bool) (s1 s2 : σ) (hr1 : B.read_slot s = (b1, s1))
    (hr2 : B.read_slot s1 = (b2, s2)) (g : Bool) (hgeq : pickRead L ROM p b1 b2 = g) :
    search_bit B L (p + 1) (p / 8) (2 ^ (p % 8)) marker ROM s =
      if b1 && b2 then (none, s2)
      else (some (level g, (if !b1 && !b2 && !g then p + 1 else marker), storeBit ROM p g),
        write_bit B (level g) s2) := by
  have hbit : ((ROM.getD (p / 8) 0 &&& 2 ^ (p % 8)) > 0) ↔ romBit ROM p = true := by
    rw [romBit, ← and_two_pow_ne_zero]
    simp [Nat.pos_iff_ne_zero]
  have hg : (if p + 1 < L then if ROM.getD (p / 8) 0 &&& 2 ^ (p % 8) > 0 then 1 else 0
      else if (p + 1 == L) = true then 1 else 0)
      = level (if p + 1 < L then romBit ROM p else decide (p + 1 = L)) := by
    by_cases hL : p + 1 < L
    · simp only [hL, if_true]
      cases hb : romBit ROM p
      · have : ¬ (ROM.getD (p / 8) 0 &&& 2 ^ (p % 8) > 0) := by
          rw [hbit, hb]; decide
        rw [if_neg this]; rfl
      · rw [if_pos (hbit.2 hb)]; rfl
    · simp only [hL, if_false]
      by_cases he : p + 1 = L
      · simp [he, level]
      · simp [he, level]
  have e0 : level false = 0 := rfl
  have e1 : level true = 1 := rfl
  unfold search_bit
  simp only [onewire_read, hr1, hr2]
  revert hgeq
  cases b1 <;> cases b2 <;> intro hgeq <;>
    simp only [pickRead, Bool.false_eq_true, if_false, if_true] at hgeq
  · simp only [e0, hg, hgeq]
    cases g <;> simp [level, storeBit]
  · simp only [e0, e1, ← hgeq]
    simp [level, storeBit]
  · simp only [e0, e1, ← hgeq]
    simp [level, storeBit]
  · simp [e1]

theorem search_loop_raw (B : Bus σ) (L fuel p marker : Nat) (ROM : List Nat) (s : σ)
    (hp : p < 64) (b1 b2 : Bool) (s1 s2 : σ) (hr1 : B.read_slot s = (b1, s1))
    (hr2 : B.read_slot s1 = (b2, s2)) (g : Bool) (hgeq : pickRead L ROM p b1 b2 = g) :
    search_loop B L (fuel + 1) (p + 1) (p / 8) (2 ^ (p % 8)) marker ROM s =
      if b1 && b2 then some (p + 1, marker, ROM, s2)
      else if p % 8 = 7 ∧ B.load ((storeBit ROM p g).getD (p / 8) 0) = none then none
      else if p + 1 < 64 then
        search_loop B L fuel (p + 2) ((p + 1) / 8) (2 ^ ((p + 1) % 8))
          (if !b1 && !b2 && !g then p + 1 else marker) (storeBit ROM p g)
          (write_bit B (level g) s2)
      else
        some (p + 2, (if !b1 && !b2 && !g then p + 1 else marker), storeBit ROM p g,
          write_bit B (level g) s2) := by
  obtain ⟨v1, v2, v3, v4, v5⟩ := loop_vars p hp
  rw [search_loop, search_bit_raw B L p marker ROM s b1 b2 s1 s2 hr1 hr2 g hgeq]
  by_cases hb : (b1 && b2) = true
  · simp only [if_pos hb]
  · simp only [if_neg hb, v1, v2]
    by_cases h7 : p % 8 = 7
    · obtain ⟨w1, w2⟩ := v3 h7
      have d7 : decide (p % 8 = 7) = true := by simp [h7]
      have e8 : 2 ^ ((p + 1) % 8) = 1 := by
        have : (p + 1) % 8 = 0 := by omega
        rw [this]; rfl
      simp only [d7, if_true, crc8_at_address, w1, w2, v5, h7, true_and, e8]
      generalize B.load _ = l
      cases l <;> simp
    · obtain ⟨w1, w2⟩ := v4 h7
      have d7 : decide (p % 8 = 7) = false := by simp [h7]
      simp only [d7, w2, Bool.false_eq_true, if_false, h7, false_and]
      rw [w1]
      simp [v5]

/-! ## One search pass on the simulated bus -/

theorem sim_read_bit (s : Sim) (p : Nat) (h : s.stage = Stage.search p false) :
    onewire_read simBus s
      = (level (s.selected.all (fun d => d.testBit p)), { s with stage := Stage.search p true }) := by
  unfold onewire_read
  show (level (s.read).1, (s.read).2) = _
  unfold Sim.read
  rw [h]

theorem sim_read_complement (s : Sim) (p : Nat) (h : s.stage = Stage.search p true) :
    onewire_read simBus s
      = (level (s.selected.all (fun d => !d.testBit p)),
          { s with stage := Stage.search p false }) := by
  unfold onewire_read
  show (level (s.read).1, (s.read).2) = _
  unfold Sim.read
  rw [h]

theorem sim_write_bit (s : Sim) (p : Nat) (c : Bool) (g : Bool)
    (h : s.stage = Stage.search p c) :
    write_bit simBus (level g) s
      = { s with selected := s.selected.filter (fun d => d.testBit p == g),
                 stage := if p + 1 < 64 then Stage.search (p + 1) false else Stage.idle } := by
  unfold write_bit onewire_write_one onewire_write_zero
  cases g
  · show (if (level false == 1) = true then s.write true else s.write false) = _
    simp only [level, Bool.false_eq_true, if_false]
    unfold Sim.write
    rw [h]
    rfl
  · show (if (level true == 1) = true then s.write true else s.write false) = _
    simp only [level, if_true]
    unfold Sim.write
    rw [h]
    rfl

theorem simBus_eq : simBus = withLoad simBus (fun _ => none) := rfl

theorem readable_eq (B : Bus σ) : readable B = withLoad B (fun _ => some 0) := rfl

theorem search_loop_sim_mem (mem : Nat → Option Nat) (L fuel p marker : Nat) (ROM : List Nat)
    (s : Sim) (hp : p < 64) (hst : s.stage = Stage.search p false) :
    search_loop (withLoad simBus mem) L (fuel + 1) (p + 1) (p / 8) (2 ^ (p % 8)) marker ROM s =
      if s.selected.all (fun d => d.testBit p) && s.selected.all (fun d => !d.testBit p) then
        some (p + 1, marker, ROM, s)
      else if p % 8 = 7 ∧
          mem ((storeBit ROM p (pickBit L ROM s.selected p)).getD (p / 8) 0) = none then none
      else
        if p + 1 < 64 then
          search_loop (withLoad simBus mem) L fuel (p + 2) ((p + 1) / 8) (2 ^ ((p + 1) % 8))
            (nextMarker L ROM s.selected p marker)
            (storeBit ROM p (pickBit L ROM s.selected p))
            (afterWrite s p (pickBit L ROM s.selected p))
        else
          some (p + 2, nextMarker L ROM s.selected p marker,
            storeBit ROM p (pickBit L ROM s.selected p),
            afterWrite s p (pickBit L ROM s.selected p)) := by
  have hs : ({ s with stage := Stage.search p false } : Sim) = s := by
    cases s; simp only at hst; subst hst; rfl
  have hr1 : (withLoad simBus mem).read_slot s
      = (s.selected.all (fun d => d.testBit p), { s with stage := Stage.search p true }) := by
    show s.read = _
    unfold Sim.read
    rw [hst]
  have hr2 : (withLoad simBus mem).read_slot { s with stage := Stage.search p true }
      = (s.selected.all (fun d => !d.testBit p), s) := by
    show ({ s with stage := Stage.search p true } : Sim).read = _
    unfold Sim.read
    simp only [hs]
  rw [search_loop_raw (withLoad simBus mem) L fuel p marker ROM s hp _ _ _ _ hr1 hr2
    (pickBit L ROM s.selected p) rfl]
  rw [write_bit_withLoad, sim_write_bit s p false _ hst]
  rfl

theorem search_loop_sim_step (L fuel p marker : Nat) (ROM : List Nat) (s : Sim) (hp : p < 64)
    (hst : s.stage = Stage.search p false) :
    search_loop (readable simBus) L (fuel + 1) (p + 1) (p / 8) (2 ^ (p % 8)) marker ROM s =
      if s.selected.all (fun d => d.testBit p) && s.selected.all (fun d => !d.testBit p) then
        some (p + 1, marker, ROM, s)
      else
        if p + 1 < 64 then
          search_loop (readable simBus) L fuel (p + 2) ((p + 1) / 8) (2 ^ ((p + 1) % 8))
            (nextMarker L ROM s.selected p marker)
            (storeBit ROM p (pickBit L ROM s.selected p))
            (afterWrite s p (pickBit L ROM s.selected p))
        else
          some (p + 2, nextMarker L ROM s.selected p marker,
            storeBit ROM p (pickBit L ROM s.selected p),
            afterWrite s p (pickBit L ROM s.selected p)) := by
  rw [readable_eq, search_loop_sim_mem _ L fuel p marker ROM s hp hst]
  simp

/-! ## The pass invariant -/

theorem all_false_iff (sel : List Nat) (f : Nat → Bool) :
    sel.all f = false ↔ ∃ d, d ∈ sel ∧ f d = false := by
  constructor
  · intro h
    by_contra hc
    push_neg at hc
    have : sel.all f = true := List.all_eq_true.2 (fun d hd => by simpa using hc d hd)
    rw [h] at this
    exact absurd this (by decide)
  · rintro ⟨d, hd, hf⟩
    cases h : sel.all f
    · rfl
    · have := List.all_eq_true.1 h d hd
      rw [hf] at this
      exact absurd this (by decide)

theorem agree_congr (d : Nat) (β β1 : Nat → Bool) (p : Nat) (h : ∀ q, q < p → β q = β1 q) :
    Agree d β p ↔ Agree d β1 p := by
  constructor
  · intro ha q hq; rw [← h q hq]; exact ha q hq
  · intro ha q hq; rw [h q hq]; exact ha q hq

theorem branch_congr (D : List Nat) (β β1 : Nat → Bool) (q : Nat)
    (h : ∀ r, r ≤ q → β r = β1 r) : Branch D β q ↔ Branch D β1 q := by
  unfold Branch
  rw [h q (Nat.le_refl q)]
  constructor
  · rintro ⟨h0, d, hd, ha, hb⟩
    exact ⟨h0, d, hd, (agree_congr d β β1 q (fun r hr => h r (by omega))).1 ha, hb⟩
  · rintro ⟨h0, d, hd, ha, hb⟩
    exact ⟨h0, d, hd, (agree_congr d β β1 q (fun r hr => h r (by omega))).2 ha, hb⟩

theorem agree_succ (d : Nat) (β : Nat → Bool) (p : Nat) :
    Agree d β (p + 1) ↔ Agree d β p ∧ d.testBit p = β p := by
  constructor
  · intro h
    exact ⟨fun q hq => h q (by omega), h p (by omega)⟩
  · rintro ⟨h1, h2⟩ q hq
    by_cases e : q = p
    · subst e; exact h2
    · exact h1 q (by omega)

theorem pickBit_has_device (L : Nat) (ROM sel : List Nat) (p : Nat) (hne : ∃ d, d ∈ sel) :
    (sel.all (fun d => d.testBit p) && sel.all (fun d => !d.testBit p)) = false ∧
    (∃ d, d ∈ sel ∧ d.testBit p = pickBit L ROM sel p) ∧
    ((!sel.all (fun d => d.testBit p) && !sel.all (fun d => !d.testBit p)
        && !pickBit L ROM sel p) = true ↔
      pickBit L ROM sel p = false ∧ ∃ d, d ∈ sel ∧ d.testBit p = true) ∧
    ((∃ d, d ∈ sel ∧ d.testBit p = true) → (∃ d, d ∈ sel ∧ d.testBit p = false) →
      pickBit L ROM sel p = if p + 1 < L then romBit ROM p else decide (p + 1 = L)) := by
  obtain ⟨d, hd⟩ := hne
  unfold pickBit
  cases h1 : sel.all (fun d => d.testBit p) <;> cases h0 : sel.all (fun d => !d.testBit p)
  · obtain ⟨d0, hd0, hb0⟩ := (all_false_iff _ _).1 h1
    obtain ⟨d1, hd1, hb1⟩ := (all_false_iff _ _).1 h0
    have hb1' : d1.testBit p = true := by simpa using hb1
    refine ⟨rfl, ?_, ?_, ?_⟩
    · simp only [Bool.false_eq_true, if_false]
      cases hg : (if p + 1 < L then romBit ROM p else decide (p + 1 = L))
      · exact ⟨d0, hd0, hb0⟩
      · exact ⟨d1, hd1, hb1'⟩
    · simp only [Bool.false_eq_true, if_false, Bool.not_false, Bool.true_and,
        Bool.not_eq_true']
      constructor
      · intro h; exact ⟨h, d1, hd1, hb1'⟩
      · intro h; exact h.1
    · intro _ _
      simp
  · have hall := List.all_eq_true.1 h0
    refine ⟨rfl, ⟨d, hd, by simpa using hall d hd⟩, ?_, ?_⟩
    · simp only [Bool.false_eq_true, if_false, if_true, Bool.not_true, Bool.and_false,
        Bool.false_and, false_iff, not_and, not_exists]
      intro _ x hx hb
      have := hall x hx
      simp [hb] at this
    · rintro ⟨x, hx, hb⟩ _
      have := hall x hx
      simp [hb] at this
  · have hall := List.all_eq_true.1 h1
    refine ⟨rfl, ⟨d, hd, by simpa using hall d hd⟩, ?_, ?_⟩
    · simp
    · rintro _ ⟨x, hx, hb⟩
      have := hall x hx
      simp [hb] at this
  · have ha1 := List.all_eq_true.1 h1 d hd
    have ha0 := List.all_eq_true.1 h0 d hd
    simp [ha1] at ha0


theorem passInv_step (D : List Nat) (L : Nat) (β0 : Nat → Bool) (p marker : Nat)
    (ROM : List Nat) (s : Sim) (hp : p < 64) (h : PassInv D L β0 p marker ROM s) :
    (s.selected.all (fun d => d.testBit p) && s.selected.all (fun d => !d.testBit p)) = false ∧
    PassInv D L β0 (p + 1) (nextMarker L ROM s.selected p marker)
      (storeBit ROM p (pickBit L ROM s.selected p))
      (afterWrite s p (pickBit L ROM s.selected p)) := by
  obtain ⟨hboth, ⟨dg, hdg, hdgb⟩, hmark, hdisc⟩ :=
    pickBit_has_device L ROM s.selected p h.nonempty
  refine ⟨hboth, ?_⟩
  have hβ : ∀ q, romBit (storeBit ROM p (pickBit L ROM s.selected p)) q
      = if q = p then pickBit L ROM s.selected p else romBit ROM q :=
    fun q => romBit_storeBit ROM p q _ h.length hp
  have hlow : ∀ q, q < p →
      romBit (storeBit ROM p (pickBit L ROM s.selected p)) q = romBit ROM q := by
    intro q hq
    rw [hβ, if_neg (by omega)]
  have hat : romBit (storeBit ROM p (pickBit L ROM s.selected p)) p
      = pickBit L ROM s.selected p := by
    rw [hβ, if_pos rfl]
  have hag : ∀ d q, q ≤ p →
      (Agree d (romBit (storeBit ROM p (pickBit L ROM s.selected p))) q ↔
        Agree d (romBit ROM) q) :=
    fun d q hq => agree_congr d _ _ q (fun r hr => hlow r (by omega))
  have hbr : ∀ q, q < p →
      (Branch D (romBit (storeBit ROM p (pickBit L ROM s.selected p))) q ↔
        Branch D (romBit ROM) q) :=
    fun q hq => branch_congr D _ _ q (fun r hr => hlow r (by omega))
  have hbrp : Branch D (romBit (storeBit ROM p (pickBit L ROM s.selected p))) p ↔
      (pickBit L ROM s.selected p = false ∧ ∃ d, d ∈ s.selected ∧ d.testBit p = true) := by
    unfold Branch
    rw [hat]
    constructor
    · rintro ⟨h0, d, hd, ha, hb⟩
      exact ⟨h0, d, (h.selected d).2 ⟨hd, (hag d p (Nat.le_refl p)).1 ha⟩, hb⟩
    · rintro ⟨h0, d, hd, hb⟩
      obtain ⟨hdD, ha⟩ := (h.selected d).1 hd
      exact ⟨h0, d, hdD, (hag d p (Nat.le_refl p)).2 ha, hb⟩
  constructor
  · -- stage
    show (if p + 1 < 64 then Stage.search (p + 1) false else Stage.idle) = _
    rfl
  · exact h.devices
  · intro d
    show d ∈ s.selected.filter (fun d => d.testBit p == pickBit L ROM s.selected p) ↔ _
    rw [List.mem_filter, h.selected d, agree_succ, hag d p (Nat.le_refl p), hat]
    simp [and_assoc]
  · exact ⟨dg, by
      show dg ∈ s.selected.filter (fun d => d.testBit p == pickBit L ROM s.selected p)
      rw [List.mem_filter]
      exact ⟨hdg, by simp [hdgb]⟩⟩
  · rw [storeBit_length]; exact h.length
  · intro q hq
    rw [hβ, if_neg (by omega)]
    exact h.rest q (by omega)
  · intro q hq h1 h0
    by_cases e : q = p
    · subst e
      obtain ⟨d1, hd1, ha1, hb1⟩ := h1
      obtain ⟨d0, hd0, ha0, hb0⟩ := h0
      rw [hat, hdisc ⟨d1, (h.selected d1).2 ⟨hd1, (hag d1 q (Nat.le_refl q)).1 ha1⟩, hb1⟩
        ⟨d0, (h.selected d0).2 ⟨hd0, (hag d0 q (Nat.le_refl q)).1 ha0⟩, hb0⟩]
      rw [h.rest q (Nat.le_refl q)]
    · have hq' : q < p := by omega
      rw [hlow q hq']
      apply h.choice q hq'
      · obtain ⟨d1, hd1, ha1, hb1⟩ := h1
        exact ⟨d1, hd1, (hag d1 q (by omega)).1 ha1, hb1⟩
      · obtain ⟨d0, hd0, ha0, hb0⟩ := h0
        exact ⟨d0, hd0, (hag d0 q (by omega)).1 ha0, hb0⟩
  · -- marker
    unfold nextMarker
    by_cases hm : (!s.selected.all (fun d => d.testBit p) &&
        !s.selected.all (fun d => !d.testBit p) && !pickBit L ROM s.selected p) = true
    · rw [if_pos hm]
      refine ⟨Or.inr ⟨Nat.le_refl _, ?_⟩, fun q hq _ => hq⟩
      rw [Nat.add_sub_cancel]
      exact hbrp.2 (hmark.1 hm)
    · rw [if_neg hm]
      obtain ⟨hm1, hm2⟩ := h.marker
      refine ⟨?_, ?_⟩
      · rcases hm1 with h0 | ⟨hle, hb⟩
        · exact Or.inl h0
        · by_cases hz : marker = 0
          · exact Or.inl hz
          · exact Or.inr ⟨by omega, (hbr (marker - 1) (by omega)).2 hb⟩
      · intro q hq hb
        by_cases e : q = p
        · subst e
          exact absurd (hmark.2 (hbrp.1 hb)) hm
        · exact hm2 q (by omega) ((hbr q (by omega)).1 hb)
  · intro idx hidx
    by_cases e : idx = p / 8
    · exact (storeBit_byte ROM p idx _ h.length hp).1 e
    · rw [(storeBit_byte ROM p idx _ h.length hp).2 e]
      exact h.bytes idx (by omega)


theorem search_loop_sim (D : List Nat) (L : Nat) (β0 : Nat → Bool) :
    ∀ (fuel p marker : Nat) (ROM : List Nat) (s : Sim), p + fuel = 64 → 1 ≤ fuel →
    PassInv D L β0 p marker ROM s →
    ∃ marker1 ROM1 s1,
      search_loop (readable simBus) L fuel (p + 1) (p / 8) (2 ^ (p % 8)) marker ROM s
        = some (65, marker1, ROM1, s1) ∧
      PassInv D L β0 64 marker1 ROM1 s1 := by
  intro fuel
  induction fuel with
  | zero => intro _ _ _ _ _ h; omega
  | succ fuel ih =>
    intro p marker ROM s hsum _ hinv
    have hp : p < 64 := by omega
    have hst : s.stage = Stage.search p false := by
      have := hinv.stage
      rwa [if_pos hp] at this
    obtain ⟨hboth, hnext⟩ := passInv_step D L β0 p marker ROM s hp hinv
    rw [search_loop_sim_step L fuel p marker ROM s hp hst, hboth]
    simp only [Bool.false_eq_true, if_false]
    by_cases hlast : p + 1 < 64
    · rw [if_pos hlast]
      exact ih (p + 1) _ _ _ (by omega) (by omega) hnext
    · rw [if_neg hlast]
      have h63 : p = 63 := by omega
      subst h63
      exact ⟨_, _, _, rfl, hnext⟩

theorem onewire_reset_sim (s : Sim) (hne : s.devices ≠ []) :
    onewire_reset simBus s
      = some (0, { devices := s.devices, selected := s.devices, stage := Stage.command [],
                   polls := 2 }) := by
  have hemp : s.devices.isEmpty = false := by
    cases hd : s.devices with
    | nil => exact absurd hd hne
    | cons a l => rfl
  have e1 : reset_poll simBus (49 + 1) 0 0 (simBus.reset_pulse s)
      = reset_poll simBus 49 1 1 (⟨s.devices, s.devices, Stage.command [], 1⟩ : Sim) := by
    rw [reset_poll]
    simp [simBus, hemp, level, NUM_RETRIES]
  have e2 : reset_poll simBus (48 + 1) 1 1 (⟨s.devices, s.devices, Stage.command [], 1⟩ : Sim)
      = some (1, 1, 2, (⟨s.devices, s.devices, Stage.command [], 2⟩ : Sim)) := by
    rw [reset_poll]
    simp [simBus, level, NUM_RETRIES]
  unfold onewire_reset
  rw [show NUM_RETRIES = 49 + 1 from rfl, e1, show (49 : Nat) = 48 + 1 from rfl, e2]
  rfl

theorem send_search_sim (D : List Nat) (sel : List Nat) (n : Nat) :
    send_command simBus 0xF0
        { devices := D, selected := sel, stage := Stage.command [], polls := n }
      = { devices := D, selected := D, stage := Stage.search 0 false, polls := n } := by
  rfl


theorem passInv_start (D : List Nat) (hne : D ≠ []) (L : Nat) (ROM : List Nat)
    (hlen : ROM.length = 8) (n : Nat) :
    PassInv D L (romBit ROM) 0 0 ROM
      { devices := D, selected := D, stage := Stage.search 0 false, polls := n } := by
  constructor
  · rfl
  · rfl
  · intro d
    exact ⟨fun h => ⟨h, fun q hq => absurd hq (Nat.not_lt_zero q)⟩, fun h => h.1⟩
  · exact List.exists_mem_of_ne_nil D hne
  · exact hlen
  · intro q _; rfl
  · intro q hq; exact absurd hq (Nat.not_lt_zero q)
  · exact ⟨Or.inl rfl, fun q hq => absurd hq (Nat.not_lt_zero q)⟩
  · intro idx h; exact absurd h (Nat.not_lt_zero _)

theorem next_sim_search (mem : Nat → Option Nat) (D : List Nat) (hne : D ≠ [])
    (g : SearchState) (s : Sim) (hs : s.devices = D) (hdone : g.doneFlag = 0) :
    next (withLoad simBus mem) g s =
      match search_loop (withLoad simBus mem) g.lastDiscrep 64 1 0 1 0 g.ROM
          { devices := D, selected := D, stage := Stage.search 0 false, polls := 2 } with
      | none => none
      | some (m, discrepMarker, ROM, s3) =>
        if m < 65 then some (FALSE, ⟨ROM, 0, g.doneFlag, 0⟩, s3)
        else some (TRUE, ⟨ROM, discrepMarker, if discrepMarker == 0 then 1 else 0, 0⟩, s3) := by
  have hne' : s.devices ≠ [] := by rw [hs]; exact hne
  unfold next
  rw [onewire_reset_withLoad, onewire_reset_sim s hne', hs]
  simp only [hdone, bne_self_eq_false, Bool.or_self, Bool.false_eq_true, if_false,
    send_command_withLoad, send_search_sim]
  cases search_loop (withLoad simBus mem) g.lastDiscrep 64 1 0 1 0 g.ROM
      { devices := D, selected := D, stage := Stage.search 0 false, polls := 2 } with
  | none => rfl
  | some r =>
    obtain ⟨m, discrepMarker, ROM, s3⟩ := r
    simp

theorem next_sim_pass (D : List Nat) (hne : D ≠ []) (g : SearchState) (s : Sim)
    (hs : s.devices = D) (hlen : g.ROM.length = 8) (hdone : g.doneFlag = 0) :
    ∃ marker1 ROM1 s1,
      next (readable simBus) g s
        = some (TRUE, ⟨ROM1, marker1, if marker1 == 0 then 1 else 0, 0⟩, s1) ∧
      PassInv D g.lastDiscrep (romBit g.ROM) 64 marker1 ROM1 s1 := by
  obtain ⟨marker1, ROM1, s1, hloop, hinv⟩ :=
    search_loop_sim D g.lastDiscrep (romBit g.ROM) 64 0 0 g.ROM
      { devices := D, selected := D, stage := Stage.search 0 false, polls := 2 }
      (by omega) (by omega) (passInv_start D hne g.lastDiscrep g.ROM hlen 2)
  refine ⟨marker1, ROM1, s1, ?_, hinv⟩
  have hloop' : search_loop (withLoad simBus (fun _ => some 0)) g.lastDiscrep 64 1 0 1 0 g.ROM
      { devices := D, selected := D, stage := Stage.search 0 false, polls := 2 }
      = some (65, marker1, ROM1, s1) := hloop
  rw [readable_eq, next_sim_search _ D hne g s hs hdone, hloop']
  simp

theorem next_sim_done (mem : Nat → Option Nat) (D : List Nat) (hne : D ≠ []) (g : SearchState)
    (s : Sim) (hs : s.devices = D) (hdone : g.doneFlag ≠ 0) :
    next (withLoad simBus mem) g s
      = some (FALSE, ⟨g.ROM, 0, g.doneFlag, 0⟩, ⟨D, D, Stage.command [], 2⟩) := by
  have hne' : s.devices ≠ [] := by rw [hs]; exact hne
  unfold next
  rw [onewire_reset_withLoad, onewire_reset_sim s hne', hs]
  simp [hdone]

/-! ## The tree order -/

theorem first_diff (c d : Nat) (hc : c < 2 ^ 64) (hd : d < 2 ^ 64) (hne : c ≠ d) :
    ∃ p, p < 64 ∧ (∀ q, q < p → c.testBit q = d.testBit q) ∧ c.testBit p ≠ d.testBit p := by
  have hex : ∃ i, c.testBit i ≠ d.testBit i := Nat.ne_implies_bit_diff hne
  refine ⟨Nat.find hex, ?_, ?_, Nat.find_spec hex⟩
  · by_contra hge
    have h64 : 64 ≤ Nat.find hex := by omega
    have hcf : c.testBit (Nat.find hex) = false :=
      Nat.testBit_lt_two_pow (lt_of_lt_of_le hc (Nat.pow_le_pow_right (by omega) h64))
    have hdf : d.testBit (Nat.find hex) = false :=
      Nat.testBit_lt_two_pow (lt_of_lt_of_le hd (Nat.pow_le_pow_right (by omega) h64))
    exact Nat.find_spec hex (by rw [hcf, hdf])
  · intro q hq
    by_contra hcon
    exact Nat.find_min hex hq hcon

theorem treeLt_irrefl (c : Nat) : ¬ treeLt c c := by
  rintro ⟨p, _, _, h0, h1⟩
  rw [h0] at h1
  exact absurd h1 (by decide)

theorem treeLt_trans {c d e : Nat} (h1 : treeLt c d) (h2 : treeLt d e) : treeLt c e := by
  obtain ⟨p, hp, hpl, hp0, hp1⟩ := h1
  obtain ⟨r, hr, hrl, hr0, hr1⟩ := h2
  rcases Nat.lt_trichotomy p r with h | h | h
  · exact ⟨p, hp, fun q hq => (hpl q hq).trans (hrl q (by omega)), hp0,
      by rw [← hrl p h]; exact hp1⟩
  · subst h
    rw [hp1] at hr0
    exact absurd hr0 (by decide)
  · exact ⟨r, hr, fun q hq => (hpl q (by omega)).trans (hrl q hq),
      by rw [hpl r h]; exact hr0, hr1⟩

theorem treeLt_ne {c d : Nat} (h : treeLt c d) : c ≠ d := by
  intro e
  subst e
  exact treeLt_irrefl c h

theorem good_max (D : List Nat) (c : Nat) (h : Good D c 0) : ∀ d, d ∈ D → ¬ treeLt c d := by
  rintro d hd ⟨p, hp, hpl, hp0, hp1⟩
  have := h.2.2 p hp ⟨hp0, d, hd, fun q hq => (hpl q hq).symm, hp1⟩
  omega

theorem good_pos (D : List Nat) (c L : Nat) (h : Good D c L) (hL : 0 < L) :
    L ≤ 64 ∧ ∃ d, d ∈ D ∧ treeLt c d := by
  rcases h.2.1 with h0 | ⟨hle, hb0, d, hd, ha, hb⟩
  · omega
  · exact ⟨hle, d, hd, L - 1, by omega, fun q hq => (ha q hq).symm, hb0, hb⟩

theorem pass_first_min (D : List Nat) (hlt : ∀ d, d ∈ D → d < 2 ^ 64) (β0 : Nat → Bool) (c : Nat)
    (hc : c ∈ D) (hch : Choice D 0 β0 c.testBit 64) :
    ∀ d, d ∈ D → d ≠ c → treeLt c d := by
  intro d hd hne
  obtain ⟨p, hp, hpl, hpd⟩ := first_diff c d (hlt c hc) (hlt d hd) (Ne.symm hne)
  cases hcp : c.testBit p
  · cases hdp : d.testBit p
    · rw [hcp, hdp] at hpd; exact absurd rfl hpd
    · exact ⟨p, hp, hpl, hcp, hdp⟩
  · cases hdp : d.testBit p
    · have := hch p hp ⟨c, hc, fun q _ => rfl, hcp⟩ ⟨d, hd, fun q hq => (hpl q hq).symm, hdp⟩
      rw [hcp] at this
      simp at this
    · rw [hcp, hdp] at hpd; exact absurd rfl hpd

theorem pass_next_succ (D : List Nat) (hlt : ∀ d, d ∈ D → d < 2 ^ 64) (c L c1 : Nat)
    (hgood : Good D c L) (hL : 0 < L) (hc1 : c1 ∈ D)
    (hch : Choice D L c.testBit c1.testBit 64) :
    treeLt c c1 ∧ ∀ d, d ∈ D → treeLt c d → d = c1 ∨ treeLt c1 d := by
  obtain ⟨hc, hm1, hm2⟩ := hgood
  have hbr : L ≤ 64 ∧ Branch D c.testBit (L - 1) := by
    rcases hm1 with h0 | h
    · omega
    · exact h
  obtain ⟨hL64, hb0, d1, hd1, ha1, hb1⟩ := hbr
  -- below the marker the new path follows the old one
  have hfollow : ∀ q, q < L - 1 → c1.testBit q = c.testBit q := by
    intro q
    induction q using Nat.strong_induction_on with
    | _ q ih =>
      intro hq
      have hag : Agree c c1.testBit q := fun r hr => (ih r hr (by omega)).symm
      by_contra hne
      cases hcq : c.testBit q
      · have h1q : c1.testBit q = true := by
          cases h : c1.testBit q
          · rw [h, hcq] at hne; exact absurd rfl hne
          · rfl
        have := hch q (by omega) ⟨c1, hc1, fun r _ => rfl, h1q⟩ ⟨c, hc, hag, hcq⟩
        rw [if_pos (by omega)] at this
        exact hne this
      · have h1q : c1.testBit q = false := by
          cases h : c1.testBit q
          · rfl
          · rw [h, hcq] at hne; exact absurd rfl hne
        have := hch q (by omega) ⟨c, hc, hag, hcq⟩ ⟨c1, hc1, fun r _ => rfl, h1q⟩
        rw [if_pos (by omega)] at this
        exact hne this
  -- at the marker it takes 1
  have hat : c1.testBit (L - 1) = true := by
    have := hch (L - 1) (by omega)
      ⟨d1, hd1, fun r hr => (ha1 r hr).trans (hfollow r hr).symm, hb1⟩
      ⟨c, hc, fun r hr => (hfollow r hr).symm, hb0⟩
    rw [if_neg (by omega)] at this
    rw [this]
    simp
    omega
  refine ⟨⟨L - 1, by omega, fun q hq => (hfollow q hq).symm, hb0, hat⟩, ?_⟩
  rintro d hd ⟨p, hp, hpl, hp0, hp1⟩
  have hpL : p < L := hm2 p hp ⟨hp0, d, hd, fun q hq => (hpl q hq).symm, hp1⟩
  by_cases hlow : p < L - 1
  · right
    exact ⟨p, hp, fun q hq => (hfollow q (by omega)).trans (hpl q hq),
      by rw [hfollow p hlow]; exact hp0, hp1⟩
  · have hpe : p = L - 1 := by omega
    subst hpe
    by_cases hdc : d = c1
    · exact Or.inl hdc
    · right
      obtain ⟨r, hr, hrl, hrd⟩ := first_diff c1 d (hlt c1 hc1) (hlt d hd) (Ne.symm hdc)
      have hrL : L - 1 < r := by
        by_contra hle
        rcases Nat.lt_or_ge r (L - 1) with h | h
        · exact hrd ((hfollow r h).trans (hpl r h))
        · have : r = L - 1 := by omega
          subst this
          rw [hat, hp1] at hrd
          exact absurd rfl hrd
      cases hcr : c1.testBit r
      · cases hdr : d.testBit r
        · rw [hcr, hdr] at hrd; exact absurd rfl hrd
        · exact ⟨r, hr, hrl, hcr, hdr⟩
      · cases hdr : d.testBit r
        · have := hch r hr ⟨c1, hc1, fun q _ => rfl, hcr⟩
            ⟨d, hd, fun q hq => (hrl q hq).symm, hdr⟩
          rw [if_neg (by omega), hcr] at this
          simp at this
          omega
        · rw [hcr, hdr] at hrd; exact absurd rfl hrd

/-! ## What one pass returns -/

theorem pass_result (D : List Nat) (hlt : ∀ d, d ∈ D → d < 2 ^ 64) (L : Nat) (β0 : Nat → Bool)
    (marker1 : Nat) (ROM1 : List Nat) (s1 : Sim) (h : PassInv D L β0 64 marker1 ROM1 s1) :
    romValue ROM1 ∈ D ∧ (∀ q, romBit ROM1 q = (romValue ROM1).testBit q) ∧
    Choice D L β0 (romValue ROM1).testBit 64 ∧ Good D (romValue ROM1) marker1 := by
  have hbytes : ∀ idx, ROM1.getD idx 0 < 256 := by
    intro idx
    by_cases hi : idx < 8
    · exact h.bytes idx (by omega)
    · rw [List.getD_eq_default _ _ (by rw [h.length]; omega)]
      norm_num
  have hbits : ∀ q, (romValue ROM1).testBit q = romBit ROM1 q := testBit_romValue ROM1 hbytes
  obtain ⟨d, hd⟩ := h.nonempty
  obtain ⟨hdD, hag⟩ := (h.selected d).1 hd
  have hdv : d = romValue ROM1 := by
    apply Nat.eq_of_testBit_eq
    intro i
    by_cases hi : i < 64
    · rw [hag i hi, hbits]
    · have h64 : 64 ≤ i := by omega
      have hdf : d.testBit i = false :=
        Nat.testBit_lt_two_pow (lt_of_lt_of_le (hlt d hdD) (Nat.pow_le_pow_right (by omega) h64))
      have hrf : romBit ROM1 i = false := by
        unfold romBit
        rw [List.getD_eq_default _ _ (by rw [h.length]; omega)]
        simp
      rw [hdf, hbits, hrf]
  have hfun : romBit ROM1 = (romValue ROM1).testBit := by
    funext q; exact (hbits q).symm
  have hc := h.choice
  have hm := h.marker
  rw [hfun] at hc hm
  exact ⟨hdv ▸ hdD, fun q => (hbits q).symm, hc, hdv ▸ hdD, hm⟩

theorem first_ok (D : List Nat) (hne : D ≠ []) (hlt : ∀ d, d ∈ D → d < 2 ^ 64)
    (g : SearchState) (s : Sim) (hs : s.devices = D) (hlen : g.ROM.length = 8) :
    ∃ c L g1 s1, first (readable simBus) g s = some (TRUE, g1, s1) ∧ After D c L g1 s1 ∧
      ∀ d, d ∈ D → d ≠ c → treeLt c d := by
  obtain ⟨marker1, ROM1, s1, he, hinv⟩ :=
    next_sim_pass D hne { g with lastDiscrep := 0, doneFlag := FALSE } s hs hlen rfl
  obtain ⟨hc, hbits, hch, hgood⟩ := pass_result D hlt _ _ marker1 ROM1 s1 hinv
  refine ⟨romValue ROM1, marker1, _, s1, he, ?_, pass_first_min D hlt _ _ hc hch⟩
  exact ⟨hinv.devices, hinv.length, rfl, hbits, rfl, rfl, hgood⟩

theorem next_ok (D : List Nat) (hne : D ≠ []) (hlt : ∀ d, d ∈ D → d < 2 ^ 64)
    (c L : Nat) (g : SearchState) (s : Sim) (h : After D c L g s) (hL : 0 < L) :
    ∃ c1 L1 g1 s1, next (readable simBus) g s = some (TRUE, g1, s1) ∧ After D c1 L1 g1 s1 ∧
      treeLt c c1 ∧ ∀ d, d ∈ D → treeLt c d → d = c1 ∨ treeLt c1 d := by
  have hdone : g.doneFlag = 0 := by
    rw [h.done]
    have : (L == 0) = false := by simp; omega
    rw [this]; rfl
  obtain ⟨marker1, ROM1, s1, he, hinv⟩ := next_sim_pass D hne g s h.devices h.length hdone
  have hfun : romBit g.ROM = c.testBit := by funext q; exact h.bits q
  rw [h.last, hfun] at hinv
  obtain ⟨hc, hbits, hch, hgood⟩ := pass_result D hlt _ _ marker1 ROM1 s1 hinv
  obtain ⟨hlt1, hsucc⟩ := pass_next_succ D hlt c L (romValue ROM1) h.good hL hc hch
  exact ⟨romValue ROM1, marker1, _, s1, he,
    ⟨hinv.devices, hinv.length, rfl, hbits, rfl, rfl, hgood⟩, hlt1, hsucc⟩

theorem next_end (D : List Nat) (hne : D ≠ []) (c : Nat) (g : SearchState) (s : Sim)
    (h : After D c 0 g s) :
    next (readable simBus) g s = some (FALSE, ⟨g.ROM, 0, g.doneFlag, 0⟩, ⟨D, D, Stage.command [], 2⟩) := by
  apply next_sim_done _ D hne g s h.devices
  rw [h.done]
  decide

/-! ## The enumeration -/

theorem treeLt_total (c d : Nat) (hc : c < 2 ^ 64) (hd : d < 2 ^ 64) :
    c = d ∨ treeLt c d ∨ treeLt d c := by
  by_cases hne : c = d
  · exact Or.inl hne
  · obtain ⟨p, hp, hpl, hpd⟩ := first_diff c d hc hd hne
    cases hcp : c.testBit p
    · cases hdp : d.testBit p
      · rw [hcp, hdp] at hpd; exact absurd rfl hpd
      · exact Or.inr (Or.inl ⟨p, hp, hpl, hcp, hdp⟩)
    · cases hdp : d.testBit p
      · exact Or.inr (Or.inr ⟨p, hp, fun q hq => (hpl q hq).symm, hdp, hcp⟩)
      · rw [hcp, hdp] at hpd; exact absurd rfl hpd

theorem enumCodes_succ (g : SearchState) (s : Sim) (n : Nat) :
    enumCodes g s (n + 1) = enumCodes g s n ++ [enumCode g s n] := by
  simp [enumCodes, List.range_succ]

theorem enumInv_facts (D : List Nat) (hnd : D.Nodup) (hlt : ∀ d, d ∈ D → d < 2 ^ 64)
    (g : SearchState) (s : Sim) (i c L : Nat) (gi : SearchState) (si : Sim)
    (h : EnumInv D g s i c L gi si) :
    enumCode g s i = c ∧ (enumCodes g s (i + 1)).Nodup ∧
    (∀ d, d ∈ enumCodes g s (i + 1) → d ∈ D) ∧ i + 1 ≤ D.length ∧
    (L = 0 ↔ i + 1 = D.length) := by
  obtain ⟨hcall, haft, hlow, hnd1, hsub⟩ := h
  have hcD : c ∈ D := haft.good.1
  have hcode : enumCode g s i = c := by
    unfold enumCode
    rw [hcall]
    exact haft.value
  have hnotin : c ∉ enumCodes g s i := fun hin => treeLt_irrefl c ((hlow c hcD).2 hin)
  have hnd2 : (enumCodes g s (i + 1)).Nodup := by
    rw [enumCodes_succ, hcode]
    exact List.Nodup.append hnd1 (List.nodup_singleton c)
      (by
        intro a ha hb
        rw [List.mem_singleton] at hb
        subst hb
        exact hnotin ha)
  have hsub2 : ∀ d, d ∈ enumCodes g s (i + 1) → d ∈ D := by
    intro d hd
    rw [enumCodes_succ, hcode, List.mem_append, List.mem_singleton] at hd
    rcases hd with hd | hd
    · exact hsub d hd
    · rw [hd]; exact hcD
  have hlen : (enumCodes g s (i + 1)).length = i + 1 := by simp [enumCodes]
  have hle : i + 1 ≤ D.length := by
    have := (List.subperm_of_subset hnd2 hsub2).length_le
    omega
  refine ⟨hcode, hnd2, hsub2, hle, ?_, ?_⟩
  · intro hL
    subst hL
    have hall : ∀ d, d ∈ D → d ∈ enumCodes g s (i + 1) := by
      intro d hd
      rw [enumCodes_succ, hcode, List.mem_append, List.mem_singleton]
      rcases treeLt_total d c (hlt d hd) (hlt c hcD) with h1 | h1 | h1
      · exact Or.inr h1
      · exact Or.inl ((hlow d hd).1 h1)
      · exact absurd h1 (good_max D c haft.good d hd)
    have := (List.subperm_of_subset hnd hall).length_le
    omega
  · intro hN
    by_contra hL
    obtain ⟨-, d, hd, hcd⟩ := good_pos D c L haft.good (by omega)
    have hdn : d ∉ enumCodes g s (i + 1) := by
      rw [enumCodes_succ, hcode, List.mem_append, List.mem_singleton]
      rintro (h1 | h1)
      · exact treeLt_irrefl c (treeLt_trans hcd ((hlow d hd).2 h1))
      · exact treeLt_ne hcd h1.symm
    have hnd3 : (d :: enumCodes g s (i + 1)).Nodup := List.nodup_cons.2 ⟨hdn, hnd2⟩
    have hsub3 : ∀ x, x ∈ d :: enumCodes g s (i + 1) → x ∈ D := by
      intro x hx
      rcases List.mem_cons.1 hx with h1 | h1
      · rw [h1]; exact hd
      · exact hsub2 x h1
    have := (List.subperm_of_subset hnd3 hsub3).length_le
    simp only [List.length_cons] at this
    omega

theorem enumInv_all (D : List Nat) (hne : D ≠ []) (hnd : D.Nodup)
    (hlt : ∀ d, d ∈ D → d < 2 ^ 64) (g : SearchState) (s : Sim) (hs : s.devices = D)
    (hlen : g.ROM.length = 8) :
    ∀ i, i < D.length → ∃ c L gi si, EnumInv D g s i c L gi si := by
  intro i
  induction i with
  | zero =>
    intro _
    obtain ⟨c, L, g1, s1, he, haft, hmin⟩ := first_ok D hne hlt g s hs hlen
    refine ⟨c, L, g1, s1, he, haft, ?_, by simp [enumCodes], by simp [enumCodes]⟩
    intro d hd
    simp only [enumCodes, List.range_zero, List.map_nil, List.not_mem_nil, iff_false]
    intro hdc
    exact treeLt_irrefl c (treeLt_trans (hmin d hd (treeLt_ne hdc)) hdc)
  | succ i ih =>
    intro hi
    obtain ⟨c, L, gi, si, hinv⟩ := ih (by omega)
    obtain ⟨hcode, hnd2, hsub2, -, hLN⟩ := enumInv_facts D hnd hlt g s i c L gi si hinv
    obtain ⟨hcall, haft, hlow, -, -⟩ := hinv
    have hL : 0 < L := by
      rcases Nat.eq_zero_or_pos L with h0 | h0
      · have := hLN.1 h0; omega
      · exact h0
    obtain ⟨c1, L1, g1, s1, he, haft1, hcc1, hsucc⟩ := next_ok D hne hlt c L gi si haft hL
    refine ⟨c1, L1, g1, s1, ?_, haft1, ?_, hnd2, hsub2⟩
    · rw [enumCall, hcall]
      exact he
    · intro d hd
      rw [enumCodes_succ, hcode, List.mem_append, List.mem_singleton]
      constructor
      · intro hd1
        rcases treeLt_total d c (hlt d hd) (hlt c haft.good.1) with h1 | h1 | h1
        · exact Or.inr h1
        · exact Or.inl ((hlow d hd).1 h1)
        · rcases hsucc d hd h1 with h2 | h2
          · rw [h2] at hd1; exact absurd hd1 (treeLt_irrefl c1)
          · exact absurd (treeLt_trans hd1 h2) (treeLt_irrefl d)
      · rintro (h1 | h1)
        · exact treeLt_trans ((hlow d hd).2 h1) hcc1
        · rw [h1]; exact hcc1

theorem enum_spec (D : List Nat) (hne : D ≠ []) (hnd : D.Nodup)
    (hlt : ∀ d, d ∈ D → d < 2 ^ 64) (g : SearchState) (s : Sim) (hs : s.devices = D)
    (hlen : g.ROM.length = 8) :
    (∀ i, i < D.length → ∃ gi si, enumCall (readable simBus) g s i = some (TRUE, gi, si) ∧
      (gi.doneFlag ≠ 0 ↔ i + 1 = D.length) ∧ romValue gi.ROM = enumCode g s i) ∧
    (enumCodes g s D.length).Perm D ∧
    (∃ gN sN, enumCall (readable simBus) g s D.length = some (FALSE, gN, sN)) ∧
    (∀ i, i + 1 < D.length → treeLt (enumCode g s i) (enumCode g s (i + 1))) := by
  have hall := enumInv_all D hne hnd hlt g s hs hlen
  have hpos : 0 < D.length := List.length_pos.2 hne
  refine ⟨?_, ?_, ?_, ?_⟩
  · intro i hi
    obtain ⟨c, L, gi, si, hinv⟩ := hall i hi
    obtain ⟨hcode, -, -, -, hLN⟩ := enumInv_facts D hnd hlt g s i c L gi si hinv
    obtain ⟨hcall, haft, -, -, -⟩ := hinv
    refine ⟨gi, si, hcall, ?_, by rw [hcode]; exact haft.value⟩
    rw [← hLN, haft.done]
    by_cases h0 : L = 0
    · simp [h0]
    · simp [h0]
  · obtain ⟨c, L, gi, si, hinv⟩ := hall (D.length - 1) (by omega)
    obtain ⟨-, hnd2, hsub2, -, -⟩ := enumInv_facts D hnd hlt g s _ c L gi si hinv
    rw [show D.length - 1 + 1 = D.length by omega] at hnd2 hsub2
    exact (List.subperm_of_subset hnd2 hsub2).perm_of_length_le (by simp [enumCodes])
  · obtain ⟨c, L, gi, si, hinv⟩ := hall (D.length - 1) (by omega)
    obtain ⟨-, -, -, -, hLN⟩ := enumInv_facts D hnd hlt g s _ c L gi si hinv
    obtain ⟨hcall, haft, -, -, -⟩ := hinv
    have hL : L = 0 := hLN.2 (by omega)
    subst hL
    refine ⟨⟨gi.ROM, 0, gi.doneFlag, 0⟩, ⟨D, D, Stage.command [], 2⟩, ?_⟩
    have hN : D.length = D.length - 1 + 1 := by omega
    rw [hN, enumCall, hcall]
    exact next_end D hne c gi si haft
  · intro i hi
    obtain ⟨c, L, gi, si, hinv⟩ := hall i (by omega)
    obtain ⟨hcode, -, -, -, -⟩ := enumInv_facts D hnd hlt g s i c L gi si hinv
    obtain ⟨c1, L1, g1, s1, hinv1⟩ := hall (i + 1) hi
    obtain ⟨hcode1, -, -, -, -⟩ := enumInv_facts D hnd hlt g s (i + 1) c1 L1 g1 s1 hinv1
    obtain ⟨-, -, hlow1, -, -⟩ := hinv1
    rw [hcode, hcode1]
    apply (hlow1 c hinv.2.1.good.1).2
    rw [enumCodes_succ, hcode]
    simp

theorem revBits_succ (c n : Nat) :
    revBits c (n + 1) = 2 * revBits c n + (if c.testBit n then 1 else 0) := by
  simp [revBits, List.range_succ]

theorem revBits_congr (c d : Nat) : ∀ n, (∀ q, q < n → c.testBit q = d.testBit q) →
    revBits c n = revBits d n := by
  intro n
  induction n with
  | zero => intro _; rfl
  | succ n ih =>
    intro h
    rw [revBits_succ, revBits_succ, ih (fun q hq => h q (by omega)), h n (by omega)]

theorem revBits_lt (c d p : Nat) (hl : ∀ q, q < p → c.testBit q = d.testBit q)
    (h0 : c.testBit p = false) (h1 : d.testBit p = true) :
    ∀ n, p < n → revBits c n < revBits d n := by
  intro n
  induction n with
  | zero => intro h; omega
  | succ n ih =>
    intro hn
    rw [revBits_succ, revBits_succ]
    by_cases hp : p = n
    · subst hp
      rw [revBits_congr c d p hl, h0, h1]
      simp
    · have := ih (by omega)
      split <;> split <;> omega

theorem treeLt_rev64 {c d : Nat} (h : treeLt c d) : rev64 c < rev64 d := by
  obtain ⟨p, hp, hl, h0, h1⟩ := h
  exact revBits_lt c d p hl h0 h1 64 hp

/-! ## The search and the memory behind small addresses -/

theorem storeBit_getD_lt (ROM : List Nat) (p : Nat) (g : Bool) :
    (storeBit ROM p g).getD (p / 8) 0 < 256 := by
  by_cases h : p / 8 < ROM.length
  · cases g
    · simp only [storeBit, Bool.false_eq_true, if_false]
      rw [getD_set_self _ _ _ h]
      exact Nat.mod_lt _ (by decide)
    · simp only [storeBit, if_true]
      rw [getD_set_self _ _ _ h]
      exact Nat.mod_lt _ (by decide)
  · have : (storeBit ROM p g).length ≤ p / 8 := by
      rw [storeBit_length]; omega
    rw [List.getD_eq_default _ _ this]
    decide

theorem search_loop_mono (B : Bus σ) (mem : Nat → Option Nat) (L : Nat) :
    ∀ (fuel p marker : Nat) (ROM : List Nat) (s : σ) (r : Nat × Nat × List Nat × σ), p < 64 →
    search_loop (withLoad B mem) L fuel (p + 1) (p / 8) (2 ^ (p % 8)) marker ROM s = some r →
    search_loop (readable B) L fuel (p + 1) (p / 8) (2 ^ (p % 8)) marker ROM s = some r := by
  intro fuel
  induction fuel with
  | zero =>
    intro p marker ROM s r _ h
    rw [search_loop] at h
    exact absurd h (by simp)
  | succ fuel ih =>
    intro p marker ROM s r hp h
    have hr1 : ∀ m, (withLoad B m).read_slot s = ((B.read_slot s).1, (B.read_slot s).2) :=
      fun _ => rfl
    have hr2 : ∀ m, (withLoad B m).read_slot (B.read_slot s).2
        = ((B.read_slot (B.read_slot s).2).1, (B.read_slot (B.read_slot s).2).2) := fun _ => rfl
    rw [search_loop_raw (withLoad B mem) L fuel p marker ROM s hp _ _ _ _ (hr1 _) (hr2 _) _ rfl] at h
    rw [readable_eq,
      search_loop_raw (withLoad B _) L fuel p marker ROM s hp _ _ _ _ (hr1 _) (hr2 _) _ rfl]
    simp only [load_withLoad, write_bit_withLoad] at h ⊢
    split at h
    · rename_i hb
      rw [if_pos hb]
      exact h
    · rename_i hb
      rw [if_neg hb]
      split at h
      · exact absurd h (by simp)
      · rw [if_neg (by simp)]
        split at h
        · rename_i hl
          rw [if_pos hl]
          exact ih (p + 1) _ _ _ r hl h
        · rename_i hl
          rw [if_neg hl]
          exact h

theorem search_loop_total (B : Bus σ) (mem : Nat → Option Nat)
    (hmem : ∀ a, a < 256 → mem a ≠ none) (L : Nat) :
    ∀ (fuel p marker : Nat) (ROM : List Nat) (s : σ), p < 64 →
    search_loop (withLoad B mem) L fuel (p + 1) (p / 8) (2 ^ (p % 8)) marker ROM s
      = search_loop (readable B) L fuel (p + 1) (p / 8) (2 ^ (p % 8)) marker ROM s := by
  intro fuel
  induction fuel with
  | zero =>
    intro p marker ROM s _
    rw [search_loop, search_loop]
  | succ fuel ih =>
    intro p marker ROM s hp
    have hr1 : ∀ m, (withLoad B m).read_slot s = ((B.read_slot s).1, (B.read_slot s).2) :=
      fun _ => rfl
    have hr2 : ∀ m, (withLoad B m).read_slot (B.read_slot s).2
        = ((B.read_slot (B.read_slot s).2).1, (B.read_slot (B.read_slot s).2).2) := fun _ => rfl
    rw [search_loop_raw (withLoad B mem) L fuel p marker ROM s hp _ _ _ _ (hr1 _) (hr2 _) _ rfl]
    rw [readable_eq,
      search_loop_raw (withLoad B _) L fuel p marker ROM s hp _ _ _ _ (hr1 _) (hr2 _) _ rfl]
    simp only [load_withLoad, write_bit_withLoad]
    by_cases hb : ((B.read_slot s).1 && (B.read_slot (B.read_slot s).2).1) = true
    · simp only [if_pos hb]
    · simp only [if_neg hb]
      have hA : ∀ g, ¬ (p % 8 = 7 ∧ mem ((storeBit ROM p g).getD (p / 8) 0) = none) :=
        fun g h => hmem _ (storeBit_getD_lt _ _ _) h.2
      have hB : ¬ (p % 8 = 7 ∧ (some 0 : Option Nat) = none) := by simp
      simp only [hA, hB, if_false]
      by_cases hl : p + 1 < 64
      · simp only [if_pos hl]
        exact ih (p + 1) _ _ _ hl
      · simp only [if_neg hl]

theorem next_mono (B : Bus σ) (mem : Nat → Option Nat) (g : SearchState) (s : σ)
    (r : Nat × SearchState × σ) (h : next (withLoad B mem) g s = some r) :
    next (readable B) g s = some r := by
  unfold next at h ⊢
  rw [onewire_reset_withLoad] at h
  rw [readable_eq, onewire_reset_withLoad]
  cases hreset : onewire_reset B s with
  | none => rw [hreset] at h; exact absurd h (by simp)
  | some x =>
    obtain ⟨flag, s1⟩ := x
    rw [hreset] at h
    simp only [send_command_withLoad] at h ⊢
    split at h
    · rename_i hc
      rw [if_pos hc]
      exact h
    · rename_i hc
      rw [if_neg hc]
      cases hloop : search_loop (withLoad B mem) g.lastDiscrep 64 (0 + 1) (0 / 8) (2 ^ (0 % 8)) 0
          g.ROM (send_command B 0xF0 s1) with
      | none =>
        have hloop' : search_loop (withLoad B mem) g.lastDiscrep 64 1 0 1 0
          g.ROM (send_command B 0xF0 s1) = none := hloop
        rw [hloop'] at h
        exact absurd h (by simp)
      | some y =>
        have hm := search_loop_mono B mem g.lastDiscrep 64 0 0 g.ROM _ y (by omega) hloop
        have hloop' : search_loop (withLoad B mem) g.lastDiscrep 64 1 0 1 0
          g.ROM (send_command B 0xF0 s1) = some y := hloop
        have hm' : search_loop (withLoad B (fun _ => some 0)) g.lastDiscrep 64 1 0 1 0
          g.ROM (send_command B 0xF0 s1) = some y := hm
        rw [hloop'] at h
        rw [hm']
        exact h

theorem next_total (B : Bus σ) (mem : Nat → Option Nat) (hmem : ∀ a, a < 256 → mem a ≠ none)
    (g : SearchState) (s : σ) : next (withLoad B mem) g s = next (readable B) g s := by
  unfold next
  rw [readable_eq, onewire_reset_withLoad, onewire_reset_withLoad]
  have hl : ∀ (L : Nat) (ROM : List Nat) (t : σ),
      search_loop (withLoad B mem) L 64 1 0 1 0 ROM t
        = search_loop (withLoad B (fun _ => some 0)) L 64 1 0 1 0 ROM t :=
    fun L ROM t => search_loop_total B mem hmem L 64 0 0 ROM t (by omega)
  simp only [send_command_withLoad, hl]

theorem enumCall_mono (B : Bus σ) (mem : Nat → Option Nat) (g : SearchState) (s : σ) :
    ∀ (i : Nat) (r : Nat × SearchState × σ), enumCall (withLoad B mem) g s i = some r →
      enumCall (readable B) g s i = some r := by
  intro i
  induction i with
  | zero =>
    intro r h
    exact next_mono B mem _ s r h
  | succ i ih =>
    intro r h
    rw [enumCall] at h ⊢
    cases hi : enumCall (withLoad B mem) g s i with
    | none => rw [hi] at h; exact absurd h (by simp)
    | some x =>
      obtain ⟨r0, g1, s1⟩ := x
      rw [hi] at h
      rw [ih _ hi]
      exact next_mono B mem g1 s1 r h

theorem enumCall_total (B : Bus σ) (mem : Nat → Option Nat)
    (hmem : ∀ a, a < 256 → mem a ≠ none) (g : SearchState) (s : σ) :
    ∀ i, enumCall (withLoad B mem) g s i = enumCall (readable B) g s i := by
  intro i
  induction i with
  | zero => exact next_total B mem hmem _ s
  | succ i ih =>
    rw [enumCall, enumCall, ih]
    cases enumCall (readable B) g s i with
    | none => rfl
    | some x =>
      obtain ⟨r0, g1, s1⟩ := x
      exact next_total B mem hmem g1 s1

/-! ## The search on a machine where the read of line 249 faults -/

theorem search_loop_sim_fault (mem : Nat → Option Nat) (hmem : ∀ a, a < 256 → mem a = none)
    (D : List Nat) (L : Nat) (β0 : Nat → Bool) :
    ∀ (fuel p marker : Nat) (ROM : List Nat) (s : Sim), p ≤ 7 →
    PassInv D L β0 p marker ROM s →
    search_loop (withLoad simBus mem) L fuel (p + 1) (p / 8) (2 ^ (p % 8)) marker ROM s = none := by
  intro fuel
  induction fuel with
  | zero => intro _ _ _ _ _ _; rw [search_loop]
  | succ fuel ih =>
    intro p marker ROM s hp7 hinv
    have hp : p < 64 := by omega
    have hst : s.stage = Stage.search p false := by
      have := hinv.stage
      rwa [if_pos hp] at this
    obtain ⟨hboth, hnext⟩ := passInv_step D L β0 p marker ROM s hp hinv
    rw [search_loop_sim_mem mem L fuel p marker ROM s hp hst, hboth]
    simp only [Bool.false_eq_true, if_false]
    by_cases h7 : p = 7
    · rw [if_pos ⟨by omega, hmem _ (storeBit_getD_lt _ _ _)⟩]
    · rw [if_neg (fun h => h7 (by omega)), if_pos (by omega)]
      exact ih (p + 1) _ _ _ (by omega) hnext

theorem next_sim_fault (mem : Nat → Option Nat) (hmem : ∀ a, a < 256 → mem a = none)
    (D : List Nat) (hne : D ≠ []) (g : SearchState) (s : Sim) (hs : s.devices = D)
    (hlen : g.ROM.length = 8) (hdone : g.doneFlag = 0) :
    next (withLoad simBus mem) g s = none := by
  have h := search_loop_sim_fault mem hmem D g.lastDiscrep (romBit g.ROM) 64 0 0 g.ROM
    { devices := D, selected := D, stage := Stage.search 0 false, polls := 2 } (by omega)
    (passInv_start D hne g.lastDiscrep g.ROM hlen 2)
  have h' : search_loop (withLoad simBus mem) g.lastDiscrep 64 1 0 1 0 g.ROM
      { devices := D, selected := D, stage := Stage.search 0 false, polls := 2 } = none := h
  rw [next_sim_search mem D hne g s hs hdone, h']

/-! ## The calls after the end of the enumeration -/

theorem next_sim_empty (mem : Nat → Option Nat) (g : SearchState) (s : Sim)
    (hs : s.devices = []) :
    next (withLoad simBus mem) g s
      = some (FALSE, ⟨g.ROM, 0, g.doneFlag, 0⟩, ⟨[], [], Stage.command [], 50⟩) := by
  have hp := reset_poll_sim_empty 50 0 (simBus.reset_pulse s) hs (by omega) (by omega)
  unfold next
  rw [onewire_reset_withLoad]
  unfold onewire_reset
  rw [show NUM_RETRIES = 50 from rfl, hp]
  simp [ECANCELED, FALSE, simBus, hs]

theorem enum_empty (mem : Nat → Option Nat) (g : SearchState) (s : Sim) (hs : s.devices = []) :
    ∀ j, ∃ gj sj, enumCall (withLoad simBus mem) g s j = some (FALSE, gj, sj) ∧
      sj.devices = [] := by
  intro j
  induction j with
  | zero =>
    exact ⟨_, ⟨[], [], Stage.command [], 50⟩, next_sim_empty mem _ s hs, rfl⟩
  | succ j ih =>
    obtain ⟨gj, sj, he, hd⟩ := ih
    refine ⟨⟨gj.ROM, 0, gj.doneFlag, 0⟩, ⟨[], [], Stage.command [], 50⟩, ?_, rfl⟩
    rw [enumCall, he]
    exact next_sim_empty mem gj sj hd

theorem enum_after (D : List Nat) (hne : D ≠ []) (hnd : D.Nodup)
    (hlt : ∀ d, d ∈ D → d < 2 ^ 64) (g : SearchState) (s : Sim) (hs : s.devices = D)
    (hlen : g.ROM.length = 8) :
    ∀ j, D.length ≤ j → ∃ gj sj, enumCall (readable simBus) g s j = some (FALSE, gj, sj) ∧
      gj.doneFlag ≠ 0 ∧ sj.devices = D := by
  have hpos : 0 < D.length := List.length_pos.2 hne
  intro j hj
  induction j, hj using Nat.le_induction with
  | base =>
    obtain ⟨c, L, gi, si, hinv⟩ := enumInv_all D hne hnd hlt g s hs hlen (D.length - 1) (by omega)
    obtain ⟨-, -, -, -, hLN⟩ := enumInv_facts D hnd hlt g s _ c L gi si hinv
    obtain ⟨hcall, haft, -, -, -⟩ := hinv
    have hL : L = 0 := hLN.2 (by omega)
    subst hL
    refine ⟨⟨gi.ROM, 0, gi.doneFlag, 0⟩, ⟨D, D, Stage.command [], 2⟩, ?_, ?_, rfl⟩
    · have hN : D.length = D.length - 1 + 1 := by omega
      rw [hN, enumCall, hcall]
      exact next_end D hne c gi si haft
    · show gi.doneFlag ≠ 0
      rw [haft.done]
      decide
  | succ j _ ih =>
    obtain ⟨gj, sj, he, hd, hdev⟩ := ih
    refine ⟨⟨gj.ROM, 0, gj.doneFlag, 0⟩, ⟨D, D, Stage.command [], 2⟩, ?_, hd, rfl⟩
    rw [enumCall, he]
    exact next_sim_done _ D hne gj sj hdev hd

theorem enum_order (D : List Nat) (hnd : D.Nodup) (hlt : ∀ d, d ∈ D → d < 2 ^ 64)
    (g : SearchState) (s : Sim) (hs : s.devices = D) (hlen : g.ROM.length = 8)
    (mem : Nat → Option Nat) (i : Nat) (gi gj : SearchState) (si sj : Sim)
    (hi : enumCall (withLoad simBus mem) g s i = some (TRUE, gi, si))
    (hj : enumCall (withLoad simBus mem) g s (i + 1) = some (TRUE, gj, sj)) :
    i + 1 < D.length ∧ treeLt (romValue gi.ROM) (romValue gj.ROM) := by
  have hi' := enumCall_mono simBus mem g s i _ hi
  have hj' := enumCall_mono simBus mem g s (i + 1) _ hj
  have hne : D ≠ [] := by
    intro h
    subst h
    obtain ⟨g0, s0, he, -⟩ := enum_empty (fun _ => some 0) g s hs i
    have he' : enumCall (readable simBus) g s i = some (FALSE, g0, s0) := he
    rw [hi'] at he'
    simp only [Option.some.injEq, Prod.mk.injEq] at he'
    exact absurd he'.1 (by decide)
  have hlt1 : i + 1 < D.length := by
    by_contra hge
    obtain ⟨g0, s0, he, -, -⟩ := enum_after D hne hnd hlt g s hs hlen (i + 1) (by omega)
    rw [hj'] at he
    simp only [Option.some.injEq, Prod.mk.injEq] at he
    exact absurd he.1 (by decide)
  refine ⟨hlt1, ?_⟩
  have h := (enum_spec D hne hnd hlt g s hs hlen).2.2.2 i hlt1
  have e1 : enumCode g s i = romValue gi.ROM := by
    unfold enumCode
    rw [hi']
  have e2 : enumCode g s (i + 1) = romValue gj.ROM := by
    unfold enumCode
    rw [hj']
  rw [e1, e2] at h
  exact h

theorem first_sim_fault (mem : Nat → Option Nat) (hmem : ∀ a, a < 256 → mem a = none)
    (D : List Nat) (hne : D ≠ []) (g : SearchState) (s : Sim) (hs : s.devices = D)
    (hlen : g.ROM.length = 8) :
    first (withLoad simBus mem) g s = none :=
  next_sim_fault mem hmem D hne { g with lastDiscrep := 0, doneFlag := FALSE } s hs hlen rfl

/-- C1 fails on the code.  For a non-empty set of `N` distinct 64-bit ROM
codes on the simulated bus and any search state, `first()` gets through the
eight bits of byte 0 and then makes the call of line 249,
`onewire_crc8(ROM[n], sizeof(ROM[n]))`, which reads the address `ROM[0]`:
where the addresses 0..255 cannot be read the call faults and `first()`
returns nothing, so no code is enumerated.  Where they can be read, `first()`
and the next `N - 1` calls of `next()` all return TRUE, the codes left in the
ROM buffer are the `N` device codes, each exactly once, `doneFlag` is set
after call `N` and after no earlier one, and the following call of `next()`
returns FALSE. -/
theorem C1_search_stops_at_crc_call (D : List Nat) (hne : D ≠ []) (hnd : D.Nodup)
    (hlt : ∀ d, d ∈ D → d < 2 ^ 64) (g : SearchState) (s : Sim) (hs : s.devices = D)
    (hlen : g.ROM.length = 8) (mem : Nat → Option Nat) :
    first simBus g s = none ∧
    ((∀ a, a < 256 → mem a = none) → first (withLoad simBus mem) g s = none) ∧
    ((∀ a, a < 256 → mem a ≠ none) →
      (∀ i, i < D.length → ∃ gi si,
        enumCall (withLoad simBus mem) g s i = some (TRUE, gi, si) ∧
        (gi.doneFlag ≠ 0 ↔ i + 1 = D.length) ∧ romValue gi.ROM = enumCode g s i) ∧
      (enumCodes g s D.length).Perm D ∧
      (∃ gN sN, enumCall (withLoad simBus mem) g s D.length = some (FALSE, gN, sN))) := by
  refine ⟨?_, fun hmem => first_sim_fault mem hmem D hne g s hs hlen, ?_⟩
  · rw [simBus_eq]
    exact first_sim_fault _ (fun _ _ => rfl) D hne g s hs hlen
  · intro hmem
    have ht := enumCall_total simBus mem hmem g s
    simp only [ht]
    exact ⟨(enum_spec D hne hnd hlt g s hs hlen).1, (enum_spec D hne hnd hlt g s hs hlen).2.1,
      (enum_spec D hne hnd hlt g s hs hlen).2.2.1⟩

/-- C1 for the devices 1 and 2: `first()` returns nothing on the machine whose
small addresses cannot be read, and with readable memory the two calls return
the two codes and the third call returns FALSE. -/
theorem C1_search_stops_at_crc_call_witness :
    first simBus demoState (demoSim [1, 2]) = none ∧
    (enumCodes demoState (demoSim [1, 2]) 2).Perm [1, 2] ∧
    (∃ gN sN, enumCall (withLoad simBus (fun _ => some 0)) demoState (demoSim [1, 2]) 2
      = some (FALSE, gN, sN)) :=
  ⟨(C1_search_stops_at_crc_call [1, 2] (by decide) (by decide) (by decide) demoState
      (demoSim [1, 2]) rfl rfl (fun _ => some 0)).1,
   ((C1_search_stops_at_crc_call [1, 2] (by decide) (by decide) (by decide) demoState
      (demoSim [1, 2]) rfl rfl (fun _ => some 0)).2.2 (fun _ _ => by simp)).2.1,
   ((C1_search_stops_at_crc_call [1, 2] (by decide) (by decide) (by decide) demoState
      (demoSim [1, 2]) rfl rfl (fun _ => some 0)).2.2 (fun _ _ => by simp)).2.2⟩

/-- C7: for distinct ROM codes on the simulated bus, whatever the memory
behind small addresses is, whenever a call of the enumeration and the call
after it both return a code, the second code comes strictly after the first
in the order that compares two codes at the lowest bit position where they
differ and puts the code with 0 there first; and where the small addresses
can be read, every code but the last is followed by such a call. -/
theorem C7_tree_order (D : List Nat) (hnd : D.Nodup)
    (hlt : ∀ d, d ∈ D → d < 2 ^ 64) (g : SearchState) (s : Sim) (hs : s.devices = D)
    (hlen : g.ROM.length = 8) (mem : Nat → Option Nat) :
    (∀ (i : Nat) (gi gj : SearchState) (si sj : Sim),
      enumCall (withLoad simBus mem) g s i = some (TRUE, gi, si) →
      enumCall (withLoad simBus mem) g s (i + 1) = some (TRUE, gj, sj) →
        treeLt (romValue gi.ROM) (romValue gj.ROM)) ∧
    ((∀ a, a < 256 → mem a ≠ none) → ∀ i, i + 1 < D.length →
      ∃ gi gj si sj, enumCall (withLoad simBus mem) g s i = some (TRUE, gi, si) ∧
        enumCall (withLoad simBus mem) g s (i + 1) = some (TRUE, gj, sj)) := by
  refine ⟨fun i gi gj si sj hi hj =>
    (enum_order D hnd hlt g s hs hlen mem i gi gj si sj hi hj).2, ?_⟩
  intro hmem i hi
  have hne : D ≠ [] := by
    intro h
    rw [h] at hi
    exact absurd hi (Nat.not_lt_zero _)
  have ht := enumCall_total simBus mem hmem g s
  obtain ⟨gi, si, h1, -⟩ := (enum_spec D hne hnd hlt g s hs hlen).1 i (by omega)
  obtain ⟨gj, sj, h2, -⟩ := (enum_spec D hne hnd hlt g s hs hlen).1 (i + 1) hi
  exact ⟨gi, gj, si, sj, by rw [ht]; exact h1, by rw [ht]; exact h2⟩

/-- C7 for the devices 1 and 2 with readable memory: the first call returns 2,
the second 1, and 2 comes before 1 in the order. -/
theorem C7_tree_order_witness :
    treeLt (romValue [2, 0, 0, 0, 0, 0, 0, 0]) (romValue [1, 0, 0, 0, 0, 0, 0, 0]) :=
  (C7_tree_order [1, 2] (by decide) (by decide) demoState (demoSim [1, 2]) rfl rfl
    (fun _ => some 0)).1 0 ⟨[2, 0, 0, 0, 0, 0, 0, 0], 1, 0, 0⟩ ⟨[1, 0, 0, 0, 0, 0, 0, 0], 0, 1, 0⟩
    ⟨[1, 2], [2], Stage.idle, 2⟩ ⟨[1, 2], [1], Stage.idle, 2⟩ (by decide!) (by decide!)

/-- C8 fails as stated: with the devices 1 and 2 attached and readable memory
the enumeration returns 2 first and 1 second, which is not ascending when bit
0 of byte 0 is the low-order bit. -/
theorem C8_numeric_order_counterexample :
    (enumCall (readable simBus) demoState (demoSim [1, 2]) 0).map
        (fun r => (r.1, romValue r.2.1.ROM)) = some (TRUE, 2) ∧
    (enumCall (readable simBus) demoState (demoSim [1, 2]) 1).map
        (fun r => (r.1, romValue r.2.1.ROM)) = some (TRUE, 1) ∧
    enumCodes demoState (demoSim [1, 2]) 2 = [2, 1] ∧
      ¬ (∀ i, i + 1 < [1, 2].length →
          enumCode demoState (demoSim [1, 2]) i < enumCode demoState (demoSim [1, 2]) (i + 1)) := by
  have h : enumCodes demoState (demoSim [1, 2]) 2 = [2, 1] := by decide!
  have h0 : enumCode demoState (demoSim [1, 2]) 0 = 2 := by decide!
  have h1 : enumCode demoState (demoSim [1, 2]) 1 = 1 := by decide!
  refine ⟨by decide!, by decide!, h, ?_⟩
  intro hall
  have := hall 0 (by decide)
  rw [h0, h1] at this
  omega

/-- C8 as amended: for every set of distinct ROM codes on the simulated bus,
whatever the memory behind small addresses is, the codes returned by the
enumeration are in numerically ascending order when each code is read as a
64-bit integer whose high-order bit is bit 0 of byte 0 (byte 0 most
significant and, within a byte, bit 0 most significant): whenever a call and
the call after it both return a code, the second code is the greater one; and
where the small addresses can be read, every code but the last is followed by
such a call. -/
theorem C8_reversed_numeric_order (D : List Nat) (hnd : D.Nodup)
    (hlt : ∀ d, d ∈ D → d < 2 ^ 64) (g : SearchState) (s : Sim) (hs : s.devices = D)
    (hlen : g.ROM.length = 8) (mem : Nat → Option Nat) :
    (∀ (i : Nat) (gi gj : SearchState) (si sj : Sim),
      enumCall (withLoad simBus mem) g s i = some (TRUE, gi, si) →
      enumCall (withLoad simBus mem) g s (i + 1) = some (TRUE, gj, sj) →
        rev64 (romValue gi.ROM) < rev64 (romValue gj.ROM)) ∧
    ((∀ a, a < 256 → mem a ≠ none) → ∀ i, i + 1 < D.length →
      ∃ gi gj si sj, enumCall (withLoad simBus mem) g s i = some (TRUE, gi, si) ∧
        enumCall (withLoad simBus mem) g s (i + 1) = some (TRUE, gj, sj)) := by
  refine ⟨fun i gi gj si sj hi hj =>
    treeLt_rev64 (enum_order D hnd hlt g s hs hlen mem i gi gj si sj hi hj).2, ?_⟩
  intro hmem i hi
  have hne : D ≠ [] := by
    intro h
    rw [h] at hi
    exact absurd hi (Nat.not_lt_zero _)
  have ht := enumCall_total simBus mem hmem g s
  obtain ⟨gi, si, h1, -⟩ := (enum_spec D hne hnd hlt g s hs hlen).1 i (by omega)
  obtain ⟨gj, sj, h2, -⟩ := (enum_spec D hne hnd hlt g s hs hlen).1 (i + 1) hi
  exact ⟨gi, gj, si, sj, by rw [ht]; exact h1, by rw [ht]; exact h2⟩

/-- C8 as amended, for the devices 1 and 2 with readable memory: the codes 2
and 1 are returned in this order, and 2 is the smaller one when bit 0 of byte
0 is the high-order bit. -/
theorem C8_reversed_numeric_order_witness :
    rev64 (romValue [2, 0, 0, 0, 0, 0, 0, 0]) < rev64 (romValue [1, 0, 0, 0, 0, 0, 0, 0]) :=
  (C8_reversed_numeric_order [1, 2] (by decide) (by decide) demoState (demoSim [1, 2]) rfl rfl
    (fun _ => some 0)).1 0 ⟨[2, 0, 0, 0, 0, 0, 0, 0], 1, 0, 0⟩ ⟨[1, 0, 0, 0, 0, 0, 0, 0], 0, 1, 0⟩
    ⟨[1, 2], [2], Stage.idle, 2⟩ ⟨[1, 2], [1], Stage.idle, 2⟩ (by decide!) (by decide!)

/-! ## The second reset of a measurement -/

/-- C11 fails on the code for the second reset.  On `lostLine` the first
reset succeeds and the poll ends; the second reset then samples the line high
50 times and fails, and `read_temp` (both variants) still sends the
addressing bytes and Read-Scratchpad (0xBE), reads two bytes (0xFF, 0xFF from
the idle line) and writes "0,9375°C" over the buffer.  When the first reset
fails nothing is written to the bus and the buffer keeps its content. -/
theorem C11_second_reset_unchecked :
    read_temp wire 1 "old" [0x28, 1, 2, 3, 4, 5, 6, 0x77] ⟨lostLine, []⟩
      = some ("0,9375°C", ⟨[],
          [Event.reset_pulse, Event.sample false, Event.sample true]
            ++ writeBytes [0x55, 0x28, 1, 2, 3, 4, 5, 6, 0x77, 0x44]
            ++ readSlots [true, false, false, false, false, false, false, false]
            ++ Event.reset_pulse :: List.replicate 50 (Event.sample true)
            ++ writeBytes [0x55, 0x28, 1, 2, 3, 4, 5, 6, 0x77, 0xBE]
            ++ readSlots (List.replicate 16 true)⟩) ∧
    single_sensor.read_temp wire 1 "old" ⟨lostLine, []⟩
      = some ("0,9375°C", ⟨[],
          [Event.reset_pulse, Event.sample false, Event.sample true]
            ++ writeBytes [0xCC, 0x44]
            ++ readSlots [true, false, false, false, false, false, false, false]
            ++ Event.reset_pulse :: List.replicate 50 (Event.sample true)
            ++ writeBytes [0xCC, 0xBE]
            ++ readSlots (List.replicate 16 true)⟩) ∧
    (onewire_reset wire ⟨[], []⟩).map Prod.fst = some (-ECANCELED) ∧
    read_temp wire 1 "old" [0x28, 1, 2, 3, 4, 5, 6, 0x77] ⟨[], []⟩
      = some ("old", ⟨[], Event.reset_pulse :: List.replicate 50 (Event.sample true)⟩) ∧
    single_sensor.read_temp wire 1 "old" ⟨[], []⟩
      = some ("old", ⟨[], Event.reset_pulse :: List.replicate 50 (Event.sample true)⟩) := by
  refine ⟨by decide!, by decide!, by decide!, by decide!, by decide!⟩

/-! ## The found-ROM table -/

/-- C12 fails on the code.  With `numROMs = 2` left by an earlier enumeration,
`find_sensors` on a line without any presence pulse, and on a line where the
resets see a presence pulse but the search reads 1 and 1, writes no row and
leaves `numROMs = 2`; the host read then goes on past `numROMs == 0` and
reads rows 1 and 2 of the old table. -/
theorem C12_stale_count :
    (find_sensors wire demoDriver ⟨[], []⟩).map (fun r => (r.1.numROMs, r.2.1)) = some (2, []) ∧
    (find_sensors wire demoDriver ⟨[false, true, false, true], []⟩).map
        (fun r => (r.1.numROMs, r.2.1)) = some (2, []) ∧
    (find_sensors simBus demoDriver (demoSim [])).map (fun r => (r.1.numROMs, r.2.1))
      = some (2, []) ∧
    (my_read wire 1 demoDriver "a" "b" false 64 0 ⟨[], []⟩).map
        (fun r => (r.1, r.2.2.1, r.2.2.2.1)) = some (5, some "a | b", [1, 2]) := by
  refine ⟨by decide!, by decide!, by decide!, by decide!⟩

/-- C15 fails on the code.  Where the search returns (readable memory), with
the five devices 1, 2, 3, 4, 5 on the simulated bus `find_sensors` stores at
the rows 1, 2, 3, 4 and 5 of `foundROMs`, and row 5 is outside the five
declared rows 0..4; with twelve devices the first store outside the table is
again the one at row 5; with four devices the rows 1 to 4 are stored and
`numROMs` is 4. -/
theorem C15_row_outside_table :
    (find_sensors (readable simBus) demoDriver (demoSim [1, 2, 3, 4, 5])).map (fun r => r.2.1)
      = some [1, 2, 3, 4, 5] ∧
    ¬ (5 < FOUND_ROWS) ∧
    (find_sensors (readable simBus) demoDriver (demoSim (List.range 12))).map (fun r => r.2.1)
      = some [1, 2, 3, 4, 5] ∧
    (find_sensors (readable simBus) demoDriver (demoSim [1, 2, 3, 4])).map
        (fun r => (r.1.numROMs, r.2.1)) = some (4, [1, 2, 3, 4]) := by
  refine ⟨by decide!, by decide, by decide!, by decide!⟩

/-! ## The host read -/

/-- C13 fails on the code.  On the script `demoLine` the formatted output is
"25,0625°C", 10 bytes long; with size 1 and offset 0 the host read of
`single_sensor.c` returns 10 and hands all 10 bytes to `copy_to_user`, and
with size 100 and offset 3 it returns 10 bytes taken from the start, not 7
taken from offset 3; the host read of `multiple_sensors.c`, with two devices
on the simulated bus and readable memory, returns 21 for size 1. -/
theorem C13_host_read_ignores_size :
    strlen "25,0625°C" = 10 ∧
    (single_sensor.my_read wire 2 "" false 1 0 ⟨demoLine, []⟩).map
        (fun r => (r.1, r.2.1, r.2.2.1)) = some (10, 10, some "25,0625°C") ∧
    (single_sensor.my_read wire 2 "" false 100 3 ⟨demoLine, []⟩).map
        (fun r => (r.1, r.2.1, r.2.2.1)) = some (10, 13, some "25,0625°C") ∧
    (my_read (readable simBus) 1 demoDriver "" "" false 1 0 (demoSim [1, 2])).map
        (fun r => (r.1, r.2.1, r.2.2.1)) = some (21, 21, some "0,9375°C | 0,9375°C") := by
  refine ⟨by decide!, by decide!, by decide!, by decide!⟩

/-! ## One search pass on the scripted line -/

theorem wire_write_bit (g : Bool) (w : Wire) :
    write_bit wire (level g) w = ⟨w.line, w.log ++ [writeEvent g]⟩ := by
  cases g <;> rfl

theorem wire_eq : wire = withLoad wire (fun _ => none) := rfl

theorem search_loop_wire_mem (mem : Nat → Option Nat) (L fuel p marker : Nat) (ROM : List Nat)
    (line : List Bool) (log : List Event) (hp : p < 64) :
    search_loop (withLoad wire mem) L (fuel + 1) (p + 1) (p / 8) (2 ^ (p % 8)) marker ROM
        ⟨line, log⟩ =
      if line.headD true && line.tail.headD true then
        some (p + 1, marker, ROM,
          ⟨line.tail.tail, log ++ [Event.read (line.headD true), Event.read (line.tail.headD true)]⟩)
      else if p % 8 = 7 ∧
          mem ((storeBit ROM p (pickRead L ROM p (line.headD true)
            (line.tail.headD true))).getD (p / 8) 0) = none then none
      else
        if p + 1 < 64 then
          search_loop (withLoad wire mem) L fuel (p + 2) ((p + 1) / 8) (2 ^ ((p + 1) % 8))
            (if !line.headD true && !line.tail.headD true
                && !pickRead L ROM p (line.headD true) (line.tail.headD true)
              then p + 1 else marker)
            (storeBit ROM p (pickRead L ROM p (line.headD true) (line.tail.headD true)))
            ⟨line.tail.tail, log ++ [Event.read (line.headD true),
              Event.read (line.tail.headD true),
              writeEvent (pickRead L ROM p (line.headD true) (line.tail.headD true))]⟩
        else
          some (p + 2,
            (if !line.headD true && !line.tail.headD true
                && !pickRead L ROM p (line.headD true) (line.tail.headD true)
              then p + 1 else marker),
            storeBit ROM p (pickRead L ROM p (line.headD true) (line.tail.headD true)),
            ⟨line.tail.tail, log ++ [Event.read (line.headD true),
              Event.read (line.tail.headD true),
              writeEvent (pickRead L ROM p (line.headD true) (line.tail.headD true))]⟩) := by
  have hr1 : (withLoad wire mem).read_slot ⟨line, log⟩
      = (line.headD true, ⟨line.tail, log ++ [Event.read (line.headD true)]⟩) := rfl
  have hr2 : (withLoad wire mem).read_slot ⟨line.tail, log ++ [Event.read (line.headD true)]⟩
      = (line.tail.headD true, ⟨line.tail.tail,
          log ++ [Event.read (line.headD true)] ++ [Event.read (line.tail.headD true)]⟩) := rfl
  rw [search_loop_raw (withLoad wire mem) L fuel p marker ROM ⟨line, log⟩ hp _ _ _ _ hr1 hr2
    _ rfl]
  simp only [write_bit_withLoad, wire_write_bit, load_withLoad, List.append_assoc,
    List.singleton_append, List.cons_append, List.nil_append]

theorem search_loop_wire_step (L fuel p marker : Nat) (ROM : List Nat) (line : List Bool)
    (log : List Event) (hp : p < 64) :
    search_loop (readable wire) L (fuel + 1) (p + 1) (p / 8) (2 ^ (p % 8)) marker ROM ⟨line, log⟩ =
      if line.headD true && line.tail.headD true then
        some (p + 1, marker, ROM,
          ⟨line.tail.tail, log ++ [Event.read (line.headD true), Event.read (line.tail.headD true)]⟩)
      else
        if p + 1 < 64 then
          search_loop (readable wire) L fuel (p + 2) ((p + 1) / 8) (2 ^ ((p + 1) % 8))
            (if !line.headD true && !line.tail.headD true
                && !pickRead L ROM p (line.headD true) (line.tail.headD true)
              then p + 1 else marker)
            (storeBit ROM p (pickRead L ROM p (line.headD true) (line.tail.headD true)))
            ⟨line.tail.tail, log ++ [Event.read (line.headD true),
              Event.read (line.tail.headD true),
              writeEvent (pickRead L ROM p (line.headD true) (line.tail.headD true))]⟩
        else
          some (p + 2,
            (if !line.headD true && !line.tail.headD true
                && !pickRead L ROM p (line.headD true) (line.tail.headD true)
              then p + 1 else marker),
            storeBit ROM p (pickRead L ROM p (line.headD true) (line.tail.headD true)),
            ⟨line.tail.tail, log ++ [Event.read (line.headD true),
              Event.read (line.tail.headD true),
              writeEvent (pickRead L ROM p (line.headD true) (line.tail.headD true))]⟩) := by
  rw [readable_eq, search_loop_wire_mem _ L fuel p marker ROM line log hp]
  simp

theorem search_loop_wire (L : Nat) : ∀ (fuel p marker : Nat) (ROM : List Nat)
    (line : List Bool) (log : List Event), p + fuel = 64 → 1 ≤ fuel →
    ∃ m marker1 ROM1 w1,
      search_loop (readable wire) L fuel (p + 1) (p / 8) (2 ^ (p % 8)) marker ROM ⟨line, log⟩
        = some (m, marker1, ROM1, w1) ∧ m ≤ 65 ∧
      (m = 65 ↔ ∀ j, j < fuel →
        ¬ (line.getD (2 * j) true = true ∧ line.getD (2 * j + 1) true = true)) := by
  intro fuel
  induction fuel with
  | zero => intro _ _ _ _ _ _ h; omega
  | succ fuel ih =>
    intro p marker ROM line log hsum _
    have hp : p < 64 := by omega
    have hb1 : line.headD true = line.getD 0 true := headD_eq line
    have hb2 : line.tail.headD true = line.getD 1 true := by
      rw [headD_eq, getD_tail]
    have htt : ∀ i, line.tail.tail.getD i true = line.getD (i + 2) true := by
      intro i
      rw [getD_tail, getD_tail]
    rw [search_loop_wire_step L fuel p marker ROM line log hp]
    by_cases hboth : (line.headD true && line.tail.headD true) = true
    · rw [if_pos hboth]
      refine ⟨_, _, _, _, rfl, by omega, ?_⟩
      constructor
      · intro h; omega
      · intro h
        have := h 0 (by omega)
        rw [Bool.and_eq_true, hb1, hb2] at hboth
        exact absurd hboth this
    · rw [if_neg hboth]
      have hnot : ¬ (line.getD (2 * 0) true = true ∧ line.getD (2 * 0 + 1) true = true) := by
        rw [Bool.and_eq_true, hb1, hb2] at hboth
        exact hboth
      by_cases hlast : p + 1 < 64
      · rw [if_pos hlast]
        obtain ⟨m, marker1, ROM1, w1, he, hm, hiff⟩ :=
          ih (p + 1) _ _ line.tail.tail _ (by omega) (by omega)
        refine ⟨m, marker1, ROM1, w1, he, hm, ?_⟩
        rw [hiff]
        constructor
        · intro h j hj
          cases j with
          | zero => exact hnot
          | succ j =>
            have := h j (by omega)
            rw [htt, htt] at this
            rw [show 2 * (j + 1) = 2 * j + 2 by ring, show 2 * j + 2 + 1 = 2 * j + 1 + 2 by ring]
            exact this
        · intro h j hj
          have := h (j + 1) (by omega)
          rw [htt, htt]
          rw [show 2 * (j + 1) = 2 * j + 2 by ring,
            show 2 * j + 2 + 1 = 2 * j + 1 + 2 by ring] at this
          exact this
      · rw [if_neg hlast]
        have hf : fuel = 0 := by omega
        subst hf
        refine ⟨_, _, _, _, rfl, by omega, ?_⟩
        constructor
        · intro _ j hj
          have : j = 0 := by omega
          subst this
          exact hnot
        · intro _; omega

theorem next_any_bus (B : Bus σ) (g : SearchState) (s : σ) (r : Nat) (g1 : SearchState)
    (s1 : σ) (h : next B g s = some (r, g1, s1)) :
    (r = TRUE ∨ r = FALSE) ∧
    (r = FALSE → g1.lastDiscrep = 0 ∧ g1.doneFlag = g.doneFlag) ∧
    (r = TRUE → g.doneFlag = 0 ∧ ∃ s0, onewire_reset B s = some (0, s0)) := by
  unfold next at h
  split at h
  · exact absurd h (by simp)
  · rename_i flag s0 hreset
    dsimp only at h
    split at h
    · simp only [Option.some.injEq, Prod.mk.injEq] at h
      obtain ⟨hr, hg, -⟩ := h
      subst hr hg
      exact ⟨Or.inr rfl, fun _ => ⟨rfl, rfl⟩, fun h => absurd h (by decide)⟩
    · rename_i hcond
      simp only [Bool.or_eq_true, bne_iff_ne, ne_eq, not_or, not_not] at hcond
      split at h
      · exact absurd h (by simp)
      · split at h
        · simp only [Option.some.injEq, Prod.mk.injEq] at h
          obtain ⟨hr, hg, -⟩ := h
          subst hr hg
          exact ⟨Or.inr rfl, fun _ => ⟨rfl, rfl⟩, fun h => absurd h (by decide)⟩
        · simp only [Option.some.injEq, Prod.mk.injEq] at h
          obtain ⟨hr, hg, -⟩ := h
          subst hr
          refine ⟨Or.inl rfl, fun h => absurd h (by decide), fun _ => ⟨hcond.2, s0, ?_⟩⟩
          rw [hreset, hcond.1]


theorem next_wire_spec (g : SearchState) (line : List Bool) (log : List Event) :
    ∃ r g1 w1, next (readable wire) g ⟨line, log⟩ = some (r, g1, w1) ∧
      (r = TRUE ↔ resetSamples line < 50 ∧ g.doneFlag = 0 ∧
        ∀ p, p < 64 → ¬ ((searchReads line p).1 = true ∧ (searchReads line p).2 = true)) := by
  obtain ⟨h1, h2, he, -⟩ := onewire_reset_wire line
  by_cases hfail : resetSamples line = 50
  · refine ⟨FALSE, ⟨g.ROM, 0, g.doneFlag, 0⟩,
      ⟨line.drop (resetSamples line), log ++ resetEvents line⟩, ?_, ?_⟩
    · unfold next
      simp only [readable_eq, onewire_reset_withLoad, he, if_pos hfail]
      simp [ECANCELED]
    · constructor
      · intro h; exact absurd h (by decide)
      · rintro ⟨h, -⟩; omega
  · by_cases hdone : g.doneFlag = 0
    · obtain ⟨m, marker1, ROM1, w1, hloop, hm, hiff⟩ :=
        search_loop_wire g.lastDiscrep 64 0 0 g.ROM (line.drop (resetSamples line))
          (log ++ resetEvents line ++ writeSlots 0xF0) (by omega) (by omega)
      have hloop' : search_loop (readable wire) g.lastDiscrep 64 1 0 1 0 g.ROM
          ⟨line.drop (resetSamples line), log ++ resetEvents line ++ writeSlots 0xF0⟩
          = some (m, marker1, ROM1, w1) := hloop
      by_cases h65 : m < 65
      · refine ⟨FALSE, ⟨ROM1, 0, g.doneFlag, 0⟩, w1, ?_, ?_⟩
        · unfold next
          simp only [readable_eq, onewire_reset_withLoad, send_command_withLoad, he,
            if_neg hfail, hdone, send_command_wire]
          rw [← readable_eq, hloop']
          simp [h65]
        · constructor
          · intro h; exact absurd h (by decide)
          · rintro ⟨-, -, h⟩
            have : m = 65 := hiff.2 (fun j hj => h j hj)
            omega
      · have hm65 : m = 65 := by omega
        refine ⟨TRUE, ⟨ROM1, marker1, if marker1 == 0 then 1 else 0, 0⟩, w1, ?_, ?_⟩
        · unfold next
          simp only [readable_eq, onewire_reset_withLoad, send_command_withLoad, he,
            if_neg hfail, hdone, send_command_wire]
          rw [← readable_eq, hloop']
          simp [h65]
        · constructor
          · intro _
            exact ⟨by omega, hdone, fun p hp => hiff.1 hm65 p hp⟩
          · intro _; rfl
    · refine ⟨FALSE, ⟨g.ROM, 0, g.doneFlag, 0⟩,
        ⟨line.drop (resetSamples line), log ++ resetEvents line⟩, ?_, ?_⟩
      · unfold next
        simp only [readable_eq, onewire_reset_withLoad, he, if_neg hfail]
        simp [hdone]
      · constructor
        · intro h; exact absurd h (by decide)
        · rintro ⟨-, h, -⟩; exact absurd h hdone



theorem search_loop_wire_fault (mem : Nat → Option Nat) (hmem : ∀ a, a < 256 → mem a = none)
    (L : Nat) : ∀ (fuel p marker : Nat) (ROM : List Nat) (line : List Bool) (log : List Event)
    (r : Nat × Nat × List Nat × Wire), p ≤ 7 →
    search_loop (withLoad wire mem) L fuel (p + 1) (p / 8) (2 ^ (p % 8)) marker ROM ⟨line, log⟩
      = some r → r.1 ≤ 8 := by
  intro fuel
  induction fuel with
  | zero =>
    intro p marker ROM line log r _ h
    rw [search_loop] at h
    exact absurd h (by simp)
  | succ fuel ih =>
    intro p marker ROM line log r hp7 h
    rw [search_loop_wire_mem mem L fuel p marker ROM line log (by omega)] at h
    split at h
    · simp only [Option.some.injEq] at h
      rw [← h]
      show p + 1 ≤ 8
      omega
    · by_cases h7 : p = 7
      · rw [if_pos ⟨by omega, hmem _ (storeBit_getD_lt _ _ _)⟩] at h
        exact absurd h (by simp)
      · rw [if_neg (fun hc => h7 (by omega)), if_pos (by omega)] at h
        exact ih (p + 1) _ _ _ _ r (by omega) h

theorem next_wire_fault (mem : Nat → Option Nat) (hmem : ∀ a, a < 256 → mem a = none)
    (g : SearchState) (w : Wire) (g1 : SearchState) (w1 : Wire) :
    next (withLoad wire mem) g w ≠ some (TRUE, g1, w1) := by
  intro h
  unfold next at h
  split at h
  · exact absurd h (by simp)
  · rename_i flag s0 hreset
    dsimp only at h
    split at h
    · simp only [Option.some.injEq, Prod.mk.injEq] at h
      exact absurd h.1 (by decide)
    · split at h
      · exact absurd h (by simp)
      · rename_i m discrepMarker ROM s3 hloop
        have hm := search_loop_wire_fault mem hmem g.lastDiscrep 64 0 0 g.ROM _ _ _ (by omega)
          hloop
        have hm' : m ≤ 8 := hm
        rw [if_pos (by simp; omega)] at h
        simp only [Option.some.injEq, Prod.mk.injEq] at h
        exact absurd h.1 (by decide)

/-! ## The outcome of a search step -/

/-- C14 fails on the code.  On the scripted line, for every search state and
every script: where the addresses 0..255 cannot be read, `next()` never
returns TRUE, because a pass that gets through the eight bits of byte 0 makes
the call of line 249 and faults; on the script `discrepLine` the reset
succeeds, `doneFlag` is 0 and no position reads 1 and 1, and `next()` returns
nothing.  Where the addresses can be read, `next()` returns, and it returns
TRUE exactly when its reset succeeded, `doneFlag` was 0 on entry and at none
of the 64 positions both the bit read and the complement read were 1.  On
every machine a TRUE result needs these three conditions, and whenever
`next()` returns FALSE, `lastDiscrep` is 0 and `doneFlag` is as before.  The
CRC plays no part in the outcome: a device whose byte 7 is not the CRC-8 of
bytes 0..6 is returned by `first()` like any other. -/
theorem C14_next_stops_at_crc_call (g : SearchState) (line : List Bool) (log : List Event)
    (mem : Nat → Option Nat) :
    ((∀ a, a < 256 → mem a = none) →
      ∀ g1 w1, next (withLoad wire mem) g ⟨line, log⟩ ≠ some (TRUE, g1, w1)) ∧
    (∀ g1 w1, next wire g ⟨line, log⟩ ≠ some (TRUE, g1, w1)) ∧
    (next wire ⟨[1, 0, 0, 0, 0, 0, 0, 0], 2, 0, 0⟩ ⟨discrepLine, []⟩ = none ∧
      (onewire_reset wire ⟨discrepLine, []⟩).map Prod.fst = some 0 ∧
      ∀ p, p < 64 →
        ¬ ((searchReads discrepLine p).1 = true ∧ (searchReads discrepLine p).2 = true)) ∧
    ((∀ a, a < 256 → mem a ≠ none) →
      ∃ r g1 w1, next (withLoad wire mem) g ⟨line, log⟩ = some (r, g1, w1) ∧
        (r = TRUE ∨ r = FALSE) ∧
        (r = TRUE ↔ (onewire_reset wire ⟨line, log⟩).map Prod.fst = some 0 ∧ g.doneFlag = 0 ∧
          ∀ p, p < 64 → ¬ ((searchReads line p).1 = true ∧ (searchReads line p).2 = true)) ∧
        (r = FALSE → g1.lastDiscrep = 0 ∧ g1.doneFlag = g.doneFlag)) ∧
    (∀ g1 w1, next (withLoad wire mem) g ⟨line, log⟩ = some (TRUE, g1, w1) →
      (onewire_reset wire ⟨line, log⟩).map Prod.fst = some 0 ∧ g.doneFlag = 0 ∧
        ∀ p, p < 64 → ¬ ((searchReads line p).1 = true ∧ (searchReads line p).2 = true)) ∧
    (∀ (τ : Type) (B : Bus τ) (s : τ) (r : Nat) (g1 : SearchState) (s1 : τ),
      next B g s = some (r, g1, s1) →
        (r = TRUE ∨ r = FALSE) ∧
        (r = FALSE → g1.lastDiscrep = 0 ∧ g1.doneFlag = g.doneFlag) ∧
        (r = TRUE → g.doneFlag = 0 ∧ ∃ s0, onewire_reset B s = some (0, s0))) ∧
    onewire_crc8 (badCrcRom.take 7) ≠ badCrcRom.getD 7 0 ∧
    (first (readable simBus) demoState (demoSim [romValue badCrcRom])).map
        (fun r => (r.1, r.2.1.ROM)) = some (TRUE, badCrcRom) := by
  have hspec : ∃ r g1 w1, next (readable wire) g ⟨line, log⟩ = some (r, g1, w1) ∧
      (r = TRUE ∨ r = FALSE) ∧
      (r = TRUE ↔ (onewire_reset wire ⟨line, log⟩).map Prod.fst = some 0 ∧ g.doneFlag = 0 ∧
        ∀ p, p < 64 → ¬ ((searchReads line p).1 = true ∧ (searchReads line p).2 = true)) ∧
      (r = FALSE → g1.lastDiscrep = 0 ∧ g1.doneFlag = g.doneFlag) := by
    obtain ⟨r, g1, w1, he, hiff⟩ := next_wire_spec g line log
    obtain ⟨h1, h2, hreset, -⟩ := onewire_reset_wire line
    obtain ⟨ha, hb, -⟩ := next_any_bus (readable wire) g ⟨line, log⟩ r g1 w1 he
    refine ⟨r, g1, w1, he, ha, ?_, hb⟩
    rw [hiff, hreset log]
    have : (Option.map Prod.fst (some ((if resetSamples line = 50 then -ECANCELED else 0 : Int),
        (⟨line.drop (resetSamples line), log ++ resetEvents line⟩ : Wire))) = some 0)
        ↔ resetSamples line < 50 := by
      by_cases h50 : resetSamples line = 50
      · simp [h50, ECANCELED]
      · simp [h50]; omega
    rw [this]
  refine ⟨fun hmem g1 w1 => next_wire_fault mem hmem g ⟨line, log⟩ g1 w1, ?_,
    ⟨by decide!, by decide!, by decide⟩, ?_, ?_,
    fun τ B s r g1 s1 h => next_any_bus B g s r g1 s1 h, by decide!, by decide!⟩
  · intro g1 w1
    rw [wire_eq]
    exact next_wire_fault _ (fun _ _ => rfl) g ⟨line, log⟩ g1 w1
  · intro hmem
    rw [next_total wire mem hmem]
    exact hspec
  · intro g1 w1 h
    have h1 := next_mono wire mem g ⟨line, log⟩ _ h
    obtain ⟨r, g2, w2, he, -, hiff, -⟩ := hspec
    rw [h1] at he
    simp only [Option.some.injEq, Prod.mk.injEq] at he
    exact hiff.1 he.1.symm

/-! ## The choice on disagreement -/

theorem disagree_step (mem : Nat → Option Nat) (L fuel p marker : Nat) (ROM : List Nat)
    (rest : List Bool) (log : List Event) (hp : p < 64) (hlen : ROM.length = 8) :
    search_bit (withLoad wire mem) L (p + 1) (p / 8) (2 ^ (p % 8)) marker ROM
        ⟨false :: false :: rest, log⟩
      = (some (level (disagreeBit L ROM p), (if disagreeBit L ROM p then marker else p + 1),
          storeBit ROM p (disagreeBit L ROM p)),
        ⟨rest, log ++ [Event.read false, Event.read false,
          writeEvent (disagreeBit L ROM p)]⟩) ∧
    search_loop (withLoad wire mem) L (fuel + 1) (p + 1) (p / 8) (2 ^ (p % 8)) marker ROM
        ⟨false :: false :: rest, log⟩
      = (if p % 8 = 7 ∧
            mem ((storeBit ROM p (disagreeBit L ROM p)).getD (p / 8) 0) = none then none
        else if p + 1 < 64 then
          search_loop (withLoad wire mem) L fuel (p + 2) ((p + 1) / 8) (2 ^ ((p + 1) % 8))
            (if disagreeBit L ROM p then marker else p + 1)
            (storeBit ROM p (disagreeBit L ROM p))
            ⟨rest, log ++ [Event.read false, Event.read false,
              writeEvent (disagreeBit L ROM p)]⟩
        else
          some (p + 2, (if disagreeBit L ROM p then marker else p + 1),
            storeBit ROM p (disagreeBit L ROM p),
            ⟨rest, log ++ [Event.read false, Event.read false,
              writeEvent (disagreeBit L ROM p)]⟩)) ∧
    romBit (storeBit ROM p (disagreeBit L ROM p)) p = disagreeBit L ROM p ∧
    (L < p + 1 → disagreeBit L ROM p = false) ∧
    (p + 1 = L → disagreeBit L ROM p = true) ∧
    (p + 1 < L → disagreeBit L ROM p = romBit ROM p) := by
  refine ⟨?_, ?_, ?_, ?_, ?_, ?_⟩
  · have hr1 : (withLoad wire mem).read_slot ⟨false :: false :: rest, log⟩
        = (false, ⟨false :: rest, log ++ [Event.read false]⟩) := rfl
    have hr2 : (withLoad wire mem).read_slot ⟨false :: rest, log ++ [Event.read false]⟩
        = (false, ⟨rest, log ++ [Event.read false] ++ [Event.read false]⟩) := rfl
    rw [search_bit_raw (withLoad wire mem) L p marker ROM _ _ _ _ _ hr1 hr2
      (disagreeBit L ROM p) rfl]
    simp only [write_bit_withLoad, wire_write_bit, List.append_assoc, List.singleton_append]
    cases disagreeBit L ROM p <;> simp
  · rw [search_loop_wire_mem mem L fuel p marker ROM _ log hp]
    have hpick : pickRead L ROM p false false = disagreeBit L ROM p := rfl
    simp only [List.headD_cons, List.tail_cons, hpick, Bool.and_self, Bool.false_eq_true,
      if_false, Bool.not_false, Bool.true_and]
    cases disagreeBit L ROM p <;> simp
  · rw [romBit_storeBit ROM p p _ hlen hp, if_pos rfl]
  · intro h
    unfold disagreeBit
    rw [if_neg (by omega)]
    simp; omega
  · intro h
    unfold disagreeBit
    rw [if_neg (by omega)]
    simp [h]
  · intro h
    unfold disagreeBit
    rw [if_pos h]

/-- C16 fails as stated for positions below `lastDiscrep`.  With
`lastDiscrep = 2` and a ROM buffer holding 1 at position 1, an iteration whose
reads are both 0 at position 1 chooses `g = 1`, writes a 1, keeps the 1 in the
buffer and leaves `discrepMarker = 0`, where the claim has `g = 0` and the
marker 1; on a script that ends the pass at position 2 the loop returns with
`discrepMarker = 0`, and on a full pass with readable memory `lastDiscrep` is
0 afterwards; and on the simulated bus with the devices 0, 1 and 3 and
readable memory the third call returns 3, taking 1 at position 1 where the
devices 0 and 1 disagree. -/
theorem C16_bit_choice_counterexample :
    search_bit wire 2 1 0 1 0 [1, 0, 0, 0, 0, 0, 0, 0] ⟨[false, false], []⟩
      = (some (1, 0, [1, 0, 0, 0, 0, 0, 0, 0]),
          ⟨[], [Event.read false, Event.read false, Event.write_one]⟩) ∧
    search_loop wire 2 64 1 0 1 0 [1, 0, 0, 0, 0, 0, 0, 0] ⟨[false, false, true, true], []⟩
      = some (2, 0, [1, 0, 0, 0, 0, 0, 0, 0],
          ⟨[], [Event.read false, Event.read false, Event.write_one, Event.read true,
            Event.read true]⟩) ∧
    (next (readable wire) ⟨[1, 0, 0, 0, 0, 0, 0, 0], 2, 0, 0⟩ ⟨discrepLine, []⟩).map
        (fun r => (r.1, r.2.1.ROM, r.2.1.lastDiscrep, (r.2.2.log.drop 11).take 3))
      = some (TRUE, [1, 0, 0, 0, 0, 0, 0, 0], 0,
          [Event.read false, Event.read false, Event.write_one]) ∧
    enumCodes demoState (demoSim [0, 1, 3]) 3 = [0, 1, 3] ∧
    (enumCall (readable simBus) demoState (demoSim [0, 1, 3]) 1).map
        (fun r => r.2.1.lastDiscrep) = some 2 := by
  refine ⟨by decide!, by decide!, by decide!, by decide!, by decide!⟩

/-- C16 as amended: in `next()`, at every bit position `m = p + 1` (1..64)
where both the bit read and the complement read return 0, the bit recorded in
the ROM buffer and written back to the bus is 0 when `m` is above the stored
`lastDiscrep`, 1 when `m` equals `lastDiscrep`, and for `m` below
`lastDiscrep` it is the bit the ROM buffer already holds at `m`; `m` is
recorded as the new discrepancy marker exactly when the bit is 0.  This is
what the iteration does up to its write slot, whatever the memory behind
small addresses is; after the last bit of a byte the loop goes on to the next
position only if the call of line 249 does not fault. -/
theorem C16_bit_choice (mem : Nat → Option Nat) (L fuel p marker : Nat) (ROM : List Nat)
    (rest : List Bool) (log : List Event) (hp : p < 64) (hlen : ROM.length = 8) :
    search_bit (withLoad wire mem) L (p + 1) (p / 8) (2 ^ (p % 8)) marker ROM
        ⟨false :: false :: rest, log⟩
      = (some (level (disagreeBit L ROM p), (if disagreeBit L ROM p then marker else p + 1),
          storeBit ROM p (disagreeBit L ROM p)),
        ⟨rest, log ++ [Event.read false, Event.read false,
          writeEvent (disagreeBit L ROM p)]⟩) ∧
    search_loop (withLoad wire mem) L (fuel + 1) (p + 1) (p / 8) (2 ^ (p % 8)) marker ROM
        ⟨false :: false :: rest, log⟩
      = (if p % 8 = 7 ∧
            mem ((storeBit ROM p (disagreeBit L ROM p)).getD (p / 8) 0) = none then none
        else if p + 1 < 64 then
          search_loop (withLoad wire mem) L fuel (p + 2) ((p + 1) / 8) (2 ^ ((p + 1) % 8))
            (if disagreeBit L ROM p then marker else p + 1)
            (storeBit ROM p (disagreeBit L ROM p))
            ⟨rest, log ++ [Event.read false, Event.read false,
              writeEvent (disagreeBit L ROM p)]⟩
        else
          some (p + 2, (if disagreeBit L ROM p then marker else p + 1),
            storeBit ROM p (disagreeBit L ROM p),
            ⟨rest, log ++ [Event.read false, Event.read false,
              writeEvent (disagreeBit L ROM p)]⟩)) ∧
    romBit (storeBit ROM p (disagreeBit L ROM p)) p = disagreeBit L ROM p ∧
    (L < p + 1 → disagreeBit L ROM p = false) ∧
    (p + 1 = L → disagreeBit L ROM p = true) ∧
    (p + 1 < L → disagreeBit L ROM p = romBit ROM p) :=
  disagree_step mem L fuel p marker ROM rest log hp hlen

/-- C16 as amended, at position 1 with `lastDiscrep = 2` and a buffer holding
1 there: the bit chosen is the 1 of the buffer. -/
theorem C16_bit_choice_witness :
    disagreeBit 2 [1, 0, 0, 0, 0, 0, 0, 0] 0 = romBit [1, 0, 0, 0, 0, 0, 0, 0] 0 ∧
      romBit [1, 0, 0, 0, 0, 0, 0, 0] 0 = true :=
  ⟨(C16_bit_choice (fun _ => none) 2 63 0 0 [1, 0, 0, 0, 0, 0, 0, 0] [] [] (by decide)
      rfl).2.2.2.2.2 (by decide), by decide⟩

/-! ## The search state after a successful call -/

theorem next_true_inv (D : List Nat) (hlt : ∀ d, d ∈ D → d < 2 ^ 64) (g : SearchState)
    (hlen : g.ROM.length = 8) (s : Sim) (hs : s.devices = D) (r : Nat) (g1 : SearchState)
    (s1 : Sim) (h : next (readable simBus) g s = some (r, g1, s1)) (hr : r = TRUE) :
    g1.lastDiscrep ≤ 64 ∧
    (g1.lastDiscrep = 0 ↔ ∀ q, q < 64 → ¬ Branch D (romValue g1.ROM).testBit q) ∧
    (g1.lastDiscrep ≠ 0 →
      Branch D (romValue g1.ROM).testBit (g1.lastDiscrep - 1) ∧
      (∀ q, q < 64 → Branch D (romValue g1.ROM).testBit q → q + 1 ≤ g1.lastDiscrep) ∧
      romBit g1.ROM (g1.lastDiscrep - 1) = false) ∧
    (g1.doneFlag ≠ 0 ↔ g1.lastDiscrep = 0) ∧
    romValue g1.ROM ∈ D ∧
    (∀ q, romBit g1.ROM q = (romValue g1.ROM).testBit q) := by
  subst hr
  by_cases hne : D = []
  · subst hne
    rw [readable_eq, next_sim_empty _ g s hs] at h
    simp only [Option.some.injEq, Prod.mk.injEq] at h
    exact absurd h.1 (by decide)
  · by_cases hdone : g.doneFlag = 0
    · obtain ⟨marker1, ROM1, s2, he, hinv⟩ := next_sim_pass D hne g s hs hlen hdone
      rw [he] at h
      simp only [Option.some.injEq, Prod.mk.injEq, true_and] at h
      obtain ⟨hg, -⟩ := h
      subst hg
      obtain ⟨hc, hbits, -, -, hm1, hm2⟩ := pass_result D hlt _ _ marker1 ROM1 s2 hinv
      refine ⟨?_, ?_, ?_, ?_, hc, hbits⟩
      · show marker1 ≤ 64
        rcases hm1 with h0 | ⟨hle, -⟩
        · omega
        · exact hle
      · show marker1 = 0 ↔ _
        constructor
        · intro h0 q hq hb
          have := hm2 q hq hb
          omega
        · intro hall
          rcases hm1 with h0 | ⟨hle, hb⟩
          · exact h0
          · by_contra hz
            exact hall (marker1 - 1) (by omega) hb
      · show marker1 ≠ 0 → _
        intro hz
        rcases hm1 with h0 | ⟨hle, hb⟩
        · exact absurd h0 hz
        · refine ⟨hb, fun q hq hbq => hm2 q hq hbq, ?_⟩
          show romBit ROM1 (marker1 - 1) = false
          rw [hbits]
          exact hb.1
      · show (if (marker1 == 0) = true then 1 else 0) ≠ 0 ↔ marker1 = 0
        by_cases hz : marker1 = 0
        · simp [hz]
        · simp [hz]
    · rw [readable_eq, next_sim_done _ D hne g s hs hdone] at h
      simp only [Option.some.injEq, Prod.mk.injEq] at h
      exact absurd h.1 (by decide)

/-- C17: after every call of `first()` or `next()` that returns TRUE on the
simulated bus, whatever the memory behind small addresses is, `lastDiscrep`
is in 0..64; it is 0 exactly when at no position of the pass the devices
still selected (those that agree with the ROM buffer below the position)
disagreed with 0 chosen, and otherwise it is the highest such position and
the ROM buffer has 0 there; `doneFlag` is set if and only if `lastDiscrep` is
0; and the ROM buffer holds the code of an attached device. -/
theorem C17_search_state (D : List Nat) (hlt : ∀ d, d ∈ D → d < 2 ^ 64) (g : SearchState)
    (hlen : g.ROM.length = 8) (s : Sim) (hs : s.devices = D) (mem : Nat → Option Nat) (r : Nat)
    (g1 : SearchState) (s1 : Sim)
    (h : next (withLoad simBus mem) g s = some (r, g1, s1) ∨
      first (withLoad simBus mem) g s = some (r, g1, s1))
    (hr : r = TRUE) :
    g1.lastDiscrep ≤ 64 ∧
    (g1.lastDiscrep = 0 ↔ ∀ q, q < 64 → ¬ Branch D (romValue g1.ROM).testBit q) ∧
    (g1.lastDiscrep ≠ 0 →
      Branch D (romValue g1.ROM).testBit (g1.lastDiscrep - 1) ∧
      (∀ q, q < 64 → Branch D (romValue g1.ROM).testBit q → q + 1 ≤ g1.lastDiscrep) ∧
      romBit g1.ROM (g1.lastDiscrep - 1) = false) ∧
    (g1.doneFlag ≠ 0 ↔ g1.lastDiscrep = 0) ∧
    romValue g1.ROM ∈ D ∧
    (∀ q, romBit g1.ROM q = (romValue g1.ROM).testBit q) := by
  rcases h with h | h
  · exact next_true_inv D hlt g hlen s hs r g1 s1 (next_mono simBus mem g s _ h) hr
  · exact next_true_inv D hlt { g with lastDiscrep := 0, doneFlag := FALSE } hlen s hs r g1 s1
      (next_mono simBus mem _ s _ h) hr

/-- C17 for `first()` with the devices 1 and 2 attached and readable memory:
the call returns the code 2 with `lastDiscrep = 1`. -/
theorem C17_search_state_witness :
    (⟨[2, 0, 0, 0, 0, 0, 0, 0], 1, 0, 0⟩ : SearchState).lastDiscrep ≤ 64 ∧
      romValue (⟨[2, 0, 0, 0, 0, 0, 0, 0], 1, 0, 0⟩ : SearchState).ROM ∈ [1, 2] :=
  ⟨(C17_search_state [1, 2] (by decide) demoState rfl (demoSim [1, 2]) rfl (fun _ => some 0) TRUE
      ⟨[2, 0, 0, 0, 0, 0, 0, 0], 1, 0, 0⟩ ⟨[1, 2], [2], Stage.idle, 2⟩
      (Or.inr (by decide!)) rfl).1,
   (C17_search_state [1, 2] (by decide) demoState rfl (demoSim [1, 2]) rfl (fun _ => some 0) TRUE
      ⟨[2, 0, 0, 0, 0, 0, 0, 0], 1, 0, 0⟩ ⟨[1, 2], [2], Stage.idle, 2⟩
      (Or.inr (by decide!)) rfl).2.2.2.2.1⟩

/-! ## Exactness of positive readings -/

set_option maxRecDepth 1000000 in
theorem positive_table : ∀ msb : Nat, msb < 8 → ∀ lsb : Nat, lsb < 256 →
    (decode_temp lsb msb).1 * 10000 + (decode_temp lsb msb).2 = 625 * ((256 * msb + lsb : Nat) : Int) ∧
    format_temp (decode_temp lsb msb).1 (decode_temp lsb msb).2
      = Nat.repr (decode_temp lsb msb).1.toNat ++ ","
          ++ ((if (decode_temp lsb msb).2 < 1000 then "0" else "")
                ++ Nat.repr (decode_temp lsb msb).2.toNat)
          ++ "°C" ∧
    (∀ c, c ∈ (Nat.repr (decode_temp lsb msb).1.toNat).data → c.isDigit = true) ∧
    (∀ c, c ∈ ((if (decode_temp lsb msb).2 < 1000 then "0" else "")
        ++ Nat.repr (decode_temp lsb msb).2.toNat).data → c.isDigit = true) ∧
    ((if (decode_temp lsb msb).2 < 1000 then "0" else "")
        ++ Nat.repr (decode_temp lsb msb).2.toNat).length
      = (if lsb &&& 0x0F = 0 then 2 else 4) ∧
    (lsb &&& 0x0F = 0 →
      (if (decode_temp lsb msb).2 < 1000 then "0" else "")
        ++ Nat.repr (decode_temp lsb msb).2.toNat = "00") ∧
    16 * (decimalValue (Nat.repr (decode_temp lsb msb).1.toNat).data
            * 10 ^ (if lsb &&& 0x0F = 0 then 2 else 4)
          + decimalValue ((if (decode_temp lsb msb).2 < 1000 then "0" else "")
              ++ Nat.repr (decode_temp lsb msb).2.toNat).data)
      = (256 * msb + lsb) * 10 ^ (if lsb &&& 0x0F = 0 then 2 else 4) := by
  decide!

/-- C18: for a sign-clear raw pair with `msb ≤ 0x07` and `raw = 256*msb + lsb`,
the decoded parts satisfy `integer_part * 10000 + fractional_part = 625 * raw`;
the text written is the digits of the integer part, ',', the digits of the
fraction and "°C"; the fraction digits are "00" when the low nibble of `lsb`
is 0 and exactly four digits otherwise; and the text read as a decimal number
with ',' as the separator is `raw/16` exactly, that is, 16 times the number
with its comma removed equals `raw` times the power of ten of the fraction
length. -/
theorem C18_positive_exact (lsb msb : Nat) (hl : lsb < 256) (hm : msb ≤ 0x07) :
    (decode_temp lsb msb).1 * 10000 + (decode_temp lsb msb).2 = 625 * ((256 * msb + lsb : Nat) : Int) ∧
    format_temp (decode_temp lsb msb).1 (decode_temp lsb msb).2
      = Nat.repr (decode_temp lsb msb).1.toNat ++ ","
          ++ ((if (decode_temp lsb msb).2 < 1000 then "0" else "")
                ++ Nat.repr (decode_temp lsb msb).2.toNat)
          ++ "°C" ∧
    (∀ c, c ∈ (Nat.repr (decode_temp lsb msb).1.toNat).data → c.isDigit = true) ∧
    (∀ c, c ∈ ((if (decode_temp lsb msb).2 < 1000 then "0" else "")
        ++ Nat.repr (decode_temp lsb msb).2.toNat).data → c.isDigit = true) ∧
    ((if (decode_temp lsb msb).2 < 1000 then "0" else "")
        ++ Nat.repr (decode_temp lsb msb).2.toNat).length
      = (if lsb &&& 0x0F = 0 then 2 else 4) ∧
    (lsb &&& 0x0F = 0 →
      (if (decode_temp lsb msb).2 < 1000 then "0" else "")
        ++ Nat.repr (decode_temp lsb msb).2.toNat = "00") ∧
    16 * (decimalValue (Nat.repr (decode_temp lsb msb).1.toNat).data
            * 10 ^ (if lsb &&& 0x0F = 0 then 2 else 4)
          + decimalValue ((if (decode_temp lsb msb).2 < 1000 then "0" else "")
              ++ Nat.repr (decode_temp lsb msb).2.toNat).data)
      = (256 * msb + lsb) * 10 ^ (if lsb &&& 0x0F = 0 then 2 else 4) :=
  positive_table msb (by omega) lsb hl

/-- C18 at the raw pair (0x91, 0x01), 25.0625 degrees: the parts are 25 and
625 and the text is "25,0625°C". -/
theorem C18_positive_exact_witness :
    (0x91 < 256 ∧ 0x01 ≤ 0x07) ∧
    (decode_temp 0x91 0x01).1 * 10000 + (decode_temp 0x91 0x01).2
      = 625 * ((256 * 0x01 + 0x91 : Nat) : Int) ∧
    format_temp (decode_temp 0x91 0x01).1 (decode_temp 0x91 0x01).2 = "25,0625°C" :=
  ⟨by decide, (C18_positive_exact 0x91 0x01 (by decide) (by decide)).1, by decide⟩

/-! ## Negative readings against two's complement -/

set_option maxRecDepth 1000000 in
theorem negative_table : ∀ m : Nat, m < 8 → ∀ lsb : Nat, lsb < 256 →
    (decode_temp lsb (0xF8 + m)).1
      = (((256 * (0xF8 + m) + lsb : Nat) : Int) - 65536) / 16 + 1 ∧
    (decode_temp lsb (0xF8 + m)).1
      = Int.fdiv (((256 * (0xF8 + m) + lsb : Nat) : Int) - 65536) 16 + 1 ∧
    16 * ((decode_temp lsb (0xF8 + m)).1 - 1) ≤ ((256 * (0xF8 + m) + lsb : Nat) : Int) - 65536 ∧
    ((256 * (0xF8 + m) + lsb : Nat) : Int) - 65536 < 16 * (decode_temp lsb (0xF8 + m)).1 ∧
    (lsb &&& 0x0F ≠ 0 →
      (decode_temp lsb (0xF8 + m)).1
        = Int.tdiv (((256 * (0xF8 + m) + lsb : Nat) : Int) - 65536) 16) ∧
    (lsb &&& 0x0F = 0 →
      16 * ((decode_temp lsb (0xF8 + m)).1 - 1) = ((256 * (0xF8 + m) + lsb : Nat) : Int) - 65536) := by
  decide!

/-- C19: for a raw pair with `0xF8 ≤ msb` (a byte) and the two's-complement
reading `r = 256*msb + lsb - 65536`, the decoded integer part is
`floor(r/16) + 1`; it is `r/16` truncated toward zero when the low nibble of
`lsb` is nonzero, and one more than the exact `r/16` when the low nibble is 0.
Raw 0xFF5E decodes to integer part -10; raw 0xFFF0 decodes to integer part 0
and renders as "0,00°C". -/
theorem C19_negative_decode (lsb msb : Nat) (hl : lsb < 256) (hm : 0xF8 ≤ msb)
    (hb : msb < 256) :
    (decode_temp lsb msb).1 = (((256 * msb + lsb : Nat) : Int) - 65536) / 16 + 1 ∧
    (decode_temp lsb msb).1 = Int.fdiv (((256 * msb + lsb : Nat) : Int) - 65536) 16 + 1 ∧
    16 * ((decode_temp lsb msb).1 - 1) ≤ ((256 * msb + lsb : Nat) : Int) - 65536 ∧
    ((256 * msb + lsb : Nat) : Int) - 65536 < 16 * (decode_temp lsb msb).1 ∧
    (lsb &&& 0x0F ≠ 0 →
      (decode_temp lsb msb).1 = Int.tdiv (((256 * msb + lsb : Nat) : Int) - 65536) 16) ∧
    (lsb &&& 0x0F = 0 →
      16 * ((decode_temp lsb msb).1 - 1) = ((256 * msb + lsb : Nat) : Int) - 65536) ∧
    (decode_temp 0x5E 0xFF).1 = -10 ∧
    (decode_temp 0xF0 0xFF).1 = 0 ∧
    format_temp (decode_temp 0xF0 0xFF).1 (decode_temp 0xF0 0xFF).2 = "0,00°C" := by
  have e : msb = 0xF8 + (msb - 0xF8) := by omega
  have h := negative_table (msb - 0xF8) (by omega) lsb hl
  rw [← e] at h
  obtain ⟨h1, h2, h3, h4, h5, h6⟩ := h
  exact ⟨h1, h2, h3, h4, h5, h6, by decide, by decide, by decide⟩

/-- C19 at raw 0xFF5E, -10.125 degrees: the integer part is -10, which is
floor(-162/16) + 1. -/
theorem C19_negative_decode_witness :
    (0x5E < 256 ∧ 0xF8 ≤ 0xFF ∧ 0xFF < 256) ∧
    (decode_temp 0x5E 0xFF).1 = (((256 * 0xFF + 0x5E : Nat) : Int) - 65536) / 16 + 1 ∧
    (decode_temp 0x5E 0xFF).1 = -10 :=
  ⟨by decide, (C19_negative_decode 0x5E 0xFF (by decide) (by decide) (by decide)).1,
    by decide⟩

/-! ## The residue of the CRC -/

theorem dallas_bit_low : ∀ r : Nat, r < 256 → ∀ bit : Bool,
    dallas_bit r bit < 256 ∧
      (dallas_bit r bit < 128 → bit = r.testBit 0 ∧ dallas_bit r bit = r >>> 1) := by
  decide!

theorem dallas_byte_self : ∀ r : Nat, r < 256 → dallas_byte r r = 0 := by
  decide!

theorem dallas_byte_zero (r : Nat) (hr : r < 256) (b : Nat) (hb : b < 256) :
    dallas_byte r b = 0 ↔ b = r := by
  constructor
  · intro h
    have e : dallas_byte r b =
        dallas_bit (dallas_bit (dallas_bit (dallas_bit (dallas_bit (dallas_bit (dallas_bit
          (dallas_bit r (b.testBit 0)) (b.testBit 1)) (b.testBit 2)) (b.testBit 3))
          (b.testBit 4)) (b.testBit 5)) (b.testBit 6)) (b.testBit 7) := rfl
    rw [e] at h
    generalize h1 : dallas_bit r (b.testBit 0) = r1 at h
    generalize h2 : dallas_bit r1 (b.testBit 1) = r2 at h
    generalize h3 : dallas_bit r2 (b.testBit 2) = r3 at h
    generalize h4 : dallas_bit r3 (b.testBit 3) = r4 at h
    generalize h5 : dallas_bit r4 (b.testBit 4) = r5 at h
    generalize h6 : dallas_bit r5 (b.testBit 5) = r6 at h
    generalize h7 : dallas_bit r6 (b.testBit 6) = r7 at h
    have l1 : r1 < 256 := h1 ▸ (dallas_bit_low r hr _).1
    have l2 : r2 < 256 := h2 ▸ (dallas_bit_low r1 l1 _).1
    have l3 : r3 < 256 := h3 ▸ (dallas_bit_low r2 l2 _).1
    have l4 : r4 < 256 := h4 ▸ (dallas_bit_low r3 l3 _).1
    have l5 : r5 < 256 := h5 ▸ (dallas_bit_low r4 l4 _).1
    have l6 : r6 < 256 := h6 ▸ (dallas_bit_low r5 l5 _).1
    have l7 : r7 < 256 := h7 ▸ (dallas_bit_low r6 l6 _).1
    obtain ⟨b7, e7⟩ := (dallas_bit_low r7 l7 (b.testBit 7)).2 (by omega)
    rw [h, Nat.shiftRight_eq_div_pow] at e7
    obtain ⟨b6, e6⟩ := (dallas_bit_low r6 l6 (b.testBit 6)).2 (by omega)
    rw [h7, Nat.shiftRight_eq_div_pow] at e6
    obtain ⟨b5, e5⟩ := (dallas_bit_low r5 l5 (b.testBit 5)).2 (by omega)
    rw [h6, Nat.shiftRight_eq_div_pow] at e5
    obtain ⟨b4, e4⟩ := (dallas_bit_low r4 l4 (b.testBit 4)).2 (by omega)
    rw [h5, Nat.shiftRight_eq_div_pow] at e4
    obtain ⟨b3, e3⟩ := (dallas_bit_low r3 l3 (b.testBit 3)).2 (by omega)
    rw [h4, Nat.shiftRight_eq_div_pow] at e3
    obtain ⟨b2, e2⟩ := (dallas_bit_low r2 l2 (b.testBit 2)).2 (by omega)
    rw [h3, Nat.shiftRight_eq_div_pow] at e2
    obtain ⟨b1, e1⟩ := (dallas_bit_low r1 l1 (b.testBit 1)).2 (by omega)
    rw [h2, Nat.shiftRight_eq_div_pow] at e1
    obtain ⟨b0, e0⟩ := (dallas_bit_low r hr (b.testBit 0)).2 (by omega)
    rw [h1, Nat.shiftRight_eq_div_pow] at e0
    apply Nat.eq_of_testBit_eq
    intro i
    by_cases hi : i < 8
    · have t : ∀ (x : Nat) (k : Nat), (x / 2 ^ k).testBit 0 = x.testBit k := by
        intro x k
        rw [← Nat.shiftRight_eq_div_pow, Nat.testBit_shiftRight, Nat.add_zero]
      have q1 : r1 = r / 2 ^ 1 := e0
      have q2 : r2 = r / 2 ^ 2 := by omega
      have q3 : r3 = r / 2 ^ 3 := by omega
      have q4 : r4 = r / 2 ^ 4 := by omega
      have q5 : r5 = r / 2 ^ 5 := by omega
      have q6 : r6 = r / 2 ^ 6 := by omega
      have q7 : r7 = r / 2 ^ 7 := by omega
      rw [q1] at b1
      rw [q2] at b2
      rw [q3] at b3
      rw [q4] at b4
      rw [q5] at b5
      rw [q6] at b6
      rw [q7] at b7
      rw [t] at b1 b2 b3 b4 b5 b6 b7
      have c : i = 0 ∨ i = 1 ∨ i = 2 ∨ i = 3 ∨ i = 4 ∨ i = 5 ∨ i = 6 ∨ i = 7 := by omega
      rcases c with c | c | c | c | c | c | c | c <;> subst c <;> assumption
    · have hb2 : b < 2 ^ i := lt_of_lt_of_le hb (by
        calc 256 = 2 ^ 8 := rfl
          _ ≤ 2 ^ i := Nat.pow_le_pow_right (by decide) (by omega))
      have hr2 : r < 2 ^ i := lt_of_lt_of_le hr (by
        calc 256 = 2 ^ 8 := rfl
          _ ≤ 2 ^ i := Nat.pow_le_pow_right (by decide) (by omega))
      rw [Nat.testBit_lt_two_pow hb2, Nat.testBit_lt_two_pow hr2]
  · intro h
    subst h
    exact dallas_byte_self b hb

theorem dallas_fold_lt (data : List Nat) : ∀ sr, sr < 256 → data.foldl dallas_byte sr < 256 := by
  induction data with
  | nil => intro sr h; exact h
  | cons b rest ih =>
    intro sr h
    exact ih _ (crc8_byte_eq b sr h).2

theorem crc8_append (d : List Nat) (b : Nat) :
    onewire_crc8 (d ++ [b]) = dallas_byte (onewire_crc8 d) b ∧ onewire_crc8 d < 256 := by
  have h1 : onewire_crc8 (d ++ [b]) = (d ++ [b]).foldl dallas_byte 0 :=
    crc8_fold (d ++ [b]) 0 (by decide)
  have h2 : onewire_crc8 d = d.foldl dallas_byte 0 := crc8_fold d 0 (by decide)
  have h3 := dallas_fold_lt d 0 (by decide)
  rw [h1, h2]
  exact ⟨by simp [List.foldl_append], h3⟩

theorem single_crc8_eq (data : List Nat) :
    single_sensor.onewire_crc8 data = onewire_crc8 data := by
  simp only [single_sensor.onewire_crc8, onewire_crc8, single_crc8_byte]

/-- C20: for every byte sequence `d`, `onewire_crc8` of `d` followed by the
byte `onewire_crc8 d` is 0, in both source files; so for a byte `b`,
`b = onewire_crc8 d` if and only if `onewire_crc8` of `d` followed by `b` is
0; and 02 1C B8 01 00 00 00 A2 gives 0. -/
theorem C20_crc_residue (d : List Nat) (b : Nat) (hb : b < 256) :
    onewire_crc8 (d ++ [onewire_crc8 d]) = 0 ∧
    single_sensor.onewire_crc8 (d ++ [single_sensor.onewire_crc8 d]) = 0 ∧
    (b = onewire_crc8 d ↔ onewire_crc8 (d ++ [b]) = 0) ∧
    (b = single_sensor.onewire_crc8 d ↔ single_sensor.onewire_crc8 (d ++ [b]) = 0) ∧
    onewire_crc8 [0x02, 0x1C, 0xB8, 0x01, 0x00, 0x00, 0x00, 0xA2] = 0 ∧
    single_sensor.onewire_crc8 [0x02, 0x1C, 0xB8, 0x01, 0x00, 0x00, 0x00, 0xA2] = 0 := by
  have hlt := (crc8_append d b).2
  have h0 : onewire_crc8 (d ++ [onewire_crc8 d]) = 0 := by
    rw [(crc8_append d (onewire_crc8 d)).1]
    exact (dallas_byte_zero _ hlt _ hlt).2 rfl
  have hiff : b = onewire_crc8 d ↔ onewire_crc8 (d ++ [b]) = 0 := by
    rw [(crc8_append d b).1]
    exact (dallas_byte_zero _ hlt b hb).symm
  refine ⟨h0, ?_, hiff, ?_, by decide!, by decide!⟩
  · rw [single_crc8_eq, single_crc8_eq]
    exact h0
  · rw [single_crc8_eq, single_crc8_eq]
    exact hiff

/-- C20 at the application-note vector: A2 is the CRC of 02 1C B8 01 00 00 00
and the eight bytes together give 0. -/
theorem C20_crc_residue_witness :
    0xA2 < 256 ∧
    (0xA2 = onewire_crc8 [0x02, 0x1C, 0xB8, 0x01, 0x00, 0x00, 0x00] ↔
      onewire_crc8 ([0x02, 0x1C, 0xB8, 0x01, 0x00, 0x00, 0x00] ++ [0xA2]) = 0) ∧
    onewire_crc8 ([0x02, 0x1C, 0xB8, 0x01, 0x00, 0x00, 0x00] ++ [0xA2]) = 0 :=
  ⟨by decide,
    (C20_crc_residue [0x02, 0x1C, 0xB8, 0x01, 0x00, 0x00, 0x00] 0xA2 (by decide)).2.2.1,
    by decide!⟩

end OneWire
